import Mathlib

/-!
# Verification of the minimalhabits interval scheduling / reconciliation engine

Shallow embedding of the core data model and algorithms of the habit
time-journal application:

* the interval merge engine (`mergeOverlappingEntries`, `addTimedEntry`
  from `src/hooks/useFeedback.ts`),
* active-timer management (`startTimer`, `deduplicateActiveTimers` from
  `src/hooks/useFeedback.ts`),
* dataset reconciliation (`mergeData` from `src/hooks/useCloudSync.ts`),
* the day-grid coordinate system and overlap layout (`slotToTime`,
  `timeToSlot`, `entryLayout`, `handleStopTimer` from the DayView
  component).

Modelling conventions:

* JavaScript numbers that only ever hold integers are modelled as `Int`
  (or `Nat` where the source value is a count).  `Math.floor(a / b)` with
  positive `b` is `Int.fdiv`, the JS `%` operator is `Int.tmod`; on the
  non-negative operands arising in this development these agree with
  Lean's `/` and `%` on `Int`.
* An `HH:MM` string is modelled by its parsed pair of numbers (`HM`); the
  source always produces such strings with `padStart(2,'0')` and parses
  them with `split(':').map(Number)`, so the pair carries exactly the
  information of the string.
* A JavaScript `Map` is modelled as an association list with the JS
  insertion-order semantics: `set` of a present key overwrites in place,
  `set` of an absent key appends; iteration is list order.
* A JavaScript `Set` is modelled as a list without duplicates built by
  append-if-absent.
-/

namespace MinimalHabits

/-- A wall-clock time of day as parsed from an `HH:MM` string:
`hh` hours, `mm` minutes (both non-negative by construction of the
parse of a padded decimal string). -/
structure HM where
  hh : Nat
  mm : Nat
deriving DecidableEq

/-- `TimedEntry` (a.k.a. TimeBlock) from `src/types/index.ts`:
`{ id, habitId, date, startTime (HH:MM), duration (minutes) }`. -/
structure TimedEntry where
  id : String
  habitId : String
  date : String
  startTime : HM
  duration : Int
deriving DecidableEq

/-- `ActiveTimer` from `src/types/index.ts`:
`{ id, habitId, date, startTime, startTimestamp }` where
`startTimestamp` is an absolute epoch-milliseconds instant. -/
structure ActiveTimer where
  id : String
  habitId : String
  date : String
  startTime : HM
  startTimestamp : Int
deriving DecidableEq

/-- `Habit` from `src/types/index.ts` (fields irrelevant to the claims
are kept for shape fidelity; optional fields are `Option`). -/
structure Habit where
  id : String
  groupId : Option String
  name : String
  emoji : Option String
  createdAt : String
deriving DecidableEq

/-- `HabitCompletion` from `src/types/index.ts`. -/
structure HabitCompletion where
  habitId : String
  date : String
  value : Int
deriving DecidableEq

/-- `HabitGroup` from `src/types/index.ts`. -/
structure HabitGroup where
  id : String
  name : String
  visible : Bool
deriving DecidableEq

/-- `HabitData`: the full aggregate snapshot exchanged with the remote
store (`{ habits, completions, groups, timedEntries, activeTimers }`). -/
structure HabitData where
  habits : List Habit
  completions : List HabitCompletion
  groups : List HabitGroup
  timedEntries : List TimedEntry
  activeTimers : List ActiveTimer
deriving DecidableEq

/-! ## Time helpers (`useFeedback.ts`) -/

/-- `timeToMinutesStatic` (useFeedback.ts:79): `HH:MM` → minutes from
midnight, `h * 60 + m`. -/
def timeToMinutesStatic (t : HM) : Int := (t.hh : Int) * 60 + (t.mm : Int)

/-- `minutesToTimeStatic` (useFeedback.ts:85): minutes → `HH:MM` with
`h = Math.floor(minutes / 60) % 24`, `m = minutes % 60`.  JS
`Math.floor(x/60)` is `Int.fdiv`, JS `%` is `Int.tmod`; the `toNat`
reflects that the result is rendered as an (unsigned, padded) decimal
string, which on the non-negative in-range inputs used by the
application is lossless. -/
def minutesToTimeStatic (minutes : Int) : HM :=
  ⟨((minutes.fdiv 60).tmod 24).toNat, (minutes.tmod 60).toNat⟩

/-- Start of an entry in minutes from midnight (abbreviation used
throughout; the source inlines `timeToMinutesStatic(entry.startTime)`). -/
def startMin (e : TimedEntry) : Int := timeToMinutesStatic e.startTime

/-- End of an entry in minutes from midnight (the source inlines
`timeToMinutesStatic(entry.startTime) + entry.duration`). -/
def endMin (e : TimedEntry) : Int := startMin e + e.duration

/-! ## Bulk interval merge (`mergeOverlappingEntries`, useFeedback.ts:92) -/

/-- The grouping key `` `${entry.habitId}:${entry.date}` ``
(useFeedback.ts:98). -/
def entryKey (e : TimedEntry) : String := e.habitId ++ ":" ++ e.date

/-- One step of filling the `groups` Map (useFeedback.ts:96–103): push
`e` onto the list stored under key `k`, creating the key (at the end,
per JS Map insertion order) if absent. -/
def insertGroup (k : String) (e : TimedEntry) :
    List (String × List TimedEntry) → List (String × List TimedEntry)
  | [] => [(k, [e])]
  | (k', es) :: rest =>
    if k' = k then (k', es ++ [e]) :: rest else (k', es) :: insertGroup k e rest

/-- The `groups` Map of `mergeOverlappingEntries` after the grouping
loop, as an insertion-ordered association list. -/
def groupByKey (entries : List TimedEntry) : List (String × List TimedEntry) :=
  entries.foldl (fun m e => insertGroup (entryKey e) e m) []

/-- The comparator `(a, b) => timeToMinutesStatic(a.startTime) -
timeToMinutesStatic(b.startTime)` (useFeedback.ts:114) as the ordering
relation it sorts by. -/
def startLE (a b : TimedEntry) : Prop := startMin a ≤ startMin b

instance : DecidableRel startLE := fun _ _ => Int.decLe _ _

instance : IsTotal TimedEntry startLE := ⟨fun _ _ => Int.le_total _ _⟩

instance : IsTrans TimedEntry startLE := ⟨fun _ _ _ => Int.le_trans⟩

/-- The merge sweep of useFeedback.ts:119–144: walk the sorted group
left-to-right keeping a `current` accumulator; if the next entry starts
no later than `current` ends (touching or overlapping), extend
`current`'s duration to cover `max(currentEnd, nextEnd)` keeping the
first entry's `id`/`startTime`; otherwise emit `current` and continue
from `next`. -/
def mergeSweep : TimedEntry → List TimedEntry → List TimedEntry
  | current, [] => [current]
  | current, next :: rest =>
    -- currentEnd = startMin current + current.duration, nextStart = startMin next;
    -- `currentEnd >= nextStart` means touching or overlapping, and the merged
    -- accumulator keeps id/habitId/date/startTime and gets
    -- duration = max(currentEnd, nextEnd) - currentStart.
    if startMin next ≤ startMin current + current.duration then
      mergeSweep
        { current with
          duration :=
            max (startMin current + current.duration) (startMin next + next.duration) -
              startMin current }
        rest
    else
      current :: mergeSweep next rest

/-- Processing of one `(habitId, date)` group (useFeedback.ts:107–146):
singleton groups are passed through untouched, larger groups are sorted
by start time (JS `sort` is stable; `insertionSort` by `≤` on starts is
the same stable sort) and swept. -/
def processGroup (groupEntries : List TimedEntry) : List TimedEntry :=
  if groupEntries.length = 1 then groupEntries
  else
    match List.insertionSort startLE groupEntries with
    | [] => []
    | c :: rest => mergeSweep c rest

/-- `mergeOverlappingEntries` (useFeedback.ts:92–149): group by
`habitId:date`, merge each group, concatenate the per-group results in
Map insertion order. -/
def mergeOverlappingEntries (entries : List TimedEntry) : List TimedEntry :=
  if entries = [] then entries
  else (groupByKey entries).flatMap (fun g => processGroup g.2)

/-! ### Sanity examples (spec §8, Examples 1 and 2) -/

example :
    mergeOverlappingEntries
      [⟨"a", "habitA", "day1", ⟨9, 0⟩, 30⟩, ⟨"b", "habitA", "day1", ⟨9, 25⟩, 30⟩] =
      [⟨"a", "habitA", "day1", ⟨9, 0⟩, 55⟩] := by decide

example :
    mergeOverlappingEntries
      [⟨"a", "habitA", "day1", ⟨9, 0⟩, 15⟩, ⟨"b", "habitA", "day1", ⟨9, 15⟩, 15⟩] =
      [⟨"a", "habitA", "day1", ⟨9, 0⟩, 30⟩] := by decide

/-! ## Properties of the merge sweep -/

theorem mergeSweep_ne_nil : ∀ (l : List TimedEntry) (c : TimedEntry),
    mergeSweep c l ≠ [] := by
  intro l
  induction l with
  | nil => intro c; simp [mergeSweep]
  | cons n rest ih =>
    intro c
    rw [mergeSweep]
    split
    · exact ih _
    · simp

/-- Every block produced by the sweep inherits its `id`, `habitId`, `date`
and `startTime` from one of the input entries (only durations are
recomputed). -/
theorem mergeSweep_fields : ∀ (l : List TimedEntry) (c : TimedEntry),
    ∀ x ∈ mergeSweep c l, ∃ s, (s = c ∨ s ∈ l) ∧
      x.id = s.id ∧ x.habitId = s.habitId ∧ x.date = s.date ∧ x.startTime = s.startTime := by
  intro l
  induction l with
  | nil =>
    intro c x hx
    simp only [mergeSweep, List.mem_singleton] at hx
    exact ⟨c, Or.inl rfl, by simp [hx]⟩
  | cons n rest ih =>
    intro c x hx
    rw [mergeSweep] at hx
    split at hx
    · obtain ⟨s, hs, hfields⟩ := ih _ x hx
      rcases hs with rfl | hs
      · exact ⟨c, Or.inl rfl, hfields⟩
      · exact ⟨s, Or.inr (List.mem_cons_of_mem _ hs), hfields⟩
    · rcases List.mem_cons.mp hx with hxc | hx
      · exact ⟨c, Or.inl rfl, by rw [hxc], by rw [hxc], by rw [hxc], by rw [hxc]⟩
      · obtain ⟨s, hs, hfields⟩ := ih n x hx
        rcases hs with rfl | hs
        · exact ⟨s, Or.inr (List.mem_cons_self _ _), hfields⟩
        · exact ⟨s, Or.inr (List.mem_cons_of_mem _ hs), hfields⟩

theorem mergeSweep_startMin_le (c : TimedEntry) (l : List TimedEntry)
    (h : ∀ e ∈ l, startMin c ≤ startMin e) :
    ∀ x ∈ mergeSweep c l, startMin c ≤ startMin x := by
  intro x hx
  obtain ⟨s, hs, -, -, -, hst⟩ := mergeSweep_fields l c x hx
  have hxs : startMin x = startMin s := by simp [startMin, hst]
  rcases hs with rfl | hs
  · simp [hxs]
  · exact hxs ▸ h s hs

/-- The sweep of a sorted group yields pairwise strictly separated blocks
(the end of any earlier block is strictly below the start of any later
one) listed in nondecreasing start order. -/
theorem mergeSweep_sep : ∀ (l : List TimedEntry) (c : TimedEntry),
    l.Sorted startLE → (∀ e ∈ l, startMin c ≤ startMin e) →
    (mergeSweep c l).Pairwise (fun a b => endMin a < startMin b) ∧
      (mergeSweep c l).Sorted startLE := by
  intro l
  induction l with
  | nil => intro c _ _; simp [mergeSweep, List.Sorted]
  | cons n rest ih =>
    intro c hsort hle
    have hsort' : rest.Sorted startLE := hsort.of_cons
    have hnle : ∀ e ∈ rest, startMin n ≤ startMin e := fun e he =>
      (List.pairwise_cons.mp hsort).1 e he
    rw [mergeSweep]
    split
    case isTrue hmerge =>
      exact ih _ hsort' (fun e he => hle e (List.mem_cons_of_mem _ he))
    case isFalse hemit =>
      have hends : endMin c < startMin n := by
        simp only [endMin]
        omega
      obtain ⟨ihsep, ihsort⟩ := ih n hsort' hnle
      have hbound := mergeSweep_startMin_le n rest hnle
      refine ⟨List.pairwise_cons.mpr ⟨?_, ihsep⟩, List.pairwise_cons.mpr ⟨?_, ihsort⟩⟩
      · intro x hx
        have := hbound x hx
        omega
      · intro x hx
        have h1 := hle n (List.mem_cons_self _ _)
        have h2 := hbound x hx
        exact h1.trans h2

/-- Sweeping an already pairwise-separated list changes nothing. -/
theorem mergeSweep_of_sep : ∀ (l : List TimedEntry) (c : TimedEntry),
    (c :: l).Pairwise (fun a b => endMin a < startMin b) →
    mergeSweep c l = c :: l := by
  intro l
  induction l with
  | nil => intro c _; simp [mergeSweep]
  | cons n rest ih =>
    intro c h
    have hcn : endMin c < startMin n :=
      (List.pairwise_cons.mp h).1 n (List.mem_cons_self _ _)
    rw [mergeSweep, if_neg (by simp only [endMin] at hcn; omega)]
    rw [ih n h.of_cons]

set_option maxHeartbeats 1000000 in
/-- Minute-coverage is preserved exactly by the sweep: a minute `m` lies
in one of the swept blocks (half-open `[start, start+duration)`) iff it
lies in one of the input blocks. -/
theorem mergeSweep_covers : ∀ (l : List TimedEntry) (c : TimedEntry),
    l.Sorted startLE → (∀ e ∈ l, startMin c ≤ startMin e) → ∀ m : Int,
    ((∃ x ∈ mergeSweep c l, startMin x ≤ m ∧ m < endMin x) ↔
      (∃ x ∈ c :: l, startMin x ≤ m ∧ m < endMin x)) := by
  intro l
  induction l with
  | nil => intro c _ _ m; simp [mergeSweep]
  | cons n rest ih =>
    intro c hsort hle m
    have hsort' : rest.Sorted startLE := hsort.of_cons
    have hnle : ∀ e ∈ rest, startMin n ≤ startMin e := fun e he =>
      (List.pairwise_cons.mp hsort).1 e he
    have hcn : startMin c ≤ startMin n := hle n (List.mem_cons_self _ _)
    rw [mergeSweep]
    split
    case isTrue hmerge =>
      obtain ⟨cm, hcm⟩ : ∃ y : TimedEntry,
          { c with duration := max (startMin c + c.duration) (startMin n + n.duration) - startMin c } = y :=
        ⟨_, rfl⟩
      rw [hcm]
      have hs : startMin cm = startMin c := by rw [← hcm]; rfl
      have he : endMin cm = max (startMin c + c.duration) (startMin n + n.duration) := by
        rw [← hcm]
        simp only [endMin, startMin, timeToMinutesStatic]
        omega
      have hble : ∀ e ∈ rest, startMin cm ≤ startMin e := by
        intro e hmem
        rw [hs]
        exact hle e (List.mem_cons_of_mem _ hmem)
      rw [ih cm hsort' hble]
      have key : (startMin cm ≤ m ∧ m < endMin cm) ↔
          ((startMin c ≤ m ∧ m < endMin c) ∨ (startMin n ≤ m ∧ m < endMin n)) := by
        rw [hs, he]
        simp only [endMin]
        omega
      simp only [List.exists_mem_cons_iff]
      rw [key, or_assoc]
    case isFalse hemit =>
      constructor
      · rintro ⟨x, hx, hcov⟩
        rcases List.mem_cons.mp hx with hxc | hx
        · exact ⟨x, hxc ▸ List.mem_cons_self _ _, hcov⟩
        · obtain ⟨y, hy, hycov⟩ := (ih n hsort' hnle m).mp ⟨x, hx, hcov⟩
          exact ⟨y, List.mem_cons_of_mem _ hy, hycov⟩
      · rintro ⟨x, hx, hcov⟩
        rcases List.mem_cons.mp hx with hxc | hx
        · exact ⟨x, hxc ▸ List.mem_cons_self _ _, hcov⟩
        · obtain ⟨y, hy, hycov⟩ := (ih n hsort' hnle m).mpr ⟨x, hx, hcov⟩
          exact ⟨y, List.mem_cons_of_mem _ hy, hycov⟩

/-! ## Properties of the grouping map -/

theorem insertGroup_fresh (k : String) (e : TimedEntry) :
    ∀ (m : List (String × List TimedEntry)), (∀ p ∈ m, p.1 ≠ k) →
      insertGroup k e m = m ++ [(k, [e])] := by
  intro m
  induction m with
  | nil => intro _; rfl
  | cons q rest ih =>
    intro h
    obtain ⟨k', es⟩ := q
    rw [insertGroup, if_neg (h (k', es) (List.mem_cons_self _ _)), ih (fun p hp => h p (List.mem_cons_of_mem _ hp))]
    rfl

theorem insertGroup_last (k : String) (e : TimedEntry) :
    ∀ (m : List (String × List TimedEntry)) (es : List TimedEntry), (∀ p ∈ m, p.1 ≠ k) →
      insertGroup k e (m ++ [(k, es)]) = m ++ [(k, es ++ [e])] := by
  intro m
  induction m with
  | nil => intro es _; simp [insertGroup]
  | cons q rest ih =>
    intro es h
    obtain ⟨k', es'⟩ := q
    show insertGroup k e ((k', es') :: (rest ++ [(k, es)])) =
      (k', es') :: (rest ++ [(k, es ++ [e])])
    rw [insertGroup, if_neg (h (k', es') (List.mem_cons_self _ _)),
      ih es (fun p hp => h p (List.mem_cons_of_mem _ hp))]

theorem mem_insertGroup (k : String) (e x : TimedEntry) :
    ∀ (m : List (String × List TimedEntry)),
      ((∃ p ∈ insertGroup k e m, x ∈ p.2) ↔ (∃ p ∈ m, x ∈ p.2) ∨ x = e) := by
  intro m
  induction m with
  | nil => simp [insertGroup]
  | cons q rest ih =>
    obtain ⟨k', es⟩ := q
    rw [insertGroup]
    by_cases hk : k' = k
    · rw [if_pos hk]
      constructor
      · rintro ⟨p, hp, hx⟩
        rcases List.mem_cons.mp hp with hpq | hp
        · subst hpq
          rcases List.mem_append.mp hx with hx | hx
          · exact Or.inl ⟨(k', es), List.mem_cons_self _ _, hx⟩
          · simp only [List.mem_singleton] at hx
            exact Or.inr hx
        · exact Or.inl ⟨p, List.mem_cons_of_mem _ hp, hx⟩
      · rintro (⟨p, hp, hx⟩ | hxe)
        · rcases List.mem_cons.mp hp with hpq | hp
          · subst hpq
            exact ⟨(k', es ++ [e]), List.mem_cons_self _ _, List.mem_append.mpr (Or.inl hx)⟩
          · exact ⟨p, List.mem_cons_of_mem _ hp, hx⟩
        · exact ⟨(k', es ++ [e]), List.mem_cons_self _ _,
            List.mem_append.mpr (Or.inr (by simp [hxe]))⟩
    · rw [if_neg hk]
      constructor
      · rintro ⟨p, hp, hx⟩
        rcases List.mem_cons.mp hp with hpq | hp
        · subst hpq
          exact Or.inl ⟨(k', es), List.mem_cons_self _ _, hx⟩
        · rcases ih.mp ⟨p, hp, hx⟩ with ⟨q, hq, hxq⟩ | hxe
          · exact Or.inl ⟨q, List.mem_cons_of_mem _ hq, hxq⟩
          · exact Or.inr hxe
      · rintro (⟨p, hp, hx⟩ | hxe)
        · rcases List.mem_cons.mp hp with hpq | hp
          · subst hpq
            exact ⟨(k', es), List.mem_cons_self _ _, hx⟩
          · obtain ⟨q, hq, hxq⟩ := ih.mpr (Or.inl ⟨p, hp, hx⟩)
            exact ⟨q, List.mem_cons_of_mem _ hq, hxq⟩
        · obtain ⟨q, hq, hxq⟩ := ih.mpr (Or.inr hxe)
          exact ⟨q, List.mem_cons_of_mem _ hq, hxq⟩

theorem insertGroup_keyOf (k : String) (e : TimedEntry) :
    ∀ (m : List (String × List TimedEntry)), ∀ p ∈ insertGroup k e m,
      p.1 = k ∨ ∃ q ∈ m, q.1 = p.1 := by
  intro m
  induction m with
  | nil =>
    intro p hp
    simp only [insertGroup, List.mem_singleton] at hp
    exact Or.inl (by rw [hp])
  | cons q rest ih =>
    obtain ⟨k', es⟩ := q
    intro p hp
    rw [insertGroup] at hp
    by_cases hk : k' = k
    · rw [if_pos hk] at hp
      rcases List.mem_cons.mp hp with hpq | hp
      · exact Or.inl (by rw [hpq, hk])
      · exact Or.inr ⟨p, List.mem_cons_of_mem _ hp, rfl⟩
    · rw [if_neg hk] at hp
      rcases List.mem_cons.mp hp with hpq | hp
      · exact Or.inr ⟨(k', es), List.mem_cons_self _ _, by rw [hpq]⟩
      · rcases ih p hp with h | ⟨q, hq, hqp⟩
        · exact Or.inl h
        · exact Or.inr ⟨q, List.mem_cons_of_mem _ hq, hqp⟩

theorem insertGroup_wf (k : String) (e : TimedEntry) (he : entryKey e = k) :
    ∀ (m : List (String × List TimedEntry)),
      (∀ p ∈ m, ∀ x ∈ p.2, entryKey x = p.1) →
      ∀ p ∈ insertGroup k e m, ∀ x ∈ p.2, entryKey x = p.1 := by
  intro m
  induction m with
  | nil =>
    intro _ p hp x hx
    simp only [insertGroup, List.mem_singleton] at hp
    subst hp
    simp only [List.mem_singleton] at hx
    rw [hx, he]
  | cons q rest ih =>
    obtain ⟨k', es⟩ := q
    intro hm p hp x hx
    rw [insertGroup] at hp
    by_cases hk : k' = k
    · rw [if_pos hk] at hp
      rcases List.mem_cons.mp hp with hpq | hp
      · subst hpq
        rcases List.mem_append.mp hx with hx | hx
        · exact hm (k', es) (List.mem_cons_self _ _) x hx
        · simp only [List.mem_singleton] at hx
          rw [hx, he, hk]
      · exact hm p (List.mem_cons_of_mem _ hp) x hx
    · rw [if_neg hk] at hp
      rcases List.mem_cons.mp hp with hpq | hp
      · subst hpq
        exact hm (k', es) (List.mem_cons_self _ _) x hx
      · exact ih (fun p hp => hm p (List.mem_cons_of_mem _ hp)) p hp x hx

theorem insertGroup_nodupKeys (k : String) (e : TimedEntry) :
    ∀ (m : List (String × List TimedEntry)),
      m.Pairwise (fun a b => a.1 ≠ b.1) →
      (insertGroup k e m).Pairwise (fun a b => a.1 ≠ b.1) := by
  intro m
  induction m with
  | nil => intro _; simp [insertGroup]
  | cons q rest ih =>
    obtain ⟨k', es⟩ := q
    intro hm
    obtain ⟨hhead, htail⟩ := List.pairwise_cons.mp hm
    rw [insertGroup]
    by_cases hk : k' = k
    · rw [if_pos hk]
      exact List.pairwise_cons.mpr ⟨fun q hq => hhead q hq, htail⟩
    · rw [if_neg hk]
      refine List.pairwise_cons.mpr ⟨?_, ih htail⟩
      intro q hq
      rcases insertGroup_keyOf k e rest q hq with h | ⟨r, hr, hrq⟩
      · rw [h]; exact hk
      · rw [← hrq]; exact hhead r hr

theorem insertGroup_nonNil (k : String) (e : TimedEntry) :
    ∀ (m : List (String × List TimedEntry)),
      (∀ p ∈ m, p.2 ≠ []) → ∀ p ∈ insertGroup k e m, p.2 ≠ [] := by
  intro m
  induction m with
  | nil =>
    intro _ p hp
    simp only [insertGroup, List.mem_singleton] at hp
    subst hp
    simp
  | cons q rest ih =>
    obtain ⟨k', es⟩ := q
    intro hm p hp
    rw [insertGroup] at hp
    by_cases hk : k' = k
    · rw [if_pos hk] at hp
      rcases List.mem_cons.mp hp with hpq | hp
      · subst hpq; simp
      · exact hm p (List.mem_cons_of_mem _ hp)
    · rw [if_neg hk] at hp
      rcases List.mem_cons.mp hp with hpq | hp
      · subst hpq; exact hm (k', es) (List.mem_cons_self _ _)
      · exact ih (fun p hp => hm p (List.mem_cons_of_mem _ hp)) p hp

/-- The grouping step used by `groupByKey`. -/
def groupStep (m : List (String × List TimedEntry)) (e : TimedEntry) :
    List (String × List TimedEntry) := insertGroup (entryKey e) e m

theorem groupByKey_eq_foldl (l : List TimedEntry) :
    groupByKey l = l.foldl groupStep [] := rfl

theorem foldl_groupStep_wf : ∀ (l : List TimedEntry) (m : List (String × List TimedEntry)),
    (∀ p ∈ m, ∀ x ∈ p.2, entryKey x = p.1) →
    ∀ p ∈ l.foldl groupStep m, ∀ x ∈ p.2, entryKey x = p.1 := by
  intro l
  induction l with
  | nil => intro m hm; exact hm
  | cons e rest ih =>
    intro m hm
    exact ih (groupStep m e) (insertGroup_wf (entryKey e) e rfl m hm)

theorem foldl_groupStep_nodupKeys : ∀ (l : List TimedEntry) (m : List (String × List TimedEntry)),
    m.Pairwise (fun a b => a.1 ≠ b.1) →
    (l.foldl groupStep m).Pairwise (fun a b => a.1 ≠ b.1) := by
  intro l
  induction l with
  | nil => intro m hm; exact hm
  | cons e rest ih =>
    intro m hm
    exact ih (groupStep m e) (insertGroup_nodupKeys (entryKey e) e m hm)

theorem foldl_groupStep_nonNil : ∀ (l : List TimedEntry) (m : List (String × List TimedEntry)),
    (∀ p ∈ m, p.2 ≠ []) → ∀ p ∈ l.foldl groupStep m, p.2 ≠ [] := by
  intro l
  induction l with
  | nil => intro m hm; exact hm
  | cons e rest ih =>
    intro m hm
    exact ih (groupStep m e) (insertGroup_nonNil (entryKey e) e m hm)

theorem foldl_groupStep_mem (x : TimedEntry) :
    ∀ (l : List TimedEntry) (m : List (String × List TimedEntry)),
      ((∃ p ∈ l.foldl groupStep m, x ∈ p.2) ↔ (∃ p ∈ m, x ∈ p.2) ∨ x ∈ l) := by
  intro l
  induction l with
  | nil => intro m; simp
  | cons e rest ih =>
    intro m
    rw [List.foldl_cons]
    rw [ih (groupStep m e)]
    rw [show groupStep m e = insertGroup (entryKey e) e m from rfl, mem_insertGroup]
    simp only [List.mem_cons]
    rw [or_assoc]

theorem groupByKey_wf (l : List TimedEntry) :
    ∀ p ∈ groupByKey l, ∀ x ∈ p.2, entryKey x = p.1 :=
  foldl_groupStep_wf l [] (by simp)

theorem groupByKey_nodupKeys (l : List TimedEntry) :
    (groupByKey l).Pairwise (fun a b => a.1 ≠ b.1) :=
  foldl_groupStep_nodupKeys l [] (by simp)

theorem groupByKey_nonNil (l : List TimedEntry) :
    ∀ p ∈ groupByKey l, p.2 ≠ [] :=
  foldl_groupStep_nonNil l [] (by simp)

theorem mem_groupByKey (x : TimedEntry) (l : List TimedEntry) :
    (∃ p ∈ groupByKey l, x ∈ p.2) ↔ x ∈ l := by
  rw [groupByKey_eq_foldl, foldl_groupStep_mem]
  simp

/-- Re-grouping a concatenation of groups with pairwise distinct keys,
whose members carry their group's key, reproduces the group list. -/
theorem groupByKey_flatMap :
    ∀ (gs : List (String × List TimedEntry)) (m : List (String × List TimedEntry)),
      gs.Pairwise (fun a b => a.1 ≠ b.1) →
      (∀ p ∈ gs, ∀ e ∈ p.2, entryKey e = p.1) →
      (∀ p ∈ gs, p.2 ≠ []) →
      (∀ p ∈ gs, ∀ q ∈ m, q.1 ≠ p.1) →
      (gs.flatMap (fun p => p.2)).foldl groupStep m = m ++ gs := by
  intro gs
  induction gs with
  | nil => intro m _ _ _ _; simp
  | cons g rest ih =>
    obtain ⟨k, B⟩ := g
    intro m h1 h2 h3 hfresh
    have hBkey : ∀ e ∈ B, entryKey e = k := h2 (k, B) (List.mem_cons_self _ _)
    have hBne : B ≠ [] := h3 (k, B) (List.mem_cons_self _ _)
    obtain ⟨b, B', rfl⟩ := List.exists_cons_of_ne_nil hBne
    have hrun : ∀ (B₂ : List TimedEntry), (∀ e ∈ B₂, entryKey e = k) →
        ∀ (es : List TimedEntry),
        B₂.foldl groupStep (m ++ [(k, es)]) = m ++ [(k, es ++ B₂)] := by
      intro B₂
      induction B₂ with
      | nil => intro _ es; simp
      | cons b₂ B₃ ihB =>
        intro hkeys es
        rw [List.foldl_cons]
        rw [show groupStep (m ++ [(k, es)]) b₂ = insertGroup (entryKey b₂) b₂ (m ++ [(k, es)]) from rfl]
        rw [hkeys b₂ (List.mem_cons_self _ _)]
        rw [insertGroup_last k b₂ m es (fun p hp => hfresh (k, b :: B') (List.mem_cons_self _ _) p hp)]
        rw [ihB (fun e he => hkeys e (List.mem_cons_of_mem _ he)) (es ++ [b₂])]
        simp
    have hstep1 : List.foldl groupStep m (b :: B') = m ++ [(k, b :: B')] := by
      rw [List.foldl_cons]
      rw [show groupStep m b = insertGroup (entryKey b) b m from rfl]
      rw [hBkey b (List.mem_cons_self _ _)]
      rw [insertGroup_fresh k b m (fun p hp => hfresh (k, b :: B') (List.mem_cons_self _ _) p hp)]
      have := hrun B' (fun e he => hBkey e (List.mem_cons_of_mem _ he)) [b]
      simpa using this
    rw [List.flatMap_cons, List.foldl_append, hstep1]
    rw [ih (m ++ [(k, b :: B')]) h1.of_cons
      (fun p hp => h2 p (List.mem_cons_of_mem _ hp))
      (fun p hp => h3 p (List.mem_cons_of_mem _ hp))
      ?_]
    · simp
    · intro p hp q hq
      rcases List.mem_append.mp hq with hq | hq
      · exact hfresh p (List.mem_cons_of_mem _ hp) q hq
      · simp only [List.mem_singleton] at hq
        subst hq
        exact fun hkp => (List.pairwise_cons.mp h1).1 p hp hkp

/-! ## Properties of a processed group -/

theorem processGroup_ne_nil (es : List TimedEntry) (h : es ≠ []) :
    processGroup es ≠ [] := by
  rw [processGroup]
  by_cases hlen : es.length = 1
  · rw [if_pos hlen]; exact h
  · rw [if_neg hlen]
    cases hs : List.insertionSort startLE es with
    | nil =>
      exfalso
      have := List.perm_insertionSort startLE es
      rw [hs] at this
      exact h this.symm.eq_nil
    | cons c rest => exact mergeSweep_ne_nil rest c

theorem processGroup_fields (es : List TimedEntry) :
    ∀ x ∈ processGroup es, ∃ s ∈ es,
      x.id = s.id ∧ x.habitId = s.habitId ∧ x.date = s.date ∧ x.startTime = s.startTime := by
  rw [processGroup]
  by_cases hlen : es.length = 1
  · rw [if_pos hlen]
    intro x hx
    exact ⟨x, hx, rfl, rfl, rfl, rfl⟩
  · rw [if_neg hlen]
    cases hs : List.insertionSort startLE es with
    | nil => intro x hx; simp at hx
    | cons c rest =>
      intro x hx
      obtain ⟨s, hsor, hfields⟩ := mergeSweep_fields rest c x hx
      have hmem : s ∈ c :: rest := by
        rcases hsor with rfl | hsor
        · exact List.mem_cons_self _ _
        · exact List.mem_cons_of_mem _ hsor
      have hperm : (c :: rest).Perm es := hs ▸ List.perm_insertionSort startLE es
      exact ⟨s, hperm.mem_iff.mp hmem, hfields⟩

theorem processGroup_sep (es : List TimedEntry) :
    (processGroup es).Pairwise (fun a b => endMin a < startMin b) ∧
      (processGroup es).Sorted startLE := by
  rw [processGroup]
  by_cases hlen : es.length = 1
  · rw [if_pos hlen]
    obtain ⟨a, rfl⟩ := List.length_eq_one.mp hlen
    simp [List.Sorted]
  · rw [if_neg hlen]
    cases hs : List.insertionSort startLE es with
    | nil => simp [List.Sorted]
    | cons c rest =>
      have hsorted : (c :: rest).Sorted startLE := hs ▸ List.sorted_insertionSort startLE es
      exact mergeSweep_sep rest c hsorted.of_cons
        (fun e he => (List.pairwise_cons.mp hsorted).1 e he)

theorem processGroup_covers (es : List TimedEntry) (m : Int) :
    (∃ x ∈ processGroup es, startMin x ≤ m ∧ m < endMin x) ↔
      (∃ x ∈ es, startMin x ≤ m ∧ m < endMin x) := by
  rw [processGroup]
  by_cases hlen : es.length = 1
  · rw [if_pos hlen]
  · rw [if_neg hlen]
    cases hs : List.insertionSort startLE es with
    | nil =>
      have := List.perm_insertionSort startLE es
      rw [hs] at this
      rw [this.symm.eq_nil]
    | cons c rest =>
      have hsorted : (c :: rest).Sorted startLE := hs ▸ List.sorted_insertionSort startLE es
      have hperm : (c :: rest).Perm es := hs ▸ List.perm_insertionSort startLE es
      rw [mergeSweep_covers rest c hsorted.of_cons
        (fun e he => (List.pairwise_cons.mp hsorted).1 e he) m]
      constructor
      · rintro ⟨x, hx, hcov⟩
        exact ⟨x, hperm.mem_iff.mp hx, hcov⟩
      · rintro ⟨x, hx, hcov⟩
        exact ⟨x, hperm.mem_iff.mpr hx, hcov⟩

/-- Re-processing an already processed group changes nothing. -/
theorem processGroup_idem (es : List TimedEntry) :
    processGroup (processGroup es) = processGroup es := by
  obtain ⟨hsep, hsort⟩ := processGroup_sep es
  rw [processGroup]
  by_cases hlen : (processGroup es).length = 1
  · rw [if_pos hlen]
  · rw [if_neg hlen, hsort.insertionSort_eq]
    cases hpe : processGroup es with
    | nil => rfl
    | cons c rest =>
      show mergeSweep c rest = c :: rest
      exact mergeSweep_of_sep rest c (hpe ▸ hsep)

/-! ## `mergeOverlappingEntries` as a flat map over groups -/

theorem mergeOverlappingEntries_eq_flatMap (l : List TimedEntry) :
    mergeOverlappingEntries l = (groupByKey l).flatMap (fun g => processGroup g.2) := by
  by_cases h : l = []
  · subst h; rfl
  · rw [mergeOverlappingEntries, if_neg h]

theorem groupByKey_merge (l : List TimedEntry) :
    groupByKey (mergeOverlappingEntries l) =
      (groupByKey l).map (fun p => (p.1, processGroup p.2)) := by
  rw [mergeOverlappingEntries_eq_flatMap]
  have hflat : (groupByKey l).flatMap (fun g => processGroup g.2) =
      ((groupByKey l).map (fun p => (p.1, processGroup p.2))).flatMap (fun p => p.2) := by
    rw [List.flatMap_map]
  rw [hflat, groupByKey_eq_foldl]
  have := groupByKey_flatMap ((groupByKey l).map (fun p => (p.1, processGroup p.2))) []
    ?_ ?_ ?_ (by simp)
  · simpa using this
  · rw [List.pairwise_map]
    exact (groupByKey_nodupKeys l).imp (fun h => h)
  · intro p hp e he
    obtain ⟨q, hq, rfl⟩ := List.mem_map.mp hp
    obtain ⟨s, hs, -, hhab, hdate, -⟩ := processGroup_fields q.2 e he
    have hkey := groupByKey_wf l q hq s hs
    show entryKey e = q.1
    rw [← hkey]
    simp only [entryKey, hhab, hdate]
  · intro p hp
    obtain ⟨q, hq, rfl⟩ := List.mem_map.mp hp
    exact processGroup_ne_nil q.2 (groupByKey_nonNil l q hq)

/-- C2 core: bulk normalization is idempotent, as a list equality (same
blocks, same ids, same order). -/
theorem mergeOverlappingEntries_idem_aux (S : List TimedEntry) :
    mergeOverlappingEntries (mergeOverlappingEntries S) = mergeOverlappingEntries S := by
  rw [mergeOverlappingEntries_eq_flatMap (mergeOverlappingEntries S), groupByKey_merge,
    List.flatMap_map]
  simp only [processGroup_idem]
  rw [← mergeOverlappingEntries_eq_flatMap]

/-! ## Per-group views of the merge output -/

/-- The Boolean filter selecting the `(habitId, date)` group of a list. -/
def inGroup (hab d : String) (e : TimedEntry) : Bool :=
  decide (e.habitId = hab ∧ e.date = d)

theorem mergedGroups_wf (l : List TimedEntry) :
    ∀ p ∈ (groupByKey l).map (fun p => (p.1, processGroup p.2)), ∀ e ∈ p.2, entryKey e = p.1 := by
  intro p hp e he
  obtain ⟨q, hq, rfl⟩ := List.mem_map.mp hp
  obtain ⟨s, hs, -, hhab, hdate, -⟩ := processGroup_fields q.2 e he
  have hkey := groupByKey_wf l q hq s hs
  show entryKey e = q.1
  rw [← hkey]
  simp only [entryKey, hhab, hdate]

theorem mergedGroups_nodupKeys (l : List TimedEntry) :
    ((groupByKey l).map (fun p => (p.1, processGroup p.2))).Pairwise
      (fun a b => a.1 ≠ b.1) := by
  rw [List.pairwise_map]
  exact (groupByKey_nodupKeys l).imp (fun h => h)

/-- Filtering a flat map of keyed groups by a `(habitId, date)` pair picks
out (a sublist of) at most one group, so any per-group pairwise property
survives. -/
theorem filter_flatMap_group (hab d : String) (R : TimedEntry → TimedEntry → Prop) :
    ∀ (gs : List (String × List TimedEntry)),
      (∀ p ∈ gs, ∀ e ∈ p.2, entryKey e = p.1) →
      gs.Pairwise (fun a b => a.1 ≠ b.1) →
      (∀ p ∈ gs, p.2.Pairwise R) →
      ((gs.flatMap (fun p => p.2)).filter (inGroup hab d)).Pairwise R := by
  intro gs
  induction gs with
  | nil => intro _ _ _; simp
  | cons g rest ih =>
    obtain ⟨k, B⟩ := g
    intro hwf hnd hblocks
    rw [List.flatMap_cons, List.filter_append]
    by_cases hkey : k = hab ++ ":" ++ d
    · have hrest : (rest.flatMap (fun p => p.2)).filter (inGroup hab d) = [] := by
        rw [List.filter_eq_nil_iff]
        intro e he
        obtain ⟨q, hq, heq⟩ := List.mem_flatMap.mp he
        intro hpass
        obtain ⟨hhab, hdate⟩ := of_decide_eq_true hpass
        have h1 : entryKey e = q.1 := hwf q (List.mem_cons_of_mem _ hq) e heq
        have h2 : entryKey e = k := by
          simp only [entryKey, hhab, hdate, hkey]
        exact (List.pairwise_cons.mp hnd).1 q hq (h2.symm.trans h1)
      rw [hrest, List.append_nil]
      exact (hblocks (k, B) (List.mem_cons_self _ _)).filter _
    · have hB : B.filter (inGroup hab d) = [] := by
        rw [List.filter_eq_nil_iff]
        intro e he hpass
        obtain ⟨hhab, hdate⟩ := of_decide_eq_true hpass
        have h1 : entryKey e = k := hwf (k, B) (List.mem_cons_self _ _) e he
        apply hkey
        rw [← h1]
        simp only [entryKey, hhab, hdate]
      rw [hB, List.nil_append]
      exact ih (fun p hp => hwf p (List.mem_cons_of_mem _ hp)) hnd.of_cons
        (fun p hp => hblocks p (List.mem_cons_of_mem _ hp))

/-- C1 -- No-overlap invariant of bulk normalization: within every
`(habitId, date)` group of the output of `mergeOverlappingEntries`, any
earlier block ends strictly before any later block starts (so no two
distinct blocks of a group overlap or even touch), and the group is
listed in nondecreasing start order (so "earlier in the list" coincides
with "earlier start"). -/
theorem mergeOverlappingEntries_no_overlap (l : List TimedEntry) (hab d : String) :
    ((mergeOverlappingEntries l).filter (inGroup hab d)).Pairwise
      (fun a b => endMin a < startMin b ∧ startMin a ≤ startMin b) := by
  rw [mergeOverlappingEntries_eq_flatMap]
  have hflat : (groupByKey l).flatMap (fun g => processGroup g.2) =
      ((groupByKey l).map (fun p => (p.1, processGroup p.2))).flatMap (fun p => p.2) := by
    rw [List.flatMap_map]
  rw [hflat]
  apply filter_flatMap_group hab d _ _ (mergedGroups_wf l) (mergedGroups_nodupKeys l)
  intro p hp
  obtain ⟨q, hq, rfl⟩ := List.mem_map.mp hp
  obtain ⟨hsep, hsort⟩ := processGroup_sep q.2
  exact hsep.and hsort

/-- C2 -- Merge idempotence: running bulk normalization twice returns the
very same list of blocks (no further merges, no change to any block's id,
start or duration, and no reordering). -/
theorem mergeOverlappingEntries_idem (S : List TimedEntry) :
    mergeOverlappingEntries (mergeOverlappingEntries S) = mergeOverlappingEntries S :=
  mergeOverlappingEntries_idem_aux S

/-- C10 counterexample: the grouping key is the string
`habitId ++ ":" ++ date`, so the distinct groups `("a:b", "c")` and
`("a", "b:c")` collide.  Minute 6 of group `("a", "b:c")` is covered by
the input but by no output block of that group (and the code even
reports 14 minutes of `("a:b", "c")` time that was never logged). -/
theorem mergeOverlappingEntries_coverage_counterexample :
    (∃ x ∈ ([⟨"A", "a:b", "c", ⟨0, 0⟩, 10⟩, ⟨"B", "a", "b:c", ⟨0, 5⟩, 10⟩] :
        List TimedEntry).filter (inGroup "a" "b:c"), startMin x ≤ 6 ∧ 6 < endMin x) ∧
    ¬(∃ x ∈ (mergeOverlappingEntries
        [⟨"A", "a:b", "c", ⟨0, 0⟩, 10⟩, ⟨"B", "a", "b:c", ⟨0, 5⟩, 10⟩]).filter
          (inGroup "a" "b:c"), startMin x ≤ 6 ∧ 6 < endMin x) := by
  decide

/-- C10 (amended) -- Coverage preservation of bulk normalization: provided
distinct `(habitId, date)` pairs never collide on the string grouping key
`habitId ++ ":" ++ date` (true of all application data, whose habit ids
are colon-free), a minute of a `(habitId, date)` group is covered by some
output block of that group iff it is covered by some input block of it. -/
theorem mergeOverlappingEntries_coverage (l : List TimedEntry)
    (hinj : ∀ e ∈ l, ∀ f ∈ l, entryKey e = entryKey f →
      e.habitId = f.habitId ∧ e.date = f.date)
    (hab d : String) (m : Int) :
    ((∃ x ∈ (mergeOverlappingEntries l).filter (inGroup hab d),
        startMin x ≤ m ∧ m < endMin x) ↔
      (∃ x ∈ l.filter (inGroup hab d), startMin x ≤ m ∧ m < endMin x)) := by
  constructor
  · rintro ⟨x, hxf, hcov⟩
    obtain ⟨hxmem, hxpass⟩ := List.mem_filter.mp hxf
    obtain ⟨hxhab, hxdate⟩ := of_decide_eq_true hxpass
    rw [mergeOverlappingEntries_eq_flatMap] at hxmem
    obtain ⟨p, hp, hxp⟩ := List.mem_flatMap.mp hxmem
    obtain ⟨src, hsrc, -, hhab, hdate, -⟩ := processGroup_fields p.2 x hxp
    obtain ⟨e, he, hecov⟩ := (processGroup_covers p.2 m).mp ⟨x, hxp, hcov⟩
    have hel : e ∈ l := (mem_groupByKey e l).mp ⟨p, hp, he⟩
    have hsl : src ∈ l := (mem_groupByKey src l).mp ⟨p, hp, hsrc⟩
    have hkeys : entryKey e = entryKey src := by
      rw [groupByKey_wf l p hp e he, groupByKey_wf l p hp src hsrc]
    obtain ⟨hh, hd⟩ := hinj e hel src hsl hkeys
    refine ⟨e, List.mem_filter.mpr ⟨hel, decide_eq_true ?_⟩, hecov⟩
    constructor
    · rw [hh, ← hhab, hxhab]
    · rw [hd, ← hdate, hxdate]
  · rintro ⟨e, hef, hecov⟩
    obtain ⟨hemem, hepass⟩ := List.mem_filter.mp hef
    obtain ⟨hehab, hedate⟩ := of_decide_eq_true hepass
    obtain ⟨p, hp, hep⟩ := (mem_groupByKey e l).mpr hemem
    obtain ⟨x, hxp, hxcov⟩ := (processGroup_covers p.2 m).mpr ⟨e, hep, hecov⟩
    obtain ⟨src, hsrc, -, hhab, hdate, -⟩ := processGroup_fields p.2 x hxp
    have hsl : src ∈ l := (mem_groupByKey src l).mp ⟨p, hp, hsrc⟩
    have hkeys : entryKey src = entryKey e := by
      rw [groupByKey_wf l p hp src hsrc, groupByKey_wf l p hp e hep]
    obtain ⟨hh, hd⟩ := hinj src hsl e hemem hkeys
    refine ⟨x, List.mem_filter.mpr ⟨?_, decide_eq_true ?_⟩, hxcov⟩
    · rw [mergeOverlappingEntries_eq_flatMap]
      exact List.mem_flatMap.mpr ⟨p, hp, hxp⟩
    · constructor
      · rw [hhab, hh, hehab]
      · rw [hdate, hd, hedate]

/-- C10 amended-theorem witness: the key-injectivity hypothesis holds at a
concrete input with two habits on one day, and the coverage equivalence
follows from `mergeOverlappingEntries_coverage` there. -/
theorem mergeOverlappingEntries_coverage_witness :
    (∀ e ∈ ([⟨"A", "h1", "2024-01-01", ⟨9, 0⟩, 30⟩, ⟨"B", "h1", "2024-01-01", ⟨9, 15⟩, 30⟩,
        ⟨"C", "h2", "2024-01-01", ⟨9, 0⟩, 15⟩] : List TimedEntry),
      ∀ f ∈ ([⟨"A", "h1", "2024-01-01", ⟨9, 0⟩, 30⟩, ⟨"B", "h1", "2024-01-01", ⟨9, 15⟩, 30⟩,
        ⟨"C", "h2", "2024-01-01", ⟨9, 0⟩, 15⟩] : List TimedEntry),
        entryKey e = entryKey f → e.habitId = f.habitId ∧ e.date = f.date) ∧
    ((∃ x ∈ (mergeOverlappingEntries
          [⟨"A", "h1", "2024-01-01", ⟨9, 0⟩, 30⟩, ⟨"B", "h1", "2024-01-01", ⟨9, 15⟩, 30⟩,
            ⟨"C", "h2", "2024-01-01", ⟨9, 0⟩, 15⟩]).filter (inGroup "h1" "2024-01-01"),
        startMin x ≤ 560 ∧ 560 < endMin x) ↔
      (∃ x ∈ ([⟨"A", "h1", "2024-01-01", ⟨9, 0⟩, 30⟩, ⟨"B", "h1", "2024-01-01", ⟨9, 15⟩, 30⟩,
          ⟨"C", "h2", "2024-01-01", ⟨9, 0⟩, 15⟩] : List TimedEntry).filter
            (inGroup "h1" "2024-01-01"),
        startMin x ≤ 560 ∧ 560 < endMin x)) :=
  ⟨by decide, mergeOverlappingEntries_coverage _ (by decide) "h1" "2024-01-01" 560⟩

/-! ## Day-grid coordinate system (DayView, `src/components/DayView.tsx`) -/

/-- Grid configuration (DayView:106–110). -/
def START_HOUR : Int := 0

def HOURS_PER_COLUMN : Int := 8

def COLUMNS : Int := 3

def SLOTS_PER_HOUR : Int := 4

def ROWS : Int := HOURS_PER_COLUMN * SLOTS_PER_HOUR

/-- `slotToTime` (DayView:113–118): `hourOffset = Math.floor(row / 4)`,
`minute = (row % 4) * 15`, `hour = (START_HOUR + col*8 + hourOffset) % 24`.
JS `Math.floor` division is `Int.fdiv` and JS `%` is `Int.tmod`. -/
def slotToTime (col row : Int) : Int × Int :=
  ((START_HOUR + col * HOURS_PER_COLUMN + row.fdiv SLOTS_PER_HOUR).tmod 24,
    row.tmod SLOTS_PER_HOUR * 15)

/-- `timeToSlot` (DayView:121–131): the inverse mapping, `none` when the
computed column or row falls outside the 3×32 grid. -/
def timeToSlot (hour minute : Int) : Option (Int × Int) :=
  let hfs := hour - START_HOUR
  let hoursFromStart := if hfs < 0 then hfs + 24 else hfs
  let col := hoursFromStart.fdiv HOURS_PER_COLUMN
  let hourInCol := hoursFromStart.tmod HOURS_PER_COLUMN
  let row := hourInCol * SLOTS_PER_HOUR + minute.fdiv 15
  if COLUMNS ≤ col ∨ ROWS ≤ row then none else some (col, row)

/-- C8 -- Round-trip of the slot coordinate mappings: for every valid
grid coordinate (column 0..2, row 0..31), `timeToSlot` applied to the
`(hour, minute)` produced by `slotToTime` returns exactly the original
`(col, row)` (never `none`). -/
theorem timeToSlot_slotToTime (col row : Int)
    (h1 : 0 ≤ col) (h2 : col ≤ 2) (h3 : 0 ≤ row) (h4 : row ≤ 31) :
    timeToSlot (slotToTime col row).1 (slotToTime col row).2 = some (col, row) := by
  interval_cases col <;> interval_cases row <;> decide

theorem timeToSlot_slotToTime_witness :
    ((0 : Int) ≤ 1 ∧ (1 : Int) ≤ 2 ∧ (0 : Int) ≤ 5 ∧ (5 : Int) ≤ 31) ∧
      timeToSlot (slotToTime 1 5).1 (slotToTime 1 5).2 = some (1, 5) :=
  ⟨⟨by decide, by decide, by decide, by decide⟩,
    timeToSlot_slotToTime 1 5 (by decide) (by decide) (by decide) (by decide)⟩

/-! ## Stop-timer duration rounding (`handleStopTimer`, DayView:722–734) -/

/-- The duration computation of `handleStopTimer` (DayView:726–728):
`Math.max(15, Math.ceil(elapsedSeconds / 60 / 15) * 15)`.  JS divides in
floating point; over the rationals (exact at every magnitude the
application can produce) the two successive divisions are `e / 60 / 15`. -/
def stopTimerDurationMinutes (elapsedSeconds : ℚ) : ℚ :=
  max 15 (⌈elapsedSeconds / 60 / 15⌉ * 15)

/-- C9 -- Stopping a timer rounds the elapsed time up to the next
15-minute quantum with a 15-minute minimum: for every non-negative number
of elapsed seconds `e` the stored duration is `max(15, ⌈e / 900⌉ * 15)`;
in particular a timer stopped after 37 seconds yields a 15-minute
block. -/
theorem stopTimerDurationMinutes_spec :
    (∀ e : ℕ, stopTimerDurationMinutes e = max 15 (⌈(e : ℚ) / 900⌉ * 15)) ∧
      stopTimerDurationMinutes 37 = 15 := by
  constructor
  · intro e
    rw [stopTimerDurationMinutes, div_div]
    norm_num
  · rw [stopTimerDurationMinutes, div_div]
    have hc : (⌈(37 : ℚ) / (60 * 15)⌉ : ℤ) = 1 := by
      rw [Int.ceil_eq_iff]
      norm_num
    rw [hc]
    norm_num

/-! ## Active timer manager (`useFeedback.ts`) -/

/-- Generic JS `Map` as an insertion-ordered association list: `set` of a
present key overwrites in place, of an absent key appends. -/
def mapSet {α β : Type} [DecidableEq α] (k : α) (v : β) :
    List (α × β) → List (α × β)
  | [] => [(k, v)]
  | (k', v') :: rest => if k' = k then (k, v) :: rest else (k', v') :: mapSet k v rest

/-- JS `Map.get`. -/
def mapLookup {α β : Type} [DecidableEq α] (k : α) (m : List (α × β)) : Option β :=
  (m.find? (fun p => decide (p.1 = k))).map (fun p => p.2)

/-- The per-timer step of the "keep the earliest timer per habit" Map
accumulation, shared verbatim by `deduplicateActiveTimers`
(useFeedback.ts:152–161) and the two `activeTimers` loops of `mergeData`
(useCloudSync.ts:229–234 and 259–264):
`if (!existing || t.startTimestamp < existing.startTimestamp) set(t.habitId, t)`. -/
def timerStep (m : List (String × ActiveTimer)) (timer : ActiveTimer) :
    List (String × ActiveTimer) :=
  match mapLookup timer.habitId m with
  | none => mapSet timer.habitId timer m
  | some existing =>
    if timer.startTimestamp < existing.startTimestamp then mapSet timer.habitId timer m
    else m

/-- `deduplicateActiveTimers` (useFeedback.ts:152–161): one timer per
habit, earliest `startTimestamp` wins, output in Map insertion order. -/
def deduplicateActiveTimers (timers : List ActiveTimer) : List ActiveTimer :=
  (timers.foldl timerStep []).map (fun p => p.2)

/-- The slice of `useHabits` state the timer actions read and write. -/
structure TimerState where
  timedEntries : List TimedEntry
  activeTimers : List ActiveTimer
deriving DecidableEq

/-- `startTimer` (useFeedback.ts:531–604).  Environment parameters:
`timestampIn` is the resolved `customStartTimestamp ?? Date.now()`,
`hmToTs` maps an `HH:MM` wall time to the epoch timestamp the code
computes by `new Date(); d.setHours(h, m, 0, 0); d.getTime()`, and
`newId` is the `generateId()` result.  Returns the updated state and the
timer the function returns. -/
def startTimer (st : TimerState) (habitId date : String) (startTime : HM)
    (timestampIn : Int) (hmToTs : HM → Int) (newId : String) :
    TimerState × ActiveTimer :=
  match st.activeTimers.find? (fun t => decide (t.habitId = habitId)) with
  | some existingTimer =>
    if existingTimer.startTimestamp ≤ timestampIn then
      -- already have an earlier (or equally early) timer running
      (st, existingTimer)
    else
      -- new timer is earlier, replace existing (and return before any
      -- resume-merge scan)
      ({ st with
          activeTimers := st.activeTimers.map
            (fun t => if t.habitId = habitId then
              ⟨newId, habitId, date, startTime, timestampIn⟩ else t) },
        ⟨newId, habitId, date, startTime, timestampIn⟩)
  | none =>
    -- resume-merge scan: same-habit same-day entries whose end is within
    -- the 15-minute grace window of the requested start
    let newStartMinutes := timeToMinutesStatic startTime
    let entriesToMerge := st.timedEntries.filter (fun e =>
      decide (e.habitId = habitId ∧ e.date = date ∧
        newStartMinutes - 15 ≤ timeToMinutesStatic e.startTime + e.duration))
    if entriesToMerge.isEmpty then
      ({ st with activeTimers :=
          st.activeTimers ++ [⟨newId, habitId, date, startTime, timestampIn⟩] },
        ⟨newId, habitId, date, startTime, timestampIn⟩)
    else
      -- earliest start among the requested time and all matched entries
      let effectiveStartTime := (entriesToMerge.foldl
        (fun acc e =>
          if timeToMinutesStatic e.startTime < acc.1 then
            (timeToMinutesStatic e.startTime, e.startTime)
          else acc)
        (newStartMinutes, startTime)).2
      let timestamp := hmToTs effectiveStartTime
      ({ timedEntries := st.timedEntries.filter (fun e =>
            !(entriesToMerge.any (fun r => decide (r.id = e.id)))),
          activeTimers :=
            st.activeTimers ++ [⟨newId, habitId, date, effectiveStartTime, timestamp⟩] },
        ⟨newId, habitId, date, effectiveStartTime, timestamp⟩)

/-- C4 counterexample: a habit with a running timer started later
(timestamp 1000) than the new request (timestamp 500), and a same-habit
same-day block `09:00`–`09:30` within the 15-minute grace window of the
requested start `09:40` (first conjunct).  The claim says the block is
absorbed (deleted) and the timer's effective start becomes `09:00`; the
code replaces the timer and returns without scanning: the block list is
unchanged and the stored start time is exactly the requested `09:40`. -/
theorem startTimer_replace_counterexample :
    (timeToMinutesStatic ⟨9, 40⟩ - 15 ≤
      timeToMinutesStatic (⟨9, 0⟩ : HM) + 30) ∧
    (startTimer ⟨[⟨"e1", "h", "d", ⟨9, 0⟩, 30⟩], [⟨"t0", "h", "d", ⟨9, 50⟩, 1000⟩]⟩
        "h" "d" ⟨9, 40⟩ 500 (fun _ => 0) "n").1.timedEntries =
      [⟨"e1", "h", "d", ⟨9, 0⟩, 30⟩] ∧
    (startTimer ⟨[⟨"e1", "h", "d", ⟨9, 0⟩, 30⟩], [⟨"t0", "h", "d", ⟨9, 50⟩, 1000⟩]⟩
        "h" "d" ⟨9, 40⟩ 500 (fun _ => 0) "n").2.startTime = ⟨9, 40⟩ := by
  decide

/-- C4 (amended) -- When `startTimer` finds an existing timer for the
habit whose `startTimestamp` is later than the new one, the stored timer
is replaced by a timer carrying exactly the requested
`(habitId, date, startTime, timestamp)` and the function returns without
performing the resume-merge scan: the timed entries are untouched (no
block is absorbed or deleted) and the new timer's start is the requested
start, not the start of any grace-window block. -/
theorem startTimer_replace_noscan (st : TimerState) (habitId date : String) (sT : HM)
    (ts : Int) (f : HM → Int) (newId : String) (t₀ : ActiveTimer)
    (hfind : st.activeTimers.find? (fun t => decide (t.habitId = habitId)) = some t₀)
    (hts : ts < t₀.startTimestamp) :
    (startTimer st habitId date sT ts f newId).1.timedEntries = st.timedEntries ∧
    (startTimer st habitId date sT ts f newId).2 = ⟨newId, habitId, date, sT, ts⟩ ∧
    (startTimer st habitId date sT ts f newId).2 ∈
      (startTimer st habitId date sT ts f newId).1.activeTimers ∧
    (∀ u ∈ (startTimer st habitId date sT ts f newId).1.activeTimers,
      u.habitId = habitId → u = (startTimer st habitId date sT ts f newId).2) := by
  have hcalc : startTimer st habitId date sT ts f newId =
      (TimerState.mk st.timedEntries (st.activeTimers.map (fun t => if t.habitId = habitId then ⟨newId, habitId, date, sT, ts⟩ else t)), ⟨newId, habitId, date, sT, ts⟩) := by
    rw [startTimer, hfind]
    simp only [if_neg (not_le.mpr hts)]
  rw [hcalc]
  have hpred := List.find?_some hfind
  have ht₀hab : t₀.habitId = habitId := of_decide_eq_true hpred
  have ht₀mem : t₀ ∈ st.activeTimers := List.mem_of_find?_eq_some hfind
  refine ⟨rfl, rfl, ?_, ?_⟩
  · exact List.mem_map.mpr ⟨t₀, ht₀mem, by rw [if_pos ht₀hab]⟩
  · intro u hu huhab
    obtain ⟨t, htmem, htu⟩ := List.mem_map.mp hu
    by_cases ht : t.habitId = habitId
    · rw [← htu, if_pos ht]
    · rw [← htu, if_neg ht] at huhab ⊢
      exact absurd huhab ht

/-- C4 amended-theorem witness: the hypotheses of
`startTimer_replace_noscan` hold at the counterexample input and the
conclusion follows there. -/
theorem startTimer_replace_noscan_witness :
    ((TimerState.mk [⟨"e1", "h", "d", ⟨9, 0⟩, 30⟩]
          [⟨"t0", "h", "d", ⟨9, 50⟩, 1000⟩]).activeTimers.find?
        (fun t => decide (t.habitId = "h")) = some ⟨"t0", "h", "d", ⟨9, 50⟩, 1000⟩ ∧
      (500 : Int) < (ActiveTimer.mk "t0" "h" "d" ⟨9, 50⟩ 1000).startTimestamp) ∧
    ((startTimer (TimerState.mk [⟨"e1", "h", "d", ⟨9, 0⟩, 30⟩]
          [⟨"t0", "h", "d", ⟨9, 50⟩, 1000⟩]) "h" "d" ⟨9, 40⟩ 500 (fun _ => 0)
          "n").1.timedEntries =
        (TimerState.mk [⟨"e1", "h", "d", ⟨9, 0⟩, 30⟩]
          [⟨"t0", "h", "d", ⟨9, 50⟩, 1000⟩]).timedEntries ∧
      (startTimer (TimerState.mk [⟨"e1", "h", "d", ⟨9, 0⟩, 30⟩]
          [⟨"t0", "h", "d", ⟨9, 50⟩, 1000⟩]) "h" "d" ⟨9, 40⟩ 500 (fun _ => 0)
          "n").2 = ⟨"n", "h", "d", ⟨9, 40⟩, 500⟩ ∧
      (startTimer (TimerState.mk [⟨"e1", "h", "d", ⟨9, 0⟩, 30⟩]
          [⟨"t0", "h", "d", ⟨9, 50⟩, 1000⟩]) "h" "d" ⟨9, 40⟩ 500 (fun _ => 0)
          "n").2 ∈
        (startTimer (TimerState.mk [⟨"e1", "h", "d", ⟨9, 0⟩, 30⟩]
          [⟨"t0", "h", "d", ⟨9, 50⟩, 1000⟩]) "h" "d" ⟨9, 40⟩ 500 (fun _ => 0)
          "n").1.activeTimers ∧
      (∀ u ∈ (startTimer (TimerState.mk [⟨"e1", "h", "d", ⟨9, 0⟩, 30⟩]
          [⟨"t0", "h", "d", ⟨9, 50⟩, 1000⟩]) "h" "d" ⟨9, 40⟩ 500 (fun _ => 0)
          "n").1.activeTimers,
        u.habitId = "h" →
          u = (startTimer (TimerState.mk [⟨"e1", "h", "d", ⟨9, 0⟩, 30⟩]
            [⟨"t0", "h", "d", ⟨9, 50⟩, 1000⟩]) "h" "d" ⟨9, 40⟩ 500 (fun _ => 0)
            "n").2)) :=
  ⟨⟨by decide, by decide⟩,
    startTimer_replace_noscan
      (TimerState.mk [⟨"e1", "h", "d", ⟨9, 0⟩, 30⟩] [⟨"t0", "h", "d", ⟨9, 50⟩, 1000⟩])
      "h" "d" ⟨9, 40⟩ 500 (fun _ => 0) "n" ⟨"t0", "h", "d", ⟨9, 50⟩, 1000⟩
      (by decide) (by decide)⟩

/-! ## Association-list Map lemmas -/

theorem mapLookup_mapSet_self {α β : Type} [DecidableEq α] (k : α) (v : β) :
    ∀ m : List (α × β), mapLookup k (mapSet k v m) = some v := by
  intro m
  induction m with
  | nil => simp [mapSet, mapLookup]
  | cons q rest ih =>
    obtain ⟨k', v'⟩ := q
    rw [mapSet]
    by_cases hk : k' = k
    · rw [if_pos hk]
      simp [mapLookup]
    · rw [if_neg hk]
      rw [mapLookup, List.find?_cons_of_neg _ (by simpa using hk)]
      exact ih

theorem mapLookup_mapSet_ne {α β : Type} [DecidableEq α] (k k₂ : α) (v : β) (hne : k ≠ k₂) :
    ∀ m : List (α × β), mapLookup k₂ (mapSet k v m) = mapLookup k₂ m := by
  intro m
  induction m with
  | nil =>
    simp [mapSet, mapLookup, List.find?_cons_of_neg, hne]
  | cons q rest ih =>
    obtain ⟨k', v'⟩ := q
    rw [mapSet]
    by_cases hk : k' = k
    · rw [if_pos hk]
      rw [mapLookup, mapLookup, List.find?_cons_of_neg _ (by simpa using hne),
        List.find?_cons_of_neg _ (by simp [hk, hne])]
    · rw [if_neg hk]
      by_cases hk2 : k' = k₂
      · rw [mapLookup, mapLookup, List.find?_cons_of_pos _ (by simpa using hk2),
          List.find?_cons_of_pos _ (by simpa using hk2)]
      · rw [mapLookup, mapLookup, List.find?_cons_of_neg _ (by simpa using hk2),
          List.find?_cons_of_neg _ (by simpa using hk2)]
        exact ih

theorem mem_mapSet {α β : Type} [DecidableEq α] (k : α) (v : β) :
    ∀ (m : List (α × β)) (p : α × β), p ∈ mapSet k v m → p = (k, v) ∨ p ∈ m := by
  intro m
  induction m with
  | nil =>
    intro p hp
    simp only [mapSet, List.mem_singleton] at hp
    exact Or.inl hp
  | cons q rest ih =>
    obtain ⟨k', v'⟩ := q
    intro p hp
    rw [mapSet] at hp
    by_cases hk : k' = k
    · rw [if_pos hk] at hp
      rcases List.mem_cons.mp hp with hpq | hp
      · exact Or.inl hpq
      · exact Or.inr (List.mem_cons_of_mem _ hp)
    · rw [if_neg hk] at hp
      rcases List.mem_cons.mp hp with hpq | hp
      · exact Or.inr (hpq ▸ List.mem_cons_self _ _)
      · rcases ih p hp with h | h
        · exact Or.inl h
        · exact Or.inr (List.mem_cons_of_mem _ h)

theorem mapSet_nodupKeys {α β : Type} [DecidableEq α] (k : α) (v : β) :
    ∀ m : List (α × β), m.Pairwise (fun a b => a.1 ≠ b.1) →
      (mapSet k v m).Pairwise (fun a b => a.1 ≠ b.1) := by
  intro m
  induction m with
  | nil => intro _; simp [mapSet]
  | cons q rest ih =>
    obtain ⟨k', v'⟩ := q
    intro hm
    obtain ⟨hhead, htail⟩ := List.pairwise_cons.mp hm
    rw [mapSet]
    by_cases hk : k' = k
    · rw [if_pos hk]
      refine List.pairwise_cons.mpr ⟨?_, htail⟩
      intro q hq
      exact hk ▸ hhead q hq
    · rw [if_neg hk]
      refine List.pairwise_cons.mpr ⟨?_, ih htail⟩
      intro q hq
      rcases mem_mapSet k v rest q hq with rfl | hq
      · exact hk
      · exact hhead q hq

theorem mapLookup_of_mem {α β : Type} [DecidableEq α] :
    ∀ (m : List (α × β)), m.Pairwise (fun a b => a.1 ≠ b.1) →
      ∀ p ∈ m, mapLookup p.1 m = some p.2 := by
  intro m
  induction m with
  | nil => intro _ p hp; simp at hp
  | cons q rest ih =>
    obtain ⟨k', v'⟩ := q
    intro hm p hp
    obtain ⟨hhead, htail⟩ := List.pairwise_cons.mp hm
    rcases List.mem_cons.mp hp with hpq | hp
    · subst hpq
      simp [mapLookup]
    · have hne : k' ≠ p.1 := hhead p hp
      rw [mapLookup, List.find?_cons_of_neg _ (by simpa using hne)]
      exact ih htail p hp

theorem mapLookup_some_mem {α β : Type} [DecidableEq α] (k : α) (v : β)
    (m : List (α × β)) (h : mapLookup k m = some v) : ∃ p ∈ m, p.1 = k ∧ p.2 = v := by
  rw [mapLookup] at h
  obtain ⟨p, hfind, hv⟩ := Option.map_eq_some'.mp h
  have hpred := List.find?_some hfind
  exact ⟨p, List.mem_of_find?_eq_some hfind, of_decide_eq_true hpred, hv⟩

/-! ## Analysis of the earliest-timer accumulation -/

/-- Analysis helper: the per-habit effect of folding `timerStep` is a left
fold keeping the first strictly-minimal `startTimestamp`. -/
def minFirstTimer (acc : Option ActiveTimer) (l : List ActiveTimer) : Option ActiveTimer :=
  l.foldl (fun acc t =>
    match acc with
    | none => some t
    | some ex => if t.startTimestamp < ex.startTimestamp then some t else some ex) acc

theorem minFirstTimer_some_spec :
    ∀ (l : List ActiveTimer) (a t : ActiveTimer), minFirstTimer (some a) l = some t →
      (t = a ∨ t ∈ l) ∧ t.startTimestamp ≤ a.startTimestamp ∧
        ∀ u ∈ l, t.startTimestamp ≤ u.startTimestamp := by
  intro l
  induction l with
  | nil =>
    intro a t h
    simp only [minFirstTimer, List.foldl_nil, Option.some_inj] at h
    subst h
    exact ⟨Or.inl rfl, le_refl _, by simp⟩
  | cons b rest ih =>
    intro a t h
    rw [minFirstTimer, List.foldl_cons] at h
    by_cases hb : b.startTimestamp < a.startTimestamp
    · rw [show (match some a with
          | none => some b
          | some ex => if b.startTimestamp < ex.startTimestamp then some b else some ex) =
            some b by simp [hb]] at h
      obtain ⟨hmem, hle, hall⟩ := ih b t h
      refine ⟨?_, ?_, ?_⟩
      · rcases hmem with rfl | hmem
        · exact Or.inr (List.mem_cons_self _ _)
        · exact Or.inr (List.mem_cons_of_mem _ hmem)
      · exact hle.trans hb.le
      · intro u hu
        rcases List.mem_cons.mp hu with rfl | hu
        · exact hle
        · exact hall u hu
    · rw [show (match some a with
          | none => some b
          | some ex => if b.startTimestamp < ex.startTimestamp then some b else some ex) =
            some a by simp [hb]] at h
      obtain ⟨hmem, hle, hall⟩ := ih a t h
      refine ⟨?_, hle, ?_⟩
      · rcases hmem with rfl | hmem
        · exact Or.inl rfl
        · exact Or.inr (List.mem_cons_of_mem _ hmem)
      · intro u hu
        rcases List.mem_cons.mp hu with rfl | hu
        · exact hle.trans (not_lt.mp hb)
        · exact hall u hu

theorem minFirstTimer_none_spec (l : List ActiveTimer) (t : ActiveTimer)
    (h : minFirstTimer none l = some t) :
    t ∈ l ∧ ∀ u ∈ l, t.startTimestamp ≤ u.startTimestamp := by
  cases l with
  | nil => simp [minFirstTimer] at h
  | cons b rest =>
    rw [minFirstTimer, List.foldl_cons] at h
    obtain ⟨hmem, hle, hall⟩ := minFirstTimer_some_spec rest b t h
    refine ⟨?_, ?_⟩
    · rcases hmem with rfl | hmem
      · exact List.mem_cons_self _ _
      · exact List.mem_cons_of_mem _ hmem
    · intro u hu
      rcases List.mem_cons.mp hu with rfl | hu
      · exact hle
      · exact hall u hu

theorem mapLookup_timerStep (h : String) (m : List (String × ActiveTimer)) (t : ActiveTimer) :
    mapLookup h (timerStep m t) =
      if t.habitId = h then
        (match mapLookup h m with
          | none => some t
          | some ex => if t.startTimestamp < ex.startTimestamp then some t else some ex)
      else mapLookup h m := by
  by_cases hhab : t.habitId = h
  · rw [if_pos hhab, timerStep, hhab]
    cases hm : mapLookup h m with
    | none => exact mapLookup_mapSet_self h t m
    | some ex =>
      dsimp only
      by_cases hts : t.startTimestamp < ex.startTimestamp
      · rw [if_pos hts, if_pos hts]
        exact mapLookup_mapSet_self h t m
      · rw [if_neg hts, if_neg hts, hm]
  · rw [if_neg hhab, timerStep]
    cases hm : mapLookup t.habitId m with
    | none => exact mapLookup_mapSet_ne t.habitId h t hhab m
    | some ex =>
      dsimp only
      by_cases hts : t.startTimestamp < ex.startTimestamp
      · rw [if_pos hts]
        exact mapLookup_mapSet_ne t.habitId h t hhab m
      · rw [if_neg hts]

theorem mapLookup_foldl_timerStep (h : String) :
    ∀ (l : List ActiveTimer) (m : List (String × ActiveTimer)),
      mapLookup h (l.foldl timerStep m) =
        minFirstTimer (mapLookup h m) (l.filter (fun t => decide (t.habitId = h))) := by
  intro l
  induction l with
  | nil => intro m; rfl
  | cons t rest ih =>
    intro m
    rw [List.foldl_cons, ih (timerStep m t)]
    by_cases hhab : t.habitId = h
    · rw [List.filter_cons_of_pos (by simpa using hhab)]
      rw [mapLookup_timerStep, if_pos hhab]
      conv_rhs => rw [minFirstTimer, List.foldl_cons]
      rfl
    · rw [List.filter_cons_of_neg (by simpa using hhab)]
      rw [mapLookup_timerStep, if_neg hhab]

theorem foldl_timerStep_keyed :
    ∀ (l : List ActiveTimer) (m : List (String × ActiveTimer)),
      (∀ p ∈ m, p.1 = p.2.habitId) →
      ∀ p ∈ l.foldl timerStep m, p.1 = p.2.habitId := by
  intro l
  induction l with
  | nil => intro m hm; exact hm
  | cons t rest ih =>
    intro m hm
    refine ih (timerStep m t) ?_
    intro p hp
    rw [timerStep] at hp
    rcases hstep : mapLookup t.habitId m with _ | ex
    · rw [hstep] at hp
      rcases mem_mapSet _ _ _ _ hp with rfl | hp
      · rfl
      · exact hm p hp
    · rw [hstep] at hp
      dsimp only at hp
      by_cases hts : t.startTimestamp < ex.startTimestamp
      · rw [if_pos hts] at hp
        rcases mem_mapSet _ _ _ _ hp with rfl | hp
        · rfl
        · exact hm p hp
      · rw [if_neg hts] at hp
        exact hm p hp

theorem foldl_timerStep_nodupKeys :
    ∀ (l : List ActiveTimer) (m : List (String × ActiveTimer)),
      m.Pairwise (fun a b => a.1 ≠ b.1) →
      (l.foldl timerStep m).Pairwise (fun a b => a.1 ≠ b.1) := by
  intro l
  induction l with
  | nil => intro m hm; exact hm
  | cons t rest ih =>
    intro m hm
    refine ih (timerStep m t) ?_
    rw [timerStep]
    rcases mapLookup t.habitId m with _ | ex
    · exact mapSet_nodupKeys _ _ m hm
    · dsimp only
      by_cases hts : t.startTimestamp < ex.startTimestamp
      · rw [if_pos hts]
        exact mapSet_nodupKeys _ _ m hm
      · rw [if_neg hts]
        exact hm

theorem mem_values_iff_lookup (m : List (String × ActiveTimer))
    (hkeyed : ∀ p ∈ m, p.1 = p.2.habitId)
    (hnd : m.Pairwise (fun a b => a.1 ≠ b.1)) (t : ActiveTimer) :
    t ∈ m.map (fun p => p.2) ↔ mapLookup t.habitId m = some t := by
  constructor
  · intro ht
    obtain ⟨p, hp, hpt⟩ := List.mem_map.mp ht
    have hk := hkeyed p hp
    have := mapLookup_of_mem m hnd p hp
    rw [hk, hpt] at this
    exact this
  · intro h
    obtain ⟨p, hp, -, hv⟩ := mapLookup_some_mem _ _ _ h
    exact List.mem_map.mpr ⟨p, hp, hv⟩

/-! ## Deduplication facts -/

theorem values_filter_habit_le_one (h : String) :
    ∀ (m : List (String × ActiveTimer)),
      (∀ p ∈ m, p.1 = p.2.habitId) → m.Pairwise (fun a b => a.1 ≠ b.1) →
      ((m.map (fun p => p.2)).filter (fun t => decide (t.habitId = h))).length ≤ 1 := by
  intro m
  induction m with
  | nil => intro _ _; simp
  | cons q rest ih =>
    obtain ⟨k, v⟩ := q
    intro hkeyed hnd
    obtain ⟨hhead, htail⟩ := List.pairwise_cons.mp hnd
    have hk : k = v.habitId := hkeyed (k, v) (List.mem_cons_self _ _)
    rw [List.map_cons]
    by_cases hv : v.habitId = h
    · rw [List.filter_cons_of_pos (by simpa using hv)]
      have hrest : (rest.map (fun p => p.2)).filter (fun t => decide (t.habitId = h)) = [] := by
        rw [List.filter_eq_nil_iff]
        intro u hu hupass
        obtain ⟨p, hp, hpu⟩ := List.mem_map.mp hu
        have h1 : p.1 = u.habitId := hpu ▸ hkeyed p (List.mem_cons_of_mem _ hp)
        have h2 : u.habitId = h := of_decide_eq_true hupass
        exact hhead p hp (by rw [h1, h2, ← hv, ← hk])
      rw [hrest]
      simp
    · rw [List.filter_cons_of_neg (by simpa using hv)]
      exact ih (fun p hp => hkeyed p (List.mem_cons_of_mem _ hp)) htail

theorem deduplicateActiveTimers_at_most_one (timers : List ActiveTimer) (h : String) :
    ((deduplicateActiveTimers timers).filter (fun t => decide (t.habitId = h))).length ≤ 1 :=
  values_filter_habit_le_one h (timers.foldl timerStep [])
    (foldl_timerStep_keyed timers [] (by simp))
    (foldl_timerStep_nodupKeys timers [] (by simp))

theorem deduplicateActiveTimers_earliest (timers : List ActiveTimer) :
    ∀ t ∈ deduplicateActiveTimers timers, t ∈ timers ∧
      ∀ u ∈ timers, u.habitId = t.habitId → t.startTimestamp ≤ u.startTimestamp := by
  intro t ht
  have hlookup := (mem_values_iff_lookup (timers.foldl timerStep [])
    (foldl_timerStep_keyed timers [] (by simp))
    (foldl_timerStep_nodupKeys timers [] (by simp)) t).mp ht
  rw [mapLookup_foldl_timerStep] at hlookup
  have hmin : minFirstTimer none
      (timers.filter (fun u => decide (u.habitId = t.habitId))) = some t := hlookup
  obtain ⟨hmem, hall⟩ := minFirstTimer_none_spec _ _ hmin
  refine ⟨List.mem_of_mem_filter hmem, ?_⟩
  intro u hu huh
  exact hall u (List.mem_filter.mpr ⟨hu, decide_eq_true huh⟩)

/-! ## Per-call behaviour of `startTimer` -/

theorem find?_eq_head_filter {α : Type} (p : α → Bool) :
    ∀ l : List α, l.find? p = (l.filter p).head? := by
  intro l
  induction l with
  | nil => rfl
  | cons a rest ih =>
    by_cases hp : p a = true
    · rw [List.find?_cons_of_pos _ hp, List.filter_cons_of_pos hp]
      rfl
    · rw [List.find?_cons_of_neg _ (by simpa using hp),
        List.filter_cons_of_neg (by simpa using hp), ih]

theorem eq_singleton_of_length_le_one {α : Type} {l : List α} {x : α}
    (h : l.length ≤ 1) (hx : x ∈ l) : l = [x] := by
  cases l with
  | nil => simp at hx
  | cons a rest =>
    cases rest with
    | nil =>
      simp only [List.mem_singleton] at hx
      rw [hx]
    | cons b rest2 => simp at h

/-- After any `startTimer` call on a state with at most one timer for the
habit, the habit has exactly one timer, namely the returned one. -/
theorem startTimer_filter_eq (st : TimerState) (habitId date : String) (sT : HM)
    (ts : Int) (f : HM → Int) (newId : String)
    (h : (st.activeTimers.filter (fun t => decide (t.habitId = habitId))).length ≤ 1) :
    (startTimer st habitId date sT ts f newId).1.activeTimers.filter
        (fun t => decide (t.habitId = habitId)) =
      [(startTimer st habitId date sT ts f newId).2] := by
  rcases hf : st.activeTimers.find? (fun t => decide (t.habitId = habitId)) with _ | ex
  · -- no existing timer: both none-branches append the new timer
    have hnil : st.activeTimers.filter (fun t => decide (t.habitId = habitId)) = [] := by
      rw [List.filter_eq_nil_iff]
      intro t htmem
      exact (List.find?_eq_none.mp hf) t htmem
    rw [startTimer, hf]
    dsimp only
    split
    · rw [List.filter_append, hnil, List.nil_append]
      rw [List.filter_cons_of_pos (by simp), List.filter_nil]
    · rw [List.filter_append, hnil, List.nil_append]
      rw [List.filter_cons_of_pos (by simp), List.filter_nil]
  · -- existing timer found
    have hexpred := List.find?_some hf
    have hexhab : ex.habitId = habitId := of_decide_eq_true hexpred
    have hexmem : ex ∈ st.activeTimers := List.mem_of_find?_eq_some hf
    have hexfil : ex ∈ st.activeTimers.filter (fun t => decide (t.habitId = habitId)) :=
      List.mem_filter.mpr ⟨hexmem, decide_eq_true hexhab⟩
    have hsingle : st.activeTimers.filter (fun t => decide (t.habitId = habitId)) = [ex] :=
      eq_singleton_of_length_le_one h hexfil
    rw [startTimer, hf]
    dsimp only
    by_cases hle : ex.startTimestamp ≤ ts
    · rw [if_pos hle]
      exact hsingle
    · rw [if_neg hle]
      have hmapfil : ∀ l : List ActiveTimer,
          (l.map (fun t => if t.habitId = habitId then
            (⟨newId, habitId, date, sT, ts⟩ : ActiveTimer) else t)).filter
              (fun t => decide (t.habitId = habitId)) =
            (l.filter (fun t => decide (t.habitId = habitId))).map
              (fun _ => (⟨newId, habitId, date, sT, ts⟩ : ActiveTimer)) := by
        intro l
        induction l with
        | nil => rfl
        | cons a rest ihl =>
          rw [List.map_cons]
          by_cases ha : a.habitId = habitId
          · rw [if_pos ha, List.filter_cons_of_pos (by simp),
              List.filter_cons_of_pos (by simpa using ha), List.map_cons, ihl]
          · rw [if_neg ha, List.filter_cons_of_neg (by simpa using ha),
              List.filter_cons_of_neg (by simpa using ha), ihl]
      rw [hmapfil, hsingle]
      rfl

/-- A second `startTimer` call for the same habit keeps the earlier of
the surviving timer's timestamp and the newly requested one. -/
theorem startTimer_second_min (st₁ : TimerState) (habitId d₂ : String) (sT₂ : HM)
    (ts₂ : Int) (f₂ : HM → Int) (id₂ : String) (t1 : ActiveTimer)
    (hfilter : st₁.activeTimers.filter (fun t => decide (t.habitId = habitId)) = [t1]) :
    (startTimer st₁ habitId d₂ sT₂ ts₂ f₂ id₂).2.startTimestamp =
      min t1.startTimestamp ts₂ := by
  have hfind : st₁.activeTimers.find? (fun t => decide (t.habitId = habitId)) = some t1 := by
    rw [find?_eq_head_filter, hfilter]
    rfl
  rw [startTimer, hfind]
  dsimp only
  by_cases hle : t1.startTimestamp ≤ ts₂
  · rw [if_pos hle]
    exact (min_eq_left hle).symm
  · rw [if_neg hle]
    exact (min_eq_right (not_le.mp hle).le).symm

/-- C5 -- Timer deduplication: (i) two successive `startTimer` calls for
the same habit, in either timestamp order, leave exactly one
`ActiveTimer` for that habit (the one the second call returns), whose
`startTimestamp` is the earlier of the first surviving timer's timestamp
and the second request's timestamp; (ii) `deduplicateActiveTimers`
enforces the same rule on every dataset load: at most one timer per
habit survives, each survivor comes from the input and carries the
earliest `startTimestamp` of its habit. -/
theorem startTimer_deduplicate_spec :
    (∀ (st : TimerState) (habitId d₁ d₂ : String) (sT₁ sT₂ : HM) (ts₁ ts₂ : Int)
        (f₁ f₂ : HM → Int) (id₁ id₂ : String),
      (st.activeTimers.filter (fun t => decide (t.habitId = habitId))).length ≤ 1 →
      ((startTimer (startTimer st habitId d₁ sT₁ ts₁ f₁ id₁).1 habitId d₂ sT₂ ts₂ f₂
          id₂).1.activeTimers.filter (fun t => decide (t.habitId = habitId)) =
        [(startTimer (startTimer st habitId d₁ sT₁ ts₁ f₁ id₁).1 habitId d₂ sT₂ ts₂ f₂
          id₂).2] ∧
      (startTimer (startTimer st habitId d₁ sT₁ ts₁ f₁ id₁).1 habitId d₂ sT₂ ts₂ f₂
          id₂).2.startTimestamp =
        min (startTimer st habitId d₁ sT₁ ts₁ f₁ id₁).2.startTimestamp ts₂)) ∧
    (∀ (timers : List ActiveTimer) (h : String),
      ((deduplicateActiveTimers timers).filter
        (fun t => decide (t.habitId = h))).length ≤ 1) ∧
    (∀ (timers : List ActiveTimer), ∀ t ∈ deduplicateActiveTimers timers,
      t ∈ timers ∧ ∀ u ∈ timers, u.habitId = t.habitId →
        t.startTimestamp ≤ u.startTimestamp) := by
  refine ⟨?_, deduplicateActiveTimers_at_most_one, deduplicateActiveTimers_earliest⟩
  intro st habitId d₁ d₂ sT₁ sT₂ ts₁ ts₂ f₁ f₂ id₁ id₂ h
  have h1 := startTimer_filter_eq st habitId d₁ sT₁ ts₁ f₁ id₁ h
  have h2 := startTimer_filter_eq (startTimer st habitId d₁ sT₁ ts₁ f₁ id₁).1 habitId
    d₂ sT₂ ts₂ f₂ id₂ (by rw [h1]; simp)
  exact ⟨h2, startTimer_second_min _ habitId d₂ sT₂ ts₂ f₂ id₂ _ h1⟩

/-- C5 witness: the hypothesis (at most one timer for habit "h") holds at
a concrete two-call scenario and the conclusions follow there. -/
theorem startTimer_deduplicate_spec_witness :
    ((TimerState.mk [] []).activeTimers.filter
        (fun t => decide (t.habitId = "h"))).length ≤ 1 ∧
    ((startTimer (startTimer (TimerState.mk [] []) "h" "d" ⟨9, 0⟩ 900 (fun _ => 0)
          "a").1 "h" "d" ⟨9, 5⟩ 500 (fun _ => 0) "b").1.activeTimers.filter
        (fun t => decide (t.habitId = "h")) =
      [(startTimer (startTimer (TimerState.mk [] []) "h" "d" ⟨9, 0⟩ 900 (fun _ => 0)
          "a").1 "h" "d" ⟨9, 5⟩ 500 (fun _ => 0) "b").2] ∧
    (startTimer (startTimer (TimerState.mk [] []) "h" "d" ⟨9, 0⟩ 900 (fun _ => 0)
          "a").1 "h" "d" ⟨9, 5⟩ 500 (fun _ => 0) "b").2.startTimestamp =
      min (startTimer (TimerState.mk [] []) "h" "d" ⟨9, 0⟩ 900 (fun _ => 0)
          "a").2.startTimestamp 500) :=
  ⟨by decide,
    startTimer_deduplicate_spec.1 (TimerState.mk [] []) "h" "d" "d" ⟨9, 0⟩ ⟨9, 5⟩ 900 500
      (fun _ => 0) (fun _ => 0) "a" "b" (by decide)⟩

/-! ## Incremental insert (`addTimedEntry`, useFeedback.ts:431–493) -/

/-- The same-`(habitId, date)` test of the `addTimedEntry` partition. -/
def sameGroupB (habitId date : String) (e : TimedEntry) : Bool :=
  decide (e.habitId = habitId ∧ e.date = date)

/-- The overlap-or-touch test of `addTimedEntry` (useFeedback.ts:450):
two ranges `[a,b]` and `[c,d]` overlap/touch iff `a ≤ d && c ≤ b`. -/
def overlapsNewB (newStartMinutes newEndMinutes : Int) (e : TimedEntry) : Bool :=
  decide (newStartMinutes ≤ timeToMinutesStatic e.startTime + e.duration ∧
    timeToMinutesStatic e.startTime ≤ newEndMinutes)

/-- `addTimedEntry` (useFeedback.ts:431–493) acting on the
`timedEntries` list: partition the same-habit same-day entries into those
overlapping/touching the new block and the rest; with no overlap append
the new block; otherwise delete the overlapped entries and append one
merged block (with the fresh id `newId = generateId()`) spanning from the
least involved start to the greatest involved end. -/
def addTimedEntry (prev : List TimedEntry) (habitId date : String) (startTime : HM)
    (duration : Int) (newId : String) : List TimedEntry :=
  let newStartMinutes := timeToMinutesStatic startTime
  let newEndMinutes := newStartMinutes + duration
  let sameHabitEntries := prev.filter (sameGroupB habitId date)
  let otherEntries := prev.filter (fun e => !sameGroupB habitId date e)
  let overlapping := sameHabitEntries.filter (overlapsNewB newStartMinutes newEndMinutes)
  let nonOverlapping :=
    sameHabitEntries.filter (fun e => !overlapsNewB newStartMinutes newEndMinutes e)
  if overlapping.isEmpty then
    prev ++ [⟨newId, habitId, date, startTime, duration⟩]
  else
    let mergedStart := overlapping.foldl
      (fun acc e => min acc (timeToMinutesStatic e.startTime)) newStartMinutes
    let mergedEnd := overlapping.foldl
      (fun acc e => max acc (timeToMinutesStatic e.startTime + e.duration)) newEndMinutes
    otherEntries ++ nonOverlapping ++
      [⟨newId, habitId, date, minutesToTimeStatic mergedStart, mergedEnd - mergedStart⟩]

/-- Blocks that neither overlap nor touch: one ends strictly before the
other starts. -/
def Separated (a b : TimedEntry) : Prop :=
  endMin a < startMin b ∨ endMin b < startMin a

instance (a b : TimedEntry) : Decidable (Separated a b) :=
  inferInstanceAs (Decidable (Or _ _))

/-- The stored-state invariant: any two blocks of the same
`(habitId, date)` group are separated. -/
def GroupwiseSeparated (l : List TimedEntry) : Prop :=
  l.Pairwise (fun a b => a.habitId = b.habitId → a.date = b.date → Separated a b)

instance (l : List TimedEntry) : Decidable (GroupwiseSeparated l) :=
  List.instDecidablePairwise l

/-- A wall time with in-range fields, as produced by any `HH:MM` clock
string of the application. -/
def ValidHM (t : HM) : Prop := t.hh < 24 ∧ t.mm < 60

instance (t : HM) : Decidable (ValidHM t) := inferInstanceAs (Decidable (And _ _))

/-- The new block of an `addTimedEntry` call overlaps or touches `e`. -/
def touchesNew (startTime : HM) (duration : Int) (e : TimedEntry) : Prop :=
  timeToMinutesStatic startTime ≤ endMin e ∧
    startMin e ≤ timeToMinutesStatic startTime + duration

instance (s : HM) (d : Int) (e : TimedEntry) : Decidable (touchesNew s d e) :=
  inferInstanceAs (Decidable (And _ _))

/-! ### Small arithmetic facts -/

theorem timeToMinutesStatic_nonneg (t : HM) : 0 ≤ timeToMinutesStatic t := by
  simp only [timeToMinutesStatic]
  positivity

theorem timeToMinutesStatic_lt (t : HM) (h : ValidHM t) : timeToMinutesStatic t < 1440 := by
  obtain ⟨h1, h2⟩ := h
  simp only [timeToMinutesStatic]
  omega

theorem timeToMinutes_minutesToTime (n : Int) (h0 : 0 ≤ n) (h1 : n < 1440) :
    timeToMinutesStatic (minutesToTimeStatic n) = n := by
  show (((n.fdiv 60).tmod 24).toNat : Int) * 60 + ((n.tmod 60).toNat : Int) = n
  rw [Int.fdiv_eq_ediv _ (by norm_num)]
  rw [Int.tmod_eq_emod (Int.ediv_nonneg h0 (by norm_num)) (by norm_num)]
  rw [Int.tmod_eq_emod h0 (by norm_num)]
  rw [Int.toNat_of_nonneg (Int.emod_nonneg _ (by norm_num)),
    Int.toNat_of_nonneg (Int.emod_nonneg _ (by norm_num))]
  omega

/-! ### Fold bounds for the merged span -/

theorem foldl_min_le_init {α : Type} (f : α → Int) :
    ∀ (l : List α) (a : Int), l.foldl (fun acc e => min acc (f e)) a ≤ a := by
  intro l
  induction l with
  | nil => intro a; simp
  | cons x rest ih =>
    intro a
    rw [List.foldl_cons]
    exact (ih (min a (f x))).trans (min_le_left _ _)

theorem foldl_min_le_mem {α : Type} (f : α → Int) :
    ∀ (l : List α) (a : Int), ∀ e ∈ l, l.foldl (fun acc e => min acc (f e)) a ≤ f e := by
  intro l
  induction l with
  | nil => intro a e he; simp at he
  | cons x rest ih =>
    intro a e he
    rw [List.foldl_cons]
    rcases List.mem_cons.mp he with rfl | he
    · exact (foldl_min_le_init f rest _).trans (min_le_right _ _)
    · exact ih _ e he

theorem foldl_min_cases {α : Type} (f : α → Int) :
    ∀ (l : List α) (a : Int), l.foldl (fun acc e => min acc (f e)) a = a ∨
      ∃ e ∈ l, l.foldl (fun acc e => min acc (f e)) a = f e := by
  intro l
  induction l with
  | nil => intro a; exact Or.inl rfl
  | cons x rest ih =>
    intro a
    rw [List.foldl_cons]
    rcases ih (min a (f x)) with h | ⟨e, he, hev⟩
    · rw [h]
      rcases le_total a (f x) with hle | hle
      · rw [min_eq_left hle]
        exact Or.inl rfl
      · rw [min_eq_right hle]
        exact Or.inr ⟨x, List.mem_cons_self _ _, rfl⟩
    · exact Or.inr ⟨e, List.mem_cons_of_mem _ he, hev⟩

theorem foldl_max_init_le {α : Type} (f : α → Int) :
    ∀ (l : List α) (a : Int), a ≤ l.foldl (fun acc e => max acc (f e)) a := by
  intro l
  induction l with
  | nil => intro a; simp
  | cons x rest ih =>
    intro a
    rw [List.foldl_cons]
    exact (le_max_left _ (f x)).trans (ih (max a (f x)))

theorem foldl_max_mem_le {α : Type} (f : α → Int) :
    ∀ (l : List α) (a : Int), ∀ e ∈ l, f e ≤ l.foldl (fun acc e => max acc (f e)) a := by
  intro l
  induction l with
  | nil => intro a e he; simp at he
  | cons x rest ih =>
    intro a e he
    rw [List.foldl_cons]
    rcases List.mem_cons.mp he with rfl | he
    · exact (le_max_right _ _).trans (foldl_max_init_le f rest _)
    · exact ih _ e he

theorem foldl_max_cases {α : Type} (f : α → Int) :
    ∀ (l : List α) (a : Int), l.foldl (fun acc e => max acc (f e)) a = a ∨
      ∃ e ∈ l, l.foldl (fun acc e => max acc (f e)) a = f e := by
  intro l
  induction l with
  | nil => intro a; exact Or.inl rfl
  | cons x rest ih =>
    intro a
    rw [List.foldl_cons]
    rcases ih (max a (f x)) with h | ⟨e, he, hev⟩
    · rw [h]
      rcases le_total a (f x) with hle | hle
      · rw [max_eq_right hle]
        exact Or.inr ⟨x, List.mem_cons_self _ _, rfl⟩
      · rw [max_eq_left hle]
        exact Or.inl rfl
    · exact Or.inr ⟨e, List.mem_cons_of_mem _ he, hev⟩

set_option maxHeartbeats 1000000 in
/-- C6 -- The incremental merge of `addTimedEntry` preserves the
per-`(habitId, date)` no-overlap/no-touch invariant when a block of
positive duration is inserted into a well-formed state, all stored
blocks of the group that overlap or touch the new block are absorbed
(deleted), and the state gains a single merged block (with the fresh
inserted id) spanning exactly the union: it contains the new block and
every absorbed block, and each of its endpoints is an endpoint of one of
them. -/
theorem addTimedEntry_preserves_invariant (prev : List TimedEntry)
    (habitId date : String) (startTime : HM) (duration : Int) (newId : String)
    (hsep : GroupwiseSeparated prev)
    (hpos : ∀ e ∈ prev, 0 < e.duration)
    (hdur : 0 < duration) (hstv : ValidHM startTime)
    (hfresh : ∀ e ∈ prev, e.id ≠ newId) :
    GroupwiseSeparated (addTimedEntry prev habitId date startTime duration newId) ∧
    (∀ e ∈ prev, e.habitId = habitId → e.date = date →
      touchesNew startTime duration e →
      e ∉ addTimedEntry prev habitId date startTime duration newId) ∧
    ((∃ e ∈ prev, e.habitId = habitId ∧ e.date = date ∧
        touchesNew startTime duration e) →
      ∃ m ∈ addTimedEntry prev habitId date startTime duration newId,
        m.habitId = habitId ∧ m.date = date ∧ m.id = newId ∧
        startMin m ≤ timeToMinutesStatic startTime ∧
        timeToMinutesStatic startTime + duration ≤ endMin m ∧
        (∀ e ∈ prev, e.habitId = habitId → e.date = date →
          touchesNew startTime duration e →
          startMin m ≤ startMin e ∧ endMin e ≤ endMin m) ∧
        (startMin m = timeToMinutesStatic startTime ∨
          ∃ e ∈ prev, e.habitId = habitId ∧ e.date = date ∧
            touchesNew startTime duration e ∧ startMin m = startMin e) ∧
        (endMin m = timeToMinutesStatic startTime + duration ∨
          ∃ e ∈ prev, e.habitId = habitId ∧ e.date = date ∧
            touchesNew startTime duration e ∧ endMin m = endMin e)) := by
  have hsymm : Symmetric (fun a b : TimedEntry =>
      a.habitId = b.habitId → a.date = b.date → Separated a b) := by
    intro a b h h1 h2
    exact Or.symm (h h1.symm h2.symm)
  have hsym := hsep.forall hsymm
  have hmem_over : ∀ e, (e ∈ (prev.filter (sameGroupB habitId date)).filter
      (overlapsNewB (timeToMinutesStatic startTime)
        (timeToMinutesStatic startTime + duration)) ↔
      (e ∈ prev ∧ (e.habitId = habitId ∧ e.date = date) ∧
        touchesNew startTime duration e)) := by
    intro e
    rw [List.mem_filter, List.mem_filter]
    constructor
    · rintro ⟨⟨hp, hg⟩, ho⟩
      exact ⟨hp, of_decide_eq_true hg, of_decide_eq_true ho⟩
    · rintro ⟨hp, hg, ht⟩
      exact ⟨⟨hp, decide_eq_true hg⟩, decide_eq_true ht⟩
  have hmem_non : ∀ e, (e ∈ (prev.filter (sameGroupB habitId date)).filter
      (fun e => !overlapsNewB (timeToMinutesStatic startTime)
        (timeToMinutesStatic startTime + duration) e) ↔
      (e ∈ prev ∧ (e.habitId = habitId ∧ e.date = date) ∧
        ¬touchesNew startTime duration e)) := by
    intro e
    rw [List.mem_filter, List.mem_filter]
    constructor
    · rintro ⟨⟨hp, hg⟩, ho⟩
      refine ⟨hp, of_decide_eq_true hg, ?_⟩
      intro ht
      rw [Bool.not_eq_true'] at ho
      exact absurd (decide_eq_true ht) (by rw [show decide (touchesNew startTime duration e) = overlapsNewB (timeToMinutesStatic startTime) (timeToMinutesStatic startTime + duration) e from rfl, ho]; simp)
    · rintro ⟨hp, hg, ht⟩
      refine ⟨⟨hp, decide_eq_true hg⟩, ?_⟩
      rw [Bool.not_eq_true']
      exact decide_eq_false ht
  have hmem_other : ∀ e, (e ∈ prev.filter (fun e => !sameGroupB habitId date e) ↔
      (e ∈ prev ∧ ¬(e.habitId = habitId ∧ e.date = date))) := by
    intro e
    rw [List.mem_filter]
    constructor
    · rintro ⟨hp, hg⟩
      refine ⟨hp, ?_⟩
      intro hgrp
      rw [Bool.not_eq_true'] at hg
      exact absurd (decide_eq_true hgrp) (by rw [show decide (e.habitId = habitId ∧ e.date = date) = sameGroupB habitId date e from rfl, hg]; simp)
    · rintro ⟨hp, hg⟩
      refine ⟨hp, ?_⟩
      rw [Bool.not_eq_true']
      exact decide_eq_false hg
  by_cases hemp : (prev.filter (sameGroupB habitId date)).filter
      (overlapsNewB (timeToMinutesStatic startTime)
        (timeToMinutesStatic startTime + duration)) = []
  · -- no overlapping entry: the new block is appended unchanged
    have heq : addTimedEntry prev habitId date startTime duration newId =
        prev ++ [⟨newId, habitId, date, startTime, duration⟩] := by
      rw [addTimedEntry]
      dsimp only
      rw [if_pos (by rw [hemp]; rfl)]
    have hnotouch : ∀ e ∈ prev, e.habitId = habitId → e.date = date →
        ¬touchesNew startTime duration e := by
      intro e he hh hd ht
      have : e ∈ (prev.filter (sameGroupB habitId date)).filter
          (overlapsNewB (timeToMinutesStatic startTime)
            (timeToMinutesStatic startTime + duration)) :=
        (hmem_over e).mpr ⟨he, ⟨hh, hd⟩, ht⟩
      rw [hemp] at this
      simp at this
    refine ⟨?_, ?_, ?_⟩
    · rw [heq, GroupwiseSeparated, List.pairwise_append]
      refine ⟨hsep, by simp, ?_⟩
      intro a ha b hb hh hd
      simp only [List.mem_singleton] at hb
      subst hb
      have hnt := hnotouch a ha hh hd
      rcases not_and_or.mp hnt with h | h
      · exact Or.inl (not_le.mp h)
      · exact Or.inr (not_le.mp h)
    · intro e he hh hd ht
      exact absurd ht (hnotouch e he hh hd)
    · rintro ⟨e, he, hh, hd, ht⟩
      exact absurd ht (hnotouch e he hh hd)
  · -- at least one overlapping entry: merged block case
    have heq : addTimedEntry prev habitId date startTime duration newId =
        prev.filter (fun e => !sameGroupB habitId date e) ++
          (prev.filter (sameGroupB habitId date)).filter
            (fun e => !overlapsNewB (timeToMinutesStatic startTime)
              (timeToMinutesStatic startTime + duration) e) ++
          [⟨newId, habitId, date,
            minutesToTimeStatic (((prev.filter (sameGroupB habitId date)).filter
              (overlapsNewB (timeToMinutesStatic startTime)
                (timeToMinutesStatic startTime + duration))).foldl
              (fun acc e => min acc (timeToMinutesStatic e.startTime))
              (timeToMinutesStatic startTime)),
            ((prev.filter (sameGroupB habitId date)).filter
              (overlapsNewB (timeToMinutesStatic startTime)
                (timeToMinutesStatic startTime + duration))).foldl
              (fun acc e => max acc (timeToMinutesStatic e.startTime + e.duration))
              (timeToMinutesStatic startTime + duration) -
            ((prev.filter (sameGroupB habitId date)).filter
              (overlapsNewB (timeToMinutesStatic startTime)
                (timeToMinutesStatic startTime + duration))).foldl
              (fun acc e => min acc (timeToMinutesStatic e.startTime))
              (timeToMinutesStatic startTime)⟩] := by
      rw [addTimedEntry]
      dsimp only
      rw [if_neg (by intro h; exact hemp (List.isEmpty_iff.mp h))]
    obtain ⟨mS, hmS⟩ : ∃ x, ((prev.filter (sameGroupB habitId date)).filter
        (overlapsNewB (timeToMinutesStatic startTime)
          (timeToMinutesStatic startTime + duration))).foldl
        (fun acc e => min acc (timeToMinutesStatic e.startTime))
        (timeToMinutesStatic startTime) = x := ⟨_, rfl⟩
    obtain ⟨mE, hmE⟩ : ∃ x, ((prev.filter (sameGroupB habitId date)).filter
        (overlapsNewB (timeToMinutesStatic startTime)
          (timeToMinutesStatic startTime + duration))).foldl
        (fun acc e => max acc (timeToMinutesStatic e.startTime + e.duration))
        (timeToMinutesStatic startTime + duration) = x := ⟨_, rfl⟩
    rw [hmS, hmE] at heq
    have hmSle : mS ≤ timeToMinutesStatic startTime := hmS ▸ foldl_min_le_init _ _ _
    have hmSmem : ∀ e ∈ prev, e.habitId = habitId → e.date = date →
        touchesNew startTime duration e → mS ≤ startMin e := by
      intro e he hh hd ht
      exact hmS ▸ foldl_min_le_mem _ _ _ e ((hmem_over e).mpr ⟨he, ⟨hh, hd⟩, ht⟩)
    have hmEge : timeToMinutesStatic startTime + duration ≤ mE :=
      hmE ▸ foldl_max_init_le _ _ _
    have hmEmem : ∀ e ∈ prev, e.habitId = habitId → e.date = date →
        touchesNew startTime duration e → endMin e ≤ mE := by
      intro e he hh hd ht
      exact hmE ▸ foldl_max_mem_le _ _ _ e ((hmem_over e).mpr ⟨he, ⟨hh, hd⟩, ht⟩)
    have hmScases : mS = timeToMinutesStatic startTime ∨
        ∃ e ∈ prev, e.habitId = habitId ∧ e.date = date ∧
          touchesNew startTime duration e ∧ mS = startMin e := by
      rcases hmS ▸ foldl_min_cases (fun e : TimedEntry => timeToMinutesStatic e.startTime)
          ((prev.filter (sameGroupB habitId date)).filter
            (overlapsNewB (timeToMinutesStatic startTime)
              (timeToMinutesStatic startTime + duration)))
          (timeToMinutesStatic startTime) with h | ⟨e, he, hev⟩
      · exact Or.inl h
      · obtain ⟨hp, ⟨hh, hd⟩, ht⟩ := (hmem_over e).mp he
        exact Or.inr ⟨e, hp, hh, hd, ht, hev⟩
    have hmEcases : mE = timeToMinutesStatic startTime + duration ∨
        ∃ e ∈ prev, e.habitId = habitId ∧ e.date = date ∧
          touchesNew startTime duration e ∧ mE = endMin e := by
      rcases hmE ▸ foldl_max_cases
          (fun e : TimedEntry => timeToMinutesStatic e.startTime + e.duration)
          ((prev.filter (sameGroupB habitId date)).filter
            (overlapsNewB (timeToMinutesStatic startTime)
              (timeToMinutesStatic startTime + duration)))
          (timeToMinutesStatic startTime + duration) with h | ⟨e, he, hev⟩
      · exact Or.inl h
      · obtain ⟨hp, ⟨hh, hd⟩, ht⟩ := (hmem_over e).mp he
        exact Or.inr ⟨e, hp, hh, hd, ht, hev⟩
    have hmS0 : 0 ≤ mS := by
      rcases hmScases with h | ⟨e, -, -, -, -, hev⟩
      · rw [h]; exact timeToMinutesStatic_nonneg startTime
      · rw [hev]; exact timeToMinutesStatic_nonneg e.startTime
    have hmS1 : mS < 1440 :=
      lt_of_le_of_lt hmSle (timeToMinutesStatic_lt startTime hstv)
    have hmstart : startMin (⟨newId, habitId, date, minutesToTimeStatic mS, mE - mS⟩ :
        TimedEntry) = mS := timeToMinutes_minutesToTime mS hmS0 hmS1
    have hmend : endMin (⟨newId, habitId, date, minutesToTimeStatic mS, mE - mS⟩ :
        TimedEntry) = mE := by
      rw [endMin, hmstart]
      show mS + (mE - mS) = mE
      omega
    -- separation of the merged block from every kept same-group block
    have hsepmerged : ∀ a ∈ prev, a.habitId = habitId → a.date = date →
        ¬touchesNew startTime duration a →
        Separated a ⟨newId, habitId, date, minutesToTimeStatic mS, mE - mS⟩ := by
      intro a ha hh hd hnt
      rcases not_and_or.mp hnt with h | h
      · -- a ends strictly before the requested start: show it ends before mS
        have h1 : endMin a < timeToMinutesStatic startTime := not_le.mp h
        left
        rw [hmstart]
        rcases hmScases with hc | ⟨o, ho, hoh, hod, hot, hc⟩
        · rw [hc]; exact h1
        · rw [hc]
          by_contra hcon
          have hso : startMin o ≤ endMin a := not_lt.mp hcon
          have hao : a ≠ o := fun hao => hnt (hao ▸ hot)
          have hrel := hsym ha ho hao (hh.trans hoh.symm) (hd.trans hod.symm)
          have h2 : timeToMinutesStatic startTime ≤ endMin o := hot.1
          have hposa := hpos a ha
          rcases hrel with hr | hr
          · exact absurd hr (not_lt.mpr hso)
          · simp only [endMin] at h1 h2 hr hso
            omega
      · -- a starts strictly after the requested end: show it starts after mE
        have h1 : timeToMinutesStatic startTime + duration < startMin a := not_le.mp h
        right
        rw [hmend]
        rcases hmEcases with hc | ⟨o, ho, hoh, hod, hot, hc⟩
        · rw [hc]; exact h1
        · rw [hc]
          have hao : a ≠ o := fun hao => hnt (hao ▸ hot)
          have hrel := hsym ha ho hao (hh.trans hoh.symm) (hd.trans hod.symm)
          have h2 : startMin o ≤ timeToMinutesStatic startTime + duration := hot.2
          have hposa := hpos a ha
          rcases hrel with hr | hr
          · simp only [endMin] at hr ⊢
            omega
          · exact hr
    refine ⟨?_, ?_, ?_⟩
    · rw [heq, GroupwiseSeparated, List.pairwise_append]
      refine ⟨?_, by simp, ?_⟩
      · rw [List.pairwise_append]
        refine ⟨hsep.sublist (List.filter_sublist prev),
          hsep.sublist ((List.filter_sublist _).trans (List.filter_sublist prev)), ?_⟩
        intro a ha b hb hh hd
        obtain ⟨-, hag⟩ := (hmem_other a).mp ha
        obtain ⟨-, ⟨hbh, hbd⟩, -⟩ := (hmem_non b).mp hb
        exact absurd ⟨hh.trans hbh, hd.trans hbd⟩ hag
      · intro a ha b hb
        simp only [List.mem_singleton] at hb
        subst hb
        intro hh hd
        rcases List.mem_append.mp ha with ha | ha
        · obtain ⟨-, hag⟩ := (hmem_other a).mp ha
          exact absurd ⟨hh, hd⟩ hag
        · obtain ⟨hap, ⟨hah, had⟩, hant⟩ := (hmem_non a).mp ha
          exact hsepmerged a hap hah had hant
    · intro e he hh hd ht hmem
      rw [heq] at hmem
      rcases List.mem_append.mp hmem with hm | hm
      · rcases List.mem_append.mp hm with hm | hm
        · exact ((hmem_other e).mp hm).2 ⟨hh, hd⟩
        · exact ((hmem_non e).mp hm).2.2 ht
      · simp only [List.mem_singleton] at hm
        exact hfresh e he (by rw [hm])
    · rintro ⟨e, he, hh, hd, ht⟩
      refine ⟨⟨newId, habitId, date, minutesToTimeStatic mS, mE - mS⟩, ?_, rfl, rfl, rfl,
        ?_, ?_, ?_, ?_, ?_⟩
      · rw [heq]
        exact List.mem_append.mpr (Or.inr (List.mem_singleton.mpr rfl))
      · rw [hmstart]; exact hmSle
      · rw [hmend]; exact hmEge
      · intro e' he' hh' hd' ht'
        rw [hmstart, hmend]
        exact ⟨hmSmem e' he' hh' hd' ht', hmEmem e' he' hh' hd' ht'⟩
      · rw [hmstart]; exact hmScases
      · rw [hmend]; exact hmEcases

/-- C6 witness: a concrete well-formed state (two separated blocks of one
habit) and an inserted block touching the first; all hypotheses hold by
computation and `addTimedEntry_preserves_invariant` applies. -/
theorem addTimedEntry_preserves_invariant_witness :
    (GroupwiseSeparated [⟨"a", "h", "d", ⟨9, 0⟩, 30⟩, ⟨"b", "h", "d", ⟨11, 0⟩, 30⟩] ∧
      (∀ e ∈ ([⟨"a", "h", "d", ⟨9, 0⟩, 30⟩, ⟨"b", "h", "d", ⟨11, 0⟩, 30⟩] :
        List TimedEntry), 0 < e.duration) ∧
      (0 : Int) < 60 ∧ ValidHM ⟨9, 15⟩ ∧
      (∀ e ∈ ([⟨"a", "h", "d", ⟨9, 0⟩, 30⟩, ⟨"b", "h", "d", ⟨11, 0⟩, 30⟩] :
        List TimedEntry), e.id ≠ "n")) ∧
    GroupwiseSeparated (addTimedEntry
      [⟨"a", "h", "d", ⟨9, 0⟩, 30⟩, ⟨"b", "h", "d", ⟨11, 0⟩, 30⟩]
      "h" "d" ⟨9, 15⟩ 60 "n") :=
  ⟨⟨by decide, by decide, by decide, by decide, by decide⟩,
    (addTimedEntry_preserves_invariant
      [⟨"a", "h", "d", ⟨9, 0⟩, 30⟩, ⟨"b", "h", "d", ⟨11, 0⟩, 30⟩]
      "h" "d" ⟨9, 15⟩ 60 "n" (by decide) (by decide) (by decide) (by decide)
      (by decide)).1⟩

/-! ## Cloud reconciliation (`mergeData`, useCloudSync.ts:215-273) -/

/-- One step of the "cloud pass" Map fills of `mergeData`
(useCloudSync.ts:224-227): unconditional `map.set(key(x), x)`. -/
def setByKey {α β : Type} [DecidableEq α] (key : β → α)
    (m : List (α × β)) (x : β) : List (α × β) :=
  mapSet (key x) x m

/-- One step of the "local pass" Map fills of `mergeData`
(useCloudSync.ts:237-257): `if (!map.has(key(x))) map.set(key(x), x)`. -/
def setIfAbsent {α β : Type} [DecidableEq α] (key : β → α)
    (m : List (α × β)) (x : β) : List (α × β) :=
  match mapLookup (key x) m with
  | none => mapSet (key x) x m
  | some _ => m

/-- The shared shape of the habit/completion/group/timedEntry merges of
`mergeData`: cloud items written unconditionally into an empty Map, then
local items written only where the key is absent, values read off in
Map insertion order. -/
def mergeByKey {α β : Type} [DecidableEq α] (key : β → α)
    (cloudItems localItems : List β) : List β :=
  (localItems.foldl (setIfAbsent key) (cloudItems.foldl (setByKey key) [])).map
    (fun p => p.2)

/-- The completion Map key `` `${c.habitId}-${c.date}` ``
(useCloudSync.ts:225). -/
def completionKey (c : HabitCompletion) : String := c.habitId ++ "-" ++ c.date

/-- `mergeData(local, cloud)` (useCloudSync.ts:215-273): habits, groups
and timedEntries keyed by `id`, completions by `habitId-date`, with the
cloud pass first (so cloud wins key collisions); activeTimers keyed by
`habitId`, both passes keeping the earlier `startTimestamp` (same
`timerStep` as `deduplicateActiveTimers`), cloud loop first. -/
def mergeData (localData cloudData : HabitData) : HabitData :=
  { habits := mergeByKey (fun h => h.id) cloudData.habits localData.habits
    completions := mergeByKey completionKey cloudData.completions localData.completions
    groups := mergeByKey (fun g => g.id) cloudData.groups localData.groups
    timedEntries := mergeByKey (fun e => e.id) cloudData.timedEntries localData.timedEntries
    activeTimers := (localData.activeTimers.foldl timerStep
      (cloudData.activeTimers.foldl timerStep [])).map (fun p => p.2) }

theorem foldl_setByKey_keyed {α β : Type} [DecidableEq α] (key : β → α) :
    ∀ (l : List β) (m : List (α × β)), (∀ p ∈ m, p.1 = key p.2) →
      ∀ p ∈ l.foldl (setByKey key) m, p.1 = key p.2 := by
  intro l
  induction l with
  | nil => intro m hm; exact hm
  | cons x rest ih =>
    intro m hm
    refine ih (setByKey key m x) ?_
    intro p hp
    rcases mem_mapSet _ _ _ _ hp with rfl | hp
    · rfl
    · exact hm p hp

theorem foldl_setByKey_nodupKeys {α β : Type} [DecidableEq α] (key : β → α) :
    ∀ (l : List β) (m : List (α × β)), m.Pairwise (fun a b => a.1 ≠ b.1) →
      (l.foldl (setByKey key) m).Pairwise (fun a b => a.1 ≠ b.1) := by
  intro l
  induction l with
  | nil => intro m hm; exact hm
  | cons x rest ih =>
    intro m hm
    exact ih (setByKey key m x) (mapSet_nodupKeys _ _ m hm)

theorem foldl_setIfAbsent_keyed {α β : Type} [DecidableEq α] (key : β → α) :
    ∀ (l : List β) (m : List (α × β)), (∀ p ∈ m, p.1 = key p.2) →
      ∀ p ∈ l.foldl (setIfAbsent key) m, p.1 = key p.2 := by
  intro l
  induction l with
  | nil => intro m hm; exact hm
  | cons x rest ih =>
    intro m hm
    refine ih (setIfAbsent key m x) ?_
    intro p hp
    rw [setIfAbsent] at hp
    rcases hl : mapLookup (key x) m with _ | v
    · rw [hl] at hp
      rcases mem_mapSet _ _ _ _ hp with rfl | hp
      · rfl
      · exact hm p hp
    · rw [hl] at hp
      exact hm p hp

theorem foldl_setIfAbsent_nodupKeys {α β : Type} [DecidableEq α] (key : β → α) :
    ∀ (l : List β) (m : List (α × β)), m.Pairwise (fun a b => a.1 ≠ b.1) →
      (l.foldl (setIfAbsent key) m).Pairwise (fun a b => a.1 ≠ b.1) := by
  intro l
  induction l with
  | nil => intro m hm; exact hm
  | cons x rest ih =>
    intro m hm
    refine ih (setIfAbsent key m x) ?_
    rw [setIfAbsent]
    rcases mapLookup (key x) m with _ | v
    · exact mapSet_nodupKeys _ _ m hm
    · exact hm

theorem mem_values_iff_mapLookup {α β : Type} [DecidableEq α] (key : β → α)
    (m : List (α × β)) (hkeyed : ∀ p ∈ m, p.1 = key p.2)
    (hnd : m.Pairwise (fun a b => a.1 ≠ b.1)) (x : β) :
    x ∈ m.map (fun p => p.2) ↔ mapLookup (key x) m = some x := by
  constructor
  · intro hx
    obtain ⟨p, hp, hpx⟩ := List.mem_map.mp hx
    have hk := hkeyed p hp
    have := mapLookup_of_mem m hnd p hp
    rw [hk, hpx] at this
    exact this
  · intro h
    obtain ⟨p, hp, -, hv⟩ := mapLookup_some_mem _ _ _ h
    exact List.mem_map.mpr ⟨p, hp, hv⟩

theorem mapLookup_foldl_setByKey {α β : Type} [DecidableEq α] (key : β → α) (k : α) :
    ∀ (l : List β) (m : List (α × β)), l.Pairwise (fun a b => key a ≠ key b) →
      mapLookup k (l.foldl (setByKey key) m) =
        match l.find? (fun y => decide (key y = k)) with
        | some y => some y
        | none => mapLookup k m := by
  intro l
  induction l with
  | nil => intro m _; rfl
  | cons x rest ih =>
    intro m hnd
    obtain ⟨hhead, htail⟩ := List.pairwise_cons.mp hnd
    rw [List.foldl_cons, ih (setByKey key m x) htail]
    by_cases hk : key x = k
    · have hrest : rest.find? (fun y => decide (key y = k)) = none := by
        rw [List.find?_eq_none]
        intro y hy
        simp only [decide_eq_true_eq]
        intro hyk
        exact hhead y hy (hk.trans hyk.symm)
      rw [hrest, List.find?_cons_of_pos _ (by simpa using hk)]
      dsimp only
      rw [setByKey, hk]
      exact mapLookup_mapSet_self k x m
    · rw [List.find?_cons_of_neg _ (by simpa using hk)]
      rcases rest.find? (fun y => decide (key y = k)) with _ | y
      · dsimp only
        rw [setByKey]
        exact mapLookup_mapSet_ne (key x) k x hk m
      · rfl

theorem mapLookup_foldl_setIfAbsent {α β : Type} [DecidableEq α] (key : β → α) (k : α) :
    ∀ (l : List β) (m : List (α × β)),
      mapLookup k (l.foldl (setIfAbsent key) m) =
        match mapLookup k m with
        | some v => some v
        | none => l.find? (fun y => decide (key y = k)) := by
  intro l
  induction l with
  | nil =>
    intro m
    rw [List.foldl_nil]
    rcases mapLookup k m with _ | v
    · rfl
    · rfl
  | cons x rest ih =>
    intro m
    rw [List.foldl_cons, ih (setIfAbsent key m x)]
    rcases hm : mapLookup k m with _ | v
    · dsimp only
      by_cases hk : key x = k
      · have hxm : mapLookup (key x) m = none := hk ▸ hm
        have hstep : setIfAbsent key m x = mapSet (key x) x m := by
          rw [setIfAbsent, hxm]
        rw [hstep, hk, mapLookup_mapSet_self k x m,
          List.find?_cons_of_pos _ (by simpa using hk)]
      · have hstep : mapLookup k (setIfAbsent key m x) = none := by
          rw [setIfAbsent]
          rcases mapLookup (key x) m with _ | w
          · rw [mapLookup_mapSet_ne (key x) k x hk m]; exact hm
          · exact hm
        rw [hstep, List.find?_cons_of_neg _ (by simpa using hk)]
    · have hstep : mapLookup k (setIfAbsent key m x) = some v := by
        rw [setIfAbsent]
        rcases hxl : mapLookup (key x) m with _ | w
        · have hk : key x ≠ k := by
            intro h
            rw [h, hm] at hxl
            exact Option.noConfusion hxl
          rw [mapLookup_mapSet_ne (key x) k x hk m]; exact hm
        · exact hm
      rw [hstep]

theorem mem_mergeByKey {α β : Type} [DecidableEq α] (key : β → α)
    (c l : List β) (hc : c.Pairwise (fun a b => key a ≠ key b)) (x : β) :
    x ∈ mergeByKey key c l ↔
      (match c.find? (fun y => decide (key y = key x)) with
        | some y => some y
        | none => l.find? (fun y => decide (key y = key x))) = some x := by
  rw [mergeByKey]
  rw [mem_values_iff_mapLookup key _
    (foldl_setIfAbsent_keyed key l _ (foldl_setByKey_keyed key c [] (by simp)))
    (foldl_setIfAbsent_nodupKeys key l _ (foldl_setByKey_nodupKeys key c [] (by simp)))]
  rw [mapLookup_foldl_setIfAbsent, mapLookup_foldl_setByKey key (key x) c [] hc]
  rcases c.find? (fun y => decide (key y = key x)) with _ | y
  · rfl
  · rfl

theorem mergeByKey_comm_mem {α β : Type} [DecidableEq α] (key : β → α)
    (a b : List β) (ha : a.Pairwise (fun u v => key u ≠ key v))
    (hb : b.Pairwise (fun u v => key u ≠ key v))
    (hab : ∀ u ∈ a, ∀ v ∈ b, key u = key v → u = v) (z : β) :
    z ∈ mergeByKey key b a ↔ z ∈ mergeByKey key a b := by
  rw [mem_mergeByKey key b a hb z, mem_mergeByKey key a b ha z]
  rcases hfa : a.find? (fun y => decide (key y = key z)) with _ | u
  · rcases hfb : b.find? (fun y => decide (key y = key z)) with _ | v
    · rfl
    · rfl
  · rcases hfb : b.find? (fun y => decide (key y = key z)) with _ | v
    · rfl
    · have hu : u ∈ a := List.mem_of_find?_eq_some hfa
      have hv : v ∈ b := List.mem_of_find?_eq_some hfb
      have hpu := List.find?_some hfa
      have hpv := List.find?_some hfb
      have hku : key u = key z := of_decide_eq_true hpu
      have hkv : key v = key z := of_decide_eq_true hpv
      have huv : u = v := hab u hu v hv (hku.trans hkv.symm)
      rw [huv]

/-- Left-biased minimum of two optional timers by `startTimestamp`: the
binary operation underlying `timerStep` accumulation. -/
def combineMin : Option ActiveTimer → Option ActiveTimer → Option ActiveTimer
  | none, y => y
  | some a, none => some a
  | some a, some b => if b.startTimestamp < a.startTimestamp then some b else some a

theorem combineMin_none_right : ∀ x : Option ActiveTimer, combineMin x none = x := by
  intro x
  rcases x with _ | a
  · rfl
  · rfl

theorem combineMin_assoc (x y z : Option ActiveTimer) :
    combineMin (combineMin x y) z = combineMin x (combineMin y z) := by
  rcases x with _ | a
  · rfl
  · rcases y with _ | b
    · rfl
    · rcases z with _ | c
      · rw [combineMin_none_right, combineMin_none_right]
      · show combineMin (if b.startTimestamp < a.startTimestamp then some b else some a)
          (some c) = combineMin (some a)
            (if c.startTimestamp < b.startTimestamp then some c else some b)
        by_cases hba : b.startTimestamp < a.startTimestamp
        · rw [if_pos hba]
          by_cases hcb : c.startTimestamp < b.startTimestamp
          · rw [if_pos hcb]
            show (if c.startTimestamp < b.startTimestamp then some c else some b) =
              (if c.startTimestamp < a.startTimestamp then some c else some a)
            rw [if_pos hcb, if_pos (hcb.trans hba)]
          · rw [if_neg hcb]
            show (if c.startTimestamp < b.startTimestamp then some c else some b) =
              (if b.startTimestamp < a.startTimestamp then some b else some a)
            rw [if_neg hcb, if_pos hba]
        · rw [if_neg hba]
          by_cases hcb : c.startTimestamp < b.startTimestamp
          · rw [if_pos hcb]
          · rw [if_neg hcb]
            show (if c.startTimestamp < a.startTimestamp then some c else some a) =
              (if b.startTimestamp < a.startTimestamp then some b else some a)
            rw [if_neg hba, if_neg (fun hc => hcb (lt_of_lt_of_le hc (not_lt.mp hba)))]

theorem minFirstTimer_eq_combine :
    ∀ (l : List ActiveTimer) (acc : Option ActiveTimer),
      minFirstTimer acc l = combineMin acc (minFirstTimer none l) := by
  intro l
  induction l with
  | nil =>
    intro acc
    rw [minFirstTimer, minFirstTimer, List.foldl_nil, List.foldl_nil, combineMin_none_right]
  | cons t rest ih =>
    intro acc
    rw [minFirstTimer, List.foldl_cons, ← minFirstTimer]
    rw [show minFirstTimer none (t :: rest) = minFirstTimer (some t) rest by
      rw [minFirstTimer, minFirstTimer, List.foldl_cons]]
    rw [ih _, ih (some t), ← combineMin_assoc]
    have hstep : (match acc with
        | none => some t
        | some ex => if t.startTimestamp < ex.startTimestamp then some t else some ex) =
        combineMin acc (some t) := by
      rcases acc with _ | a
      · rfl
      · rfl
    rw [hstep]

theorem minFirstTimer_append (l₁ l₂ : List ActiveTimer) :
    minFirstTimer none (l₁ ++ l₂) =
      combineMin (minFirstTimer none l₁) (minFirstTimer none l₂) := by
  rw [minFirstTimer, List.foldl_append, ← minFirstTimer, ← minFirstTimer,
    minFirstTimer_eq_combine l₂]

theorem combineMin_comm_of (la lb : List ActiveTimer)
    (hyp : ∀ a ∈ la, ∀ b ∈ lb, a.startTimestamp = b.startTimestamp → a = b) :
    combineMin (minFirstTimer none la) (minFirstTimer none lb) =
      combineMin (minFirstTimer none lb) (minFirstTimer none la) := by
  rcases hra : minFirstTimer none la with _ | a
  · rw [combineMin, combineMin_none_right]
  · rcases hrb : minFirstTimer none lb with _ | b
    · rw [combineMin, combineMin_none_right]
    · have hma : a ∈ la := (minFirstTimer_none_spec la a hra).1
      have hmb : b ∈ lb := (minFirstTimer_none_spec lb b hrb).1
      show (if b.startTimestamp < a.startTimestamp then some b else some a) =
        (if a.startTimestamp < b.startTimestamp then some a else some b)
      by_cases hba : b.startTimestamp < a.startTimestamp
      · rw [if_pos hba, if_neg (by omega)]
      · rw [if_neg hba]
        by_cases hab' : a.startTimestamp < b.startTimestamp
        · rw [if_pos hab']
        · rw [if_neg hab', hyp a hma b hmb (by omega)]

theorem mapLookup_nil_timer (h : String) :
    mapLookup h ([] : List (String × ActiveTimer)) = none := rfl

/-- Concrete datasets for the `mergeData` asymmetry: both sides carry a
timed entry with id `p` (durations 30 vs 60) and a timer for habit `h`
with equal `startTimestamp` 100 but different ids. -/
def ceLocalData : HabitData :=
  ⟨[], [], [], [⟨"p", "h", "d", ⟨0, 0⟩, 30⟩], [⟨"ta", "h", "d", ⟨0, 0⟩, 100⟩]⟩

def ceCloudData : HabitData :=
  ⟨[], [], [], [⟨"p", "h", "d", ⟨0, 0⟩, 60⟩], [⟨"tb", "h", "d", ⟨0, 30⟩, 100⟩]⟩

/-- C3 counterexample: with an id shared by value-distinct entries the
cloud side's entry survives, and with an equal-timestamp timer tie the
cloud side's timer survives, so swapping the arguments of `mergeData`
changes both the surviving TimedEntry set and the surviving ActiveTimer
set. -/
theorem mergeData_entity_sets_comm_counterexample :
    ((⟨"p", "h", "d", ⟨0, 0⟩, 60⟩ : TimedEntry) ∈
        (mergeData ceLocalData ceCloudData).timedEntries ∧
      (⟨"p", "h", "d", ⟨0, 0⟩, 60⟩ : TimedEntry) ∉
        (mergeData ceCloudData ceLocalData).timedEntries) ∧
    ((⟨"tb", "h", "d", ⟨0, 30⟩, 100⟩ : ActiveTimer) ∈
        (mergeData ceLocalData ceCloudData).activeTimers ∧
      (⟨"tb", "h", "d", ⟨0, 30⟩, 100⟩ : ActiveTimer) ∉
        (mergeData ceCloudData ceLocalData).activeTimers) := by
  decide

/-- C3 (amended): `mergeData(A,B)` and `mergeData(B,A)` contain the same
TimedEntry values and the same ActiveTimer values provided (i) each
side's timedEntries carry distinct ids, (ii) an id shared across the two
sides names the same entry value, and (iii) two timers of the same habit
from opposite sides never tie on `startTimestamp` unless they are the
same value.  Without those provisos the cloud argument wins id and
equal-timestamp collisions, so the sets differ
(`mergeData_entity_sets_comm_counterexample`). -/
theorem mergeData_entity_sets_comm (A B : HabitData)
    (hA : A.timedEntries.Pairwise (fun e e' => e.id ≠ e'.id))
    (hB : B.timedEntries.Pairwise (fun e e' => e.id ≠ e'.id))
    (hE : ∀ e ∈ A.timedEntries, ∀ e' ∈ B.timedEntries, e.id = e'.id → e = e')
    (hT : ∀ t ∈ A.activeTimers, ∀ t' ∈ B.activeTimers, t.habitId = t'.habitId →
      t.startTimestamp = t'.startTimestamp → t = t') :
    (∀ e : TimedEntry, e ∈ (mergeData A B).timedEntries ↔
      e ∈ (mergeData B A).timedEntries) ∧
    (∀ t : ActiveTimer, t ∈ (mergeData A B).activeTimers ↔
      t ∈ (mergeData B A).activeTimers) := by
  constructor
  · intro e
    exact mergeByKey_comm_mem (fun x => x.id) A.timedEntries B.timedEntries hA hB hE e
  · intro t
    have h1 : (mergeData A B).activeTimers =
        ((B.activeTimers ++ A.activeTimers).foldl timerStep []).map (fun p => p.2) := by
      show (A.activeTimers.foldl timerStep
        (B.activeTimers.foldl timerStep [])).map (fun p => p.2) = _
      rw [List.foldl_append]
    have h2 : (mergeData B A).activeTimers =
        ((A.activeTimers ++ B.activeTimers).foldl timerStep []).map (fun p => p.2) := by
      show (B.activeTimers.foldl timerStep
        (A.activeTimers.foldl timerStep [])).map (fun p => p.2) = _
      rw [List.foldl_append]
    rw [h1, h2,
      mem_values_iff_lookup _
        (foldl_timerStep_keyed (B.activeTimers ++ A.activeTimers) [] (by simp))
        (foldl_timerStep_nodupKeys (B.activeTimers ++ A.activeTimers) [] (by simp)) t,
      mem_values_iff_lookup _
        (foldl_timerStep_keyed (A.activeTimers ++ B.activeTimers) [] (by simp))
        (foldl_timerStep_nodupKeys (A.activeTimers ++ B.activeTimers) [] (by simp)) t,
      mapLookup_foldl_timerStep, mapLookup_foldl_timerStep, mapLookup_nil_timer,
      List.filter_append, List.filter_append, minFirstTimer_append, minFirstTimer_append]
    have hyp : ∀ a ∈ B.activeTimers.filter (fun u => decide (u.habitId = t.habitId)),
        ∀ b ∈ A.activeTimers.filter (fun u => decide (u.habitId = t.habitId)),
        a.startTimestamp = b.startTimestamp → a = b := by
      intro a ha b hb hts
      obtain ⟨haB, hah⟩ := List.mem_filter.mp ha
      obtain ⟨hbA, hbh⟩ := List.mem_filter.mp hb
      exact (hT b hbA a haB
        ((of_decide_eq_true hbh).trans (of_decide_eq_true hah).symm) hts.symm).symm
    rw [combineMin_comm_of _ _ hyp]

/-- Concrete datasets satisfying the amended hypotheses: disjoint entry
ids and distinct timer timestamps across the two sides. -/
def wLocalData : HabitData :=
  ⟨[], [], [], [⟨"x", "h", "d", ⟨0, 0⟩, 30⟩], [⟨"ta", "h", "d", ⟨0, 0⟩, 100⟩]⟩

def wCloudData : HabitData :=
  ⟨[], [], [], [⟨"y", "h", "d", ⟨1, 0⟩, 60⟩], [⟨"tb", "h", "d", ⟨0, 30⟩, 200⟩]⟩

/-- C3 witness: the amended hypotheses hold at a concrete pair of
datasets and `mergeData_entity_sets_comm` applies, here instantiated at
the local side's entry and the cloud side's timer. -/
theorem mergeData_entity_sets_comm_witness :
    ((wLocalData.timedEntries.Pairwise fun e e' => e.id ≠ e'.id) ∧
      (wCloudData.timedEntries.Pairwise fun e e' => e.id ≠ e'.id) ∧
      (∀ e ∈ wLocalData.timedEntries, ∀ e' ∈ wCloudData.timedEntries,
        e.id = e'.id → e = e') ∧
      (∀ t ∈ wLocalData.activeTimers, ∀ t' ∈ wCloudData.activeTimers,
        t.habitId = t'.habitId → t.startTimestamp = t'.startTimestamp → t = t')) ∧
    ((⟨"x", "h", "d", ⟨0, 0⟩, 30⟩ : TimedEntry) ∈
        (mergeData wLocalData wCloudData).timedEntries ↔
      (⟨"x", "h", "d", ⟨0, 0⟩, 30⟩ : TimedEntry) ∈
        (mergeData wCloudData wLocalData).timedEntries) ∧
    ((⟨"ta", "h", "d", ⟨0, 0⟩, 100⟩ : ActiveTimer) ∈
        (mergeData wLocalData wCloudData).activeTimers ↔
      (⟨"ta", "h", "d", ⟨0, 0⟩, 100⟩ : ActiveTimer) ∈
        (mergeData wCloudData wLocalData).activeTimers) :=
  ⟨⟨by decide, by decide, by decide, by decide⟩,
    (mergeData_entity_sets_comm wLocalData wCloudData
      (by decide) (by decide) (by decide) (by decide)).1 ⟨"x", "h", "d", ⟨0, 0⟩, 30⟩,
    (mergeData_entity_sets_comm wLocalData wCloudData
      (by decide) (by decide) (by decide) (by decide)).2 ⟨"ta", "h", "d", ⟨0, 0⟩, 100⟩⟩

/-! ## Day-view overlap layout (`entryLayout`, DayView:342-466) -/

/-- JS `Math.ceil(a / b)` for integer `a` and positive integer `b`. -/
def jsCeilDiv (a b : Int) : Int := -((-a).fdiv b)

/-- JS `Set.add`: append if absent (sets iterate in insertion order). -/
def setAdd {α : Type} [DecidableEq α] (x : α) (s : List α) : List α :=
  if x ∈ s then s else s ++ [x]

/-- One element of the `entrySlots` array (DayView:346-351): the segment
of an entry that falls inside one column. -/
structure EntrySlot where
  entry : TimedEntry
  col : Int
  startRow : Int
  rowSpan : Int
deriving DecidableEq

/-- The ascending integer range `0, 1, ..., n-1` of a JS `for` loop. -/
def intRange (n : Nat) : List Int := (List.range n).map Int.ofNat

/-- The columns scanned by `for (let col = start.col; col < COLUMNS; col++)`. -/
def colsFrom (scol : Int) : List Int :=
  (intRange (COLUMNS - scol).toNat).map (fun i => scol + i)

/-- The segments one entry contributes to `entrySlots` (DayView:352-381):
slot of the start time, `numSlots = Math.ceil(duration / 15)`, one
segment per spanned column, clipped to the column and kept only when the
clipped span is positive. -/
def entrySlotsFor (entry : TimedEntry) : List EntrySlot :=
  match timeToSlot (entry.startTime.hh : Int) (entry.startTime.mm : Int) with
  | none => []
  | some start =>
    let numSlots := jsCeilDiv entry.duration 15
    let startAbsolute := start.1 * ROWS + start.2
    let endAbsolute := startAbsolute + numSlots
    (colsFrom start.1).filterMap (fun col =>
      let colStartAbsolute := col * ROWS
      let colEndAbsolute := (col + 1) * ROWS
      if colEndAbsolute ≤ startAbsolute ∨ endAbsolute ≤ colStartAbsolute then none
      else
        let rowStart := if col = start.1 then start.2 else 0
        let rowEnd := min ROWS (endAbsolute - colStartAbsolute)
        let rowSpan := rowEnd - rowStart
        if 0 < rowSpan then some ⟨entry, col, rowStart, rowSpan⟩ else none)

/-- `entrySlots` (DayView:352): all segments, in `dayEntries` order. -/
def entrySlots (dayEntries : List TimedEntry) : List EntrySlot :=
  dayEntries.flatMap entrySlotsFor

/-- Adding one segment key to the set stored at one slot key of
`slotToSegmentKeys` (DayView:388-394).  The JS string keys
`` `${col}:${r}` `` and `` `${entry.id}:${col}` `` are modelled as the
pairs `(col, r)` and `(entry.id, col)`; with `col` a single digit both
encodings are injective, colons in ids included. -/
def addSegKey (m : List ((Int × Int) × List (String × Int)))
    (sk : Int × Int) (kk : String × Int) :
    List ((Int × Int) × List (String × Int)) :=
  match mapLookup sk m with
  | none => mapSet sk (setAdd kk []) m
  | some s => mapSet sk (setAdd kk s) m

/-- The rows one segment writes into `slotToSegmentKeys`
(DayView:389-394): `for (let r = startRow; r < startRow + rowSpan; r++)`. -/
def addSlotRows (m : List ((Int × Int) × List (String × Int)))
    (s : EntrySlot) : List ((Int × Int) × List (String × Int)) :=
  (intRange s.rowSpan.toNat).foldl
    (fun m i => addSegKey m (s.col, s.startRow + i) (s.entry.id, s.col)) m

/-- `slotToSegmentKeys` (DayView:386-394): Map from slot to the Set of
segment keys occupying it. -/
def slotToSegmentKeys (slots : List EntrySlot) :
    List ((Int × Int) × List (String × Int)) :=
  slots.foldl addSlotRows []

/-- One segment's `maxOverlap` (DayView:400-409):
`count = slotToSegmentKeys.get(slotKey)?.size || 1` maximised over the
segment's rows, starting from 1. -/
def segMaxOverlapOf (slotMap : List ((Int × Int) × List (String × Int)))
    (s : EntrySlot) : Int :=
  (List.range s.rowSpan.toNat).foldl
    (fun acc i =>
      max acc
        (match mapLookup (s.col, s.startRow + (i : Int)) slotMap with
          | none => 1
          | some l => if l.length = 0 then 1 else (l.length : Int))) 1

/-- The `segmentMaxOverlap` Map (DayView:398-410). -/
def segmentMaxOverlap (slotMap : List ((Int × Int) × List (String × Int)))
    (slots : List EntrySlot) : List ((String × Int) × Int) :=
  slots.foldl (fun m s => mapSet (s.entry.id, s.col) (segMaxOverlapOf slotMap s) m) []

/-- `key.split(':')[0]` (DayView:421-422) applied to the modelled pair
key: the id text before its first colon (the whole id when colon-free,
since the key string is the id followed by `:` and the column digit). -/
def idPart (k : String × Int) : String :=
  String.mk (k.1.data.takeWhile (fun ch => ch ≠ ':'))

/-- The comparator's sort key (DayView:421-427): the start time, in
minutes, of the first day entry whose id matches the key (0 when none
matches; the source then dereferences `undefined` and throws). -/
def keyStartMin (dayEntries : List TimedEntry) (k : String × Int) : Int :=
  match dayEntries.find? (fun e => decide (e.id = idPart k)) with
  | some e => startMin e
  | none => 0

/-- The segment ordering of DayView:420-428: ascending start minutes
(JS `sort` is stable, so ties keep Set insertion order). -/
def keyLE (dayEntries : List TimedEntry) (a b : String × Int) : Prop :=
  keyStartMin dayEntries a ≤ keyStartMin dayEntries b

instance (dayEntries : List TimedEntry) : DecidableRel (keyLE dayEntries) :=
  fun _ _ => Int.decLe _ _

/-- `let pos = 0; while (usedPositions.has(pos)) pos++` (DayView:440-441),
with explicit fuel. -/
def firstFreeAux (used : List Int) : Int → Nat → Int
  | pos, 0 => pos
  | pos, fuel + 1 => if pos ∈ used then firstFreeAux used (pos + 1) fuel else pos

/-- The first position index not in `used` (fuel `used.length + 1`
always suffices). -/
def firstFree (used : List Int) : Int := firstFreeAux used 0 (used.length + 1)

/-- One segment key of one slot's sorted list (DayView:438-446): skip if
already processed this column, else assign the first free position and
record it. State: (segmentPosition, processed, usedPositions). -/
def assignStep
    (st : List ((String × Int) × Int) × List (String × Int) × List Int)
    (k : String × Int) :
    List ((String × Int) × Int) × List (String × Int) × List Int :=
  if k ∈ st.2.1 then st
  else
    (mapSet k (firstFree st.2.2) st.1, setAdd k st.2.1,
      setAdd (firstFree st.2.2) st.2.2)

/-- One row of the position-assignment scan (DayView:417-447): fetch the
slot's segment keys, sort them by start time, seed `usedPositions` from
already-assigned keys, then assign. State: (segmentPosition, processed). -/
def rowStep (dayEntries : List TimedEntry)
    (slotMap : List ((Int × Int) × List (String × Int))) (col : Int)
    (st : List ((String × Int) × Int) × List (String × Int)) (row : Int) :
    List ((String × Int) × Int) × List (String × Int) :=
  match mapLookup (col, row) slotMap with
  | none => st
  | some segKeys =>
    let sortedKeys := List.insertionSort (keyLE dayEntries) segKeys
    let used := sortedKeys.filterMap (fun k => mapLookup k st.1)
    let res := sortedKeys.foldl assignStep (st.1, st.2, used)
    (res.1, res.2.1)

/-- One column of the position-assignment scan (DayView:414-448):
`processed` starts empty per column, rows scanned in order. -/
def processColumn (dayEntries : List TimedEntry)
    (slotMap : List ((Int × Int) × List (String × Int)))
    (pm : List ((String × Int) × Int)) (col : Int) :
    List ((String × Int) × Int) :=
  ((intRange ROWS.toNat).foldl (rowStep dayEntries slotMap col) (pm, [])).1

/-- The final `segmentPosition` Map (DayView:413-448): columns 0, 1, 2
in order. -/
def segmentPosition (dayEntries : List TimedEntry)
    (slotMap : List ((Int × Int) × List (String × Int))) :
    List ((String × Int) × Int) :=
  (intRange COLUMNS.toNat).foldl (processColumn dayEntries slotMap) []

/-- One record of the layout array (DayView:451-462). -/
structure LayoutEntry where
  entry : TimedEntry
  col : Int
  startRow : Int
  rowSpan : Int
  position : Int
  maxOverlap : Int
deriving DecidableEq

/-- `entryLayout` (DayView:342-466).  `position` reads
`segmentPosition.get(segmentKey) || 0` (`p || 0 = p` for every number
`p` except `0 || 0 = 0`, i.e. exactly `getD 0`) and `maxOverlap` reads
`segmentMaxOverlap.get(segmentKey) || 1` (stored overlaps are ≥ 1, so
this is `getD 1`). -/
def entryLayout (dayEntries : List TimedEntry) : List LayoutEntry :=
  let slots := entrySlots dayEntries
  let slotMap := slotToSegmentKeys slots
  let overlapMap := segmentMaxOverlap slotMap slots
  let posMap := segmentPosition dayEntries slotMap
  slots.map (fun s =>
    ⟨s.entry, s.col, s.startRow, s.rowSpan,
      (mapLookup (s.entry.id, s.col) posMap).getD 0,
      (mapLookup (s.entry.id, s.col) overlapMap).getD 1⟩)

theorem ROWS_eq : ROWS = 32 := by decide

theorem COLUMNS_eq : COLUMNS = 3 := by decide

theorem mem_intRange (n : Nat) (r : Int) : r ∈ intRange n ↔ 0 ≤ r ∧ r < (n : Int) := by
  rw [intRange]
  constructor
  · intro h
    obtain ⟨i, hi, hir⟩ := List.mem_map.mp h
    rw [List.mem_range] at hi
    rw [Int.ofNat_eq_natCast] at hir
    omega
  · intro h
    refine List.mem_map.mpr ⟨r.toNat, ?_, ?_⟩
    · rw [List.mem_range]
      omega
    · rw [Int.ofNat_eq_natCast]
      omega

theorem timeToSlot_bounds (hour minute : Int) (hh : 0 ≤ hour) (hm : 0 ≤ minute)
    (p : Int × Int) (heq : timeToSlot hour minute = some p) :
    0 ≤ p.1 ∧ p.1 ≤ 2 ∧ 0 ≤ p.2 ∧ p.2 ≤ 31 := by
  rw [timeToSlot] at heq
  simp only [START_HOUR, HOURS_PER_COLUMN, COLUMNS, SLOTS_PER_HOUR, ROWS] at heq
  rw [if_neg (by omega : ¬hour - 0 < 0)] at heq
  rw [Int.fdiv_eq_ediv _ (by omega : (0:Int) ≤ 8),
    Int.tmod_eq_emod (by omega) (by omega),
    Int.fdiv_eq_ediv _ (by omega : (0:Int) ≤ 15)] at heq
  by_cases hg : (3:Int) ≤ (hour - 0) / 8 ∨ (8:Int) * 4 ≤ (hour - 0) % 8 * 4 + minute / 15
  · rw [if_pos hg] at heq
    exact absurd heq (by simp)
  · rw [if_neg hg] at heq
    have hp := Option.some_inj.mp heq
    rw [← hp]
    push_neg at hg
    refine ⟨?_, ?_, ?_, ?_⟩
    · exact Int.ediv_nonneg (by omega) (by omega)
    · omega
    · have h1 : 0 ≤ (hour - 0) % 8 := Int.emod_nonneg _ (by omega)
      have h2 : 0 ≤ minute / 15 := Int.ediv_nonneg (by omega) (by omega)
      omega
    · omega

theorem mem_entrySlotsFor (e : TimedEntry) (s : EntrySlot)
    (hs : s ∈ entrySlotsFor e) :
    s.entry = e ∧ 0 ≤ s.col ∧ s.col ≤ 2 ∧ 0 ≤ s.startRow ∧ 0 < s.rowSpan ∧
      s.startRow + s.rowSpan ≤ 32 := by
  rw [entrySlotsFor] at hs
  rcases ht : timeToSlot (e.startTime.hh : Int) (e.startTime.mm : Int) with _ | start
  · rw [ht] at hs
    exact absurd hs (by simp)
  · rw [ht] at hs
    obtain ⟨hc1, hc2, hc3, hc4⟩ :=
      timeToSlot_bounds _ _ (by positivity) (by positivity) start ht
    dsimp only at hs
    obtain ⟨col, hcol, hbody⟩ := List.mem_filterMap.mp hs
    have hcolb : start.1 ≤ col ∧ col ≤ 2 := by
      simp only [colsFrom, List.mem_map] at hcol
      obtain ⟨i, hilt2, hieq2⟩ := hcol
      rw [mem_intRange] at hilt2
      rw [COLUMNS_eq] at hilt2
      omega
    by_cases hskip : (col + 1) * ROWS ≤ start.1 * ROWS + start.2 ∨
        start.1 * ROWS + start.2 + jsCeilDiv e.duration 15 ≤ col * ROWS
    · rw [if_pos hskip] at hbody
      exact absurd hbody (by simp)
    · rw [if_neg hskip] at hbody
      by_cases hspan : (0:Int) <
          min ROWS (start.1 * ROWS + start.2 + jsCeilDiv e.duration 15 - col * ROWS) -
            (if col = start.1 then start.2 else 0)
      · rw [if_pos hspan] at hbody
        have hb := Option.some_inj.mp hbody
        have hq0 : 0 ≤ (if col = start.1 then start.2 else 0) := by
          by_cases hcs : col = start.1
          · rw [if_pos hcs]; exact hc3
          · rw [if_neg hcs]
        rw [← hb]
        refine ⟨rfl, ?_, ?_, ?_, ?_, ?_⟩ <;> dsimp only
        · omega
        · omega
        · exact hq0
        · exact hspan
        · rw [ROWS_eq] at hspan ⊢
          omega
      · rw [if_neg hspan] at hbody
        exact absurd hbody (by simp)

theorem entrySlotsFor_col_unique (e : TimedEntry) (s1 s2 : EntrySlot)
    (h1 : s1 ∈ entrySlotsFor e) (h2 : s2 ∈ entrySlotsFor e)
    (hc : s1.col = s2.col) : s1 = s2 := by
  rw [entrySlotsFor] at h1 h2
  rcases ht : timeToSlot (e.startTime.hh : Int) (e.startTime.mm : Int) with _ | start
  · rw [ht] at h1
    exact absurd h1 (by simp)
  · rw [ht] at h1 h2
    dsimp only at h1 h2
    obtain ⟨c1, hm1, hf1⟩ := List.mem_filterMap.mp h1
    obtain ⟨c2, hm2, hf2⟩ := List.mem_filterMap.mp h2
    have key : ∀ (c : Int) (s : EntrySlot),
        (if (c + 1) * ROWS ≤ start.1 * ROWS + start.2 ∨
            start.1 * ROWS + start.2 + jsCeilDiv e.duration 15 ≤ c * ROWS then none
          else if 0 < min ROWS (start.1 * ROWS + start.2 +
                jsCeilDiv e.duration 15 - c * ROWS) -
              (if c = start.1 then start.2 else 0) then
            some ⟨e, c, if c = start.1 then start.2 else 0,
              min ROWS (start.1 * ROWS + start.2 +
                  jsCeilDiv e.duration 15 - c * ROWS) -
                (if c = start.1 then start.2 else 0)⟩
          else none) = some s →
        s = ⟨e, c, if c = start.1 then start.2 else 0,
          min ROWS (start.1 * ROWS + start.2 + jsCeilDiv e.duration 15 - c * ROWS) -
            (if c = start.1 then start.2 else 0)⟩ := by
      intro c s hcs
      by_cases hskip : (c + 1) * ROWS ≤ start.1 * ROWS + start.2 ∨
          start.1 * ROWS + start.2 + jsCeilDiv e.duration 15 ≤ c * ROWS
      · rw [if_pos hskip] at hcs
        exact absurd hcs (by simp)
      · rw [if_neg hskip] at hcs
        by_cases hspan : 0 < min ROWS (start.1 * ROWS + start.2 +
              jsCeilDiv e.duration 15 - c * ROWS) -
            (if c = start.1 then start.2 else 0)
        · rw [if_pos hspan] at hcs
          exact (Option.some_inj.mp hcs).symm
        · rw [if_neg hspan] at hcs
          exact absurd hcs (by simp)
    have e1 := key c1 s1 hf1
    have e2 := key c2 s2 hf2
    have hcc : c1 = c2 := by
      rw [e1, e2] at hc
      exact hc
    rw [e1, e2, hcc]

theorem mem_entrySlots (dayEntries : List TimedEntry) (s : EntrySlot) :
    s ∈ entrySlots dayEntries ↔ ∃ e ∈ dayEntries, s ∈ entrySlotsFor e := by
  rw [entrySlots]
  exact List.mem_flatMap

theorem mem_setAdd {α : Type} [DecidableEq α] (x y : α) (s : List α) :
    x ∈ setAdd y s ↔ x = y ∨ x ∈ s := by
  rw [setAdd]
  by_cases h : y ∈ s
  · rw [if_pos h]
    constructor
    · exact Or.inr
    · rintro (rfl | hx)
      · exact h
      · exact hx
  · rw [if_neg h, List.mem_append, List.mem_singleton]
    constructor
    · rintro (hx | hx)
      · exact Or.inr hx
      · exact Or.inl hx
    · rintro (hx | hx)
      · exact Or.inr hx
      · exact Or.inl hx

theorem setAdd_nodup {α : Type} [DecidableEq α] (y : α) (s : List α)
    (h : s.Nodup) : (setAdd y s).Nodup := by
  rw [setAdd]
  by_cases hy : y ∈ s
  · rw [if_pos hy]
    exact h
  · rw [if_neg hy]
    refine List.Nodup.append h (List.nodup_singleton y) ?_
    intro a ha hay
    rw [List.mem_singleton] at hay
    exact hy (hay ▸ ha)

/-- Membership of a segment key in the set a slot maps to. -/
def inSlot (slotMap : List ((Int × Int) × List (String × Int))) (c r : Int)
    (k : String × Int) : Prop :=
  ∃ S, mapLookup (c, r) slotMap = some S ∧ k ∈ S

theorem mapLookup_addSegKey_self (m : List ((Int × Int) × List (String × Int)))
    (sk : Int × Int) (kk : String × Int) :
    mapLookup sk (addSegKey m sk kk) =
      some (setAdd kk ((mapLookup sk m).getD [])) := by
  rw [addSegKey]
  rcases h : mapLookup sk m with _ | s
  · dsimp only
    rw [mapLookup_mapSet_self]
    rfl
  · dsimp only
    rw [mapLookup_mapSet_self]
    rfl

theorem mapLookup_addSegKey_ne (m : List ((Int × Int) × List (String × Int)))
    (sk q : Int × Int) (kk : String × Int) (h : q ≠ sk) :
    mapLookup q (addSegKey m sk kk) = mapLookup q m := by
  rw [addSegKey]
  rcases hm : mapLookup sk m with _ | s
  · dsimp only
    exact mapLookup_mapSet_ne sk q _ (fun heq => h heq.symm) m
  · dsimp only
    exact mapLookup_mapSet_ne sk q _ (fun heq => h heq.symm) m

/-- The row fold of `addSlotRows`, with an explicit row count. -/
def addRowsFold (s : EntrySlot) (m : List ((Int × Int) × List (String × Int)))
    (n : Nat) : List ((Int × Int) × List (String × Int)) :=
  (intRange n).foldl
    (fun m i => addSegKey m (s.col, s.startRow + i) (s.entry.id, s.col)) m

theorem addSlotRows_eq_addRowsFold (m : List ((Int × Int) × List (String × Int)))
    (s : EntrySlot) : addSlotRows m s = addRowsFold s m s.rowSpan.toNat := rfl

theorem intRange_succ (n : Nat) : intRange (n + 1) = intRange n ++ [(n : Int)] := by
  rw [intRange, intRange, List.range_succ, List.map_append]
  rfl

theorem addRowsFold_succ (s : EntrySlot) (m : List ((Int × Int) × List (String × Int)))
    (n : Nat) : addRowsFold s m (n + 1) =
      addSegKey (addRowsFold s m n) (s.col, s.startRow + (n : Int))
        (s.entry.id, s.col) := by
  rw [addRowsFold, addRowsFold, intRange_succ, List.foldl_append, List.foldl_cons,
    List.foldl_nil]

theorem inSlot_addRowsFold (s : EntrySlot) (c r : Int) (k : String × Int) :
    ∀ (n : Nat) (m : List ((Int × Int) × List (String × Int))),
      inSlot (addRowsFold s m n) c r k ↔
      inSlot m c r k ∨ (c = s.col ∧ k = (s.entry.id, s.col) ∧
        ∃ i : Nat, i < n ∧ r = s.startRow + (i : Int)) := by
  intro n
  induction n with
  | zero =>
    intro m
    rw [show addRowsFold s m 0 = m from rfl]
    constructor
    · exact Or.inl
    · rintro (h | ⟨-, -, i, hi, -⟩)
      · exact h
      · exact absurd hi (by omega)
  | succ n ih =>
    intro m
    rw [addRowsFold_succ]
    by_cases hq : (c, r) = (s.col, s.startRow + (n : Int))
    · have hc : c = s.col := congrArg Prod.fst hq
      have hr : r = s.startRow + (n : Int) := congrArg Prod.snd hq
      constructor
      · rintro ⟨S, hS, hk⟩
        rw [hq, mapLookup_addSegKey_self] at hS
        rw [← Option.some_inj.mp hS, mem_setAdd] at hk
        rcases hk with rfl | hk
        · exact Or.inr ⟨hc, rfl, n, by omega, hr⟩
        · rcases hprev : mapLookup (s.col, s.startRow + (n : Int))
              (addRowsFold s m n) with _ | S0
          · rw [hprev] at hk
            exact absurd hk (by simp)
          · rw [hprev] at hk
            have hin : inSlot (addRowsFold s m n) c r k :=
              ⟨S0, by rw [hq]; exact hprev, by simpa using hk⟩
            refine ((ih m).mp hin).imp id ?_
            rintro ⟨h1, h2, i, hi, h3⟩
            exact ⟨h1, h2, i, by omega, h3⟩
      · intro hin
        have hbase : inSlot (addRowsFold s m n) c r k ∨ k = (s.entry.id, s.col) := by
          rcases hin with hm | ⟨hc', hk', i, hi, hr'⟩
          · exact Or.inl ((ih m).mpr (Or.inl hm))
          · exact Or.inr hk'
        rcases hbase with hbase | hbase
        · obtain ⟨S0, hS0, hk0⟩ := hbase
          rw [hq] at hS0
          refine ⟨_, by rw [hq]; exact mapLookup_addSegKey_self _ _ _, ?_⟩
          rw [mem_setAdd, hS0]
          exact Or.inr (by simpa using hk0)
        · refine ⟨_, by rw [hq]; exact mapLookup_addSegKey_self _ _ _, ?_⟩
          rw [mem_setAdd]
          exact Or.inl hbase
    · have hlook : mapLookup (c, r) (addSegKey (addRowsFold s m n)
          (s.col, s.startRow + (n : Int)) (s.entry.id, s.col)) =
          mapLookup (c, r) (addRowsFold s m n) :=
        mapLookup_addSegKey_ne _ _ _ _ hq
      constructor
      · rintro ⟨S, hS, hk⟩
        rw [hlook] at hS
        refine ((ih m).mp ⟨S, hS, hk⟩).imp id ?_
        rintro ⟨h1, h2, i, hi, h3⟩
        exact ⟨h1, h2, i, by omega, h3⟩
      · intro hin
        have hin' : inSlot (addRowsFold s m n) c r k := by
          rcases hin with hm | ⟨hc', hk', i, hi, hr'⟩
          · exact (ih m).mpr (Or.inl hm)
          · have hi' : i < n := by
              rcases Nat.lt_succ_iff_lt_or_eq.mp hi with h | rfl
              · exact h
              · exact absurd (Prod.ext hc' hr') hq
            exact (ih m).mpr (Or.inr ⟨hc', hk', i, hi', hr'⟩)
        obtain ⟨S, hS, hk⟩ := hin'
        exact ⟨S, by rw [hlook]; exact hS, hk⟩

theorem inSlot_foldl_addSlotRows :
    ∀ (slots : List EntrySlot) (m : List ((Int × Int) × List (String × Int)))
      (c r : Int) (k : String × Int),
      inSlot (slots.foldl addSlotRows m) c r k ↔
        inSlot m c r k ∨ ∃ s ∈ slots, s.col = c ∧ k = (s.entry.id, s.col) ∧
          s.startRow ≤ r ∧ r < s.startRow + s.rowSpan := by
  intro slots
  induction slots with
  | nil =>
    intro m c r k
    rw [List.foldl_nil]
    constructor
    · exact Or.inl
    · rintro (h | ⟨s, hs, -⟩)
      · exact h
      · exact absurd hs (by simp)
  | cons s rest ih =>
    intro m c r k
    rw [List.foldl_cons, ih, addSlotRows_eq_addRowsFold, inSlot_addRowsFold]
    constructor
    · rintro ((hm | ⟨hc, hk, i, hi, hr⟩) | ⟨s', hs', hrest⟩)
      · exact Or.inl hm
      · refine Or.inr ⟨s, List.mem_cons_self _ _, hc.symm, hk, ?_, ?_⟩
        · omega
        · omega
      · exact Or.inr ⟨s', List.mem_cons_of_mem _ hs', hrest⟩
    · rintro (hm | ⟨s', hs', hc, hk, hr1, hr2⟩)
      · exact Or.inl (Or.inl hm)
      · rcases List.mem_cons.mp hs' with rfl | hs'
        · refine Or.inl (Or.inr ⟨hc.symm, hk, (r - s'.startRow).toNat, ?_, ?_⟩)
          · omega
          · omega
        · exact Or.inr ⟨s', hs', hc, hk, hr1, hr2⟩

theorem inSlot_slotToSegmentKeys (slots : List EntrySlot) (c r : Int)
    (k : String × Int) :
    inSlot (slotToSegmentKeys slots) c r k ↔
      ∃ s ∈ slots, s.col = c ∧ k = (s.entry.id, s.col) ∧
        s.startRow ≤ r ∧ r < s.startRow + s.rowSpan := by
  rw [slotToSegmentKeys, inSlot_foldl_addSlotRows]
  constructor
  · rintro (⟨S, hS, -⟩ | h)
    · rw [show mapLookup (c, r) ([] : List ((Int × Int) × List (String × Int))) =
        none from rfl] at hS
      exact absurd hS (by simp)
    · exact h
  · exact Or.inr

theorem addSegKey_values_nodup (m : List ((Int × Int) × List (String × Int)))
    (sk : Int × Int) (kk : String × Int) (hm : ∀ q ∈ m, q.2.Nodup) :
    ∀ q ∈ addSegKey m sk kk, q.2.Nodup := by
  intro q hq
  have hset : ∀ v, q ∈ mapSet sk (setAdd kk v) m → v.Nodup → q.2.Nodup := by
    intro v hqv hv
    rcases mem_mapSet _ _ _ _ hqv with rfl | hqm
    · exact setAdd_nodup _ _ hv
    · exact hm q hqm
  rw [addSegKey] at hq
  rcases hl : mapLookup sk m with _ | s
  · rw [hl] at hq
    exact hset [] hq List.nodup_nil
  · rw [hl] at hq
    obtain ⟨p, hp, -, hpv⟩ := mapLookup_some_mem _ _ _ hl
    exact hset s hq (hpv ▸ hm p hp)

theorem addSegKey_values_col (m : List ((Int × Int) × List (String × Int)))
    (sk : Int × Int) (kk : String × Int) (hkk : kk.2 = sk.1)
    (hm : ∀ q ∈ m, ∀ k ∈ q.2, k.2 = q.1.1) :
    ∀ q ∈ addSegKey m sk kk, ∀ k ∈ q.2, k.2 = q.1.1 := by
  intro q hq
  have hset : ∀ v, q ∈ mapSet sk (setAdd kk v) m →
      (∀ k ∈ v, k.2 = sk.1) → ∀ k ∈ q.2, k.2 = q.1.1 := by
    intro v hqv hv k hk
    rcases mem_mapSet _ _ _ _ hqv with rfl | hqm
    · rcases (mem_setAdd _ _ _).mp hk with rfl | hkv
      · exact hkk
      · exact hv k hkv
    · exact hm q hqm k hk
  rw [addSegKey] at hq
  rcases hl : mapLookup sk m with _ | s
  · rw [hl] at hq
    exact hset [] hq (by simp)
  · rw [hl] at hq
    obtain ⟨p, hp, hpk, hpv⟩ := mapLookup_some_mem _ _ _ hl
    refine hset s hq ?_
    intro k hk
    have hcol := hm p hp k (hpv ▸ hk)
    rw [hcol, hpk]

theorem addRowsFold_values_nodup (s : EntrySlot) :
    ∀ (n : Nat) (m : List ((Int × Int) × List (String × Int))),
      (∀ q ∈ m, q.2.Nodup) → ∀ q ∈ addRowsFold s m n, q.2.Nodup := by
  intro n
  induction n with
  | zero => intro m hm; exact hm
  | succ n ih =>
    intro m hm
    rw [addRowsFold_succ]
    exact addSegKey_values_nodup _ _ _ (ih m hm)

theorem addRowsFold_values_col (s : EntrySlot) :
    ∀ (n : Nat) (m : List ((Int × Int) × List (String × Int))),
      (∀ q ∈ m, ∀ k ∈ q.2, k.2 = q.1.1) →
      ∀ q ∈ addRowsFold s m n, ∀ k ∈ q.2, k.2 = q.1.1 := by
  intro n
  induction n with
  | zero => intro m hm; exact hm
  | succ n ih =>
    intro m hm
    rw [addRowsFold_succ]
    exact addSegKey_values_col _ _ _ rfl (ih m hm)

theorem slotToSegmentKeys_values_nodup (slots : List EntrySlot) :
    ∀ q ∈ slotToSegmentKeys slots, q.2.Nodup := by
  rw [slotToSegmentKeys]
  have main : ∀ (l : List EntrySlot) (m : List ((Int × Int) × List (String × Int))),
      (∀ q ∈ m, q.2.Nodup) → ∀ q ∈ l.foldl addSlotRows m, q.2.Nodup := by
    intro l
    induction l with
    | nil => intro m hm; exact hm
    | cons s rest ih =>
      intro m hm
      rw [List.foldl_cons]
      refine ih (addSlotRows m s) ?_
      rw [addSlotRows_eq_addRowsFold]
      exact addRowsFold_values_nodup s _ m hm
  exact main slots [] (by simp)

theorem slotToSegmentKeys_values_col (slots : List EntrySlot) :
    ∀ q ∈ slotToSegmentKeys slots, ∀ k ∈ q.2, k.2 = q.1.1 := by
  rw [slotToSegmentKeys]
  have main : ∀ (l : List EntrySlot) (m : List ((Int × Int) × List (String × Int))),
      (∀ q ∈ m, ∀ k ∈ q.2, k.2 = q.1.1) →
      ∀ q ∈ l.foldl addSlotRows m, ∀ k ∈ q.2, k.2 = q.1.1 := by
    intro l
    induction l with
    | nil => intro m hm; exact hm
    | cons s rest ih =>
      intro m hm
      rw [List.foldl_cons]
      refine ih (addSlotRows m s) ?_
      rw [addSlotRows_eq_addRowsFold]
      exact addRowsFold_values_col s _ m hm
  exact main slots [] (by simp)

theorem length_filter_le_split (pos : Int) :
    ∀ used : List Int,
      (used.filter (fun x => decide (pos ≤ x))).length =
        (used.filter (fun x => decide (x = pos))).length +
          (used.filter (fun x => decide (pos + 1 ≤ x))).length := by
  intro used
  induction used with
  | nil => rfl
  | cons u rest ih =>
    by_cases h1 : pos ≤ u
    · rw [List.filter_cons_of_pos (by simpa using h1)]
      by_cases h2 : u = pos
      · rw [List.filter_cons_of_pos (by simpa using h2),
          List.filter_cons_of_neg (by simp; omega)]
        rw [List.length_cons, List.length_cons, ih]
        omega
      · rw [List.filter_cons_of_neg (by simpa using h2),
          List.filter_cons_of_pos (by simp; omega)]
        rw [List.length_cons, List.length_cons, ih]
        omega
    · rw [List.filter_cons_of_neg (by simpa using h1),
        List.filter_cons_of_neg (by simp; omega),
        List.filter_cons_of_neg (by simp; omega)]
      exact ih

theorem firstFreeAux_not_mem (used : List Int) :
    ∀ (fuel : Nat) (pos : Int),
      (used.filter (fun x => decide (pos ≤ x))).length < fuel →
      firstFreeAux used pos fuel ∉ used := by
  intro fuel
  induction fuel with
  | zero =>
    intro pos h
    exact absurd h (by omega)
  | succ fuel ih =>
    intro pos h
    rw [firstFreeAux]
    by_cases hp : pos ∈ used
    · rw [if_pos hp]
      refine ih (pos + 1) ?_
      have hsplit := length_filter_le_split pos used
      have hone : 0 < (used.filter (fun x => decide (x = pos))).length := by
        have : pos ∈ used.filter (fun x => decide (x = pos)) :=
          List.mem_filter.mpr ⟨hp, by simp⟩
        exact List.length_pos.mpr (List.ne_nil_of_mem this)
      omega
    · rw [if_neg hp]
      exact hp

theorem firstFree_not_mem (used : List Int) : firstFree used ∉ used := by
  rw [firstFree]
  refine firstFreeAux_not_mem used (used.length + 1) 0 ?_
  have := List.length_filter_le (fun x => decide ((0:Int) ≤ x)) used
  omega

set_option maxHeartbeats 1000000 in
theorem assignFold_spec (keysAll : List (String × Int)) :
    ∀ (keys : List (String × Int)) (pm : List ((String × Int) × Int))
      (pr : List (String × Int)) (used : List Int),
      (∀ k ∈ keys, k ∈ keysAll) →
      keys.Nodup →
      (∀ k ∈ keysAll, ∀ p, mapLookup k pm = some p → p ∈ used) →
      (∀ k1 ∈ keysAll, ∀ k2 ∈ keysAll, k1 ≠ k2 → ∀ p1 p2,
        mapLookup k1 pm = some p1 → mapLookup k2 pm = some p2 → p1 ≠ p2) →
      (∀ k ∈ keys, (k ∈ pr ↔ ∃ p, mapLookup k pm = some p)) →
      (∀ k ∈ keys, k ∈ (keys.foldl assignStep (pm, pr, used)).2.1 ∧
        ∃ p, mapLookup k (keys.foldl assignStep (pm, pr, used)).1 = some p) ∧
      (∀ k1 ∈ keysAll, ∀ k2 ∈ keysAll, k1 ≠ k2 → ∀ p1 p2,
        mapLookup k1 (keys.foldl assignStep (pm, pr, used)).1 = some p1 →
        mapLookup k2 (keys.foldl assignStep (pm, pr, used)).1 = some p2 → p1 ≠ p2) ∧
      (∀ k, k ∉ keys → mapLookup k (keys.foldl assignStep (pm, pr, used)).1 =
        mapLookup k pm) ∧
      (∀ k ∈ pr, mapLookup k (keys.foldl assignStep (pm, pr, used)).1 =
        mapLookup k pm) ∧
      (∀ k ∈ pr, k ∈ (keys.foldl assignStep (pm, pr, used)).2.1) ∧
      (∀ k ∈ (keys.foldl assignStep (pm, pr, used)).2.1, k ∈ pr ∨ k ∈ keys) := by
  intro keys
  induction keys with
  | nil =>
    intro pm pr used hsub hnd husedAll hJ3 hA
    rw [List.foldl_nil]
    refine ⟨by simp, hJ3, fun k _ => rfl, fun k _ => rfl, fun k h => h, fun k h => Or.inl h⟩
  | cons k rest ih =>
    intro pm pr used hsub hnd husedAll hJ3 hA
    have hknotrest : k ∉ rest := (List.nodup_cons.mp hnd).1
    rw [List.foldl_cons]
    by_cases hk : k ∈ pr
    · have hstep : assignStep (pm, pr, used) k = (pm, pr, used) := by
        rw [assignStep]
        dsimp only
        rw [if_pos hk]
      rw [hstep]
      obtain ⟨G1r, G2r, G3r, G3pr, G4ar, G4br⟩ := ih pm pr used
        (fun x hx => hsub x (List.mem_cons_of_mem _ hx))
        (List.nodup_cons.mp hnd).2 husedAll hJ3
        (fun x hx => hA x (List.mem_cons_of_mem _ hx))
      refine ⟨?_, G2r, ?_, G3pr, G4ar, ?_⟩
      · intro x hx
        rcases List.mem_cons.mp hx with rfl | hx
        · refine ⟨G4ar x hk, ?_⟩
          obtain ⟨p, hp⟩ := (hA x (List.mem_cons_self _ _)).mp hk
          exact ⟨p, by rw [G3pr x hk]; exact hp⟩
        · exact G1r x hx
      · intro x hx
        exact G3r x (fun hxr => hx (List.mem_cons_of_mem _ hxr))
      · intro x hx
        rcases G4br x hx with h | h
        · exact Or.inl h
        · exact Or.inr (List.mem_cons_of_mem _ h)
    · have hstep : assignStep (pm, pr, used) k =
          (mapSet k (firstFree used) pm, setAdd k pr, setAdd (firstFree used) used) := by
        rw [assignStep]
        dsimp only
        rw [if_neg hk]
      rw [hstep]
      have hfresh : firstFree used ∉ used := firstFree_not_mem used
      have hprmem : ∀ x, x ∈ setAdd k pr ↔ x = k ∨ x ∈ pr := fun x => mem_setAdd x k pr
      obtain ⟨G1r, G2r, G3r, G3pr, G4ar, G4br⟩ :=
        ih (mapSet k (firstFree used) pm) (setAdd k pr) (setAdd (firstFree used) used)
          (fun x hx => hsub x (List.mem_cons_of_mem _ hx))
          (List.nodup_cons.mp hnd).2
          (by
            intro x hx p hp
            by_cases hxk : x = k
            · subst hxk
              rw [mapLookup_mapSet_self] at hp
              rw [mem_setAdd]
              exact Or.inl (Option.some_inj.mp hp).symm
            · rw [mapLookup_mapSet_ne k x _ (fun h => hxk h.symm)] at hp
              rw [mem_setAdd]
              exact Or.inr (husedAll x hx p hp))
          (by
            intro k1 hk1 k2 hk2 hne p1 p2 hp1 hp2
            by_cases h1k : k1 = k
            · subst h1k
              rw [mapLookup_mapSet_self] at hp1
              by_cases h2k : k2 = k1
              · exact absurd h2k.symm hne
              · rw [mapLookup_mapSet_ne k1 k2 _ (fun h => h2k h.symm)] at hp2
                have hp2mem := husedAll k2 hk2 p2 hp2
                intro heq
                rw [Option.some_inj.mp hp1] at hfresh
                exact hfresh (heq ▸ hp2mem)
            · rw [mapLookup_mapSet_ne k k1 _ (fun h => h1k h.symm)] at hp1
              by_cases h2k : k2 = k
              · subst h2k
                rw [mapLookup_mapSet_self] at hp2
                have hp1mem := husedAll k1 hk1 p1 hp1
                intro heq
                rw [Option.some_inj.mp hp2] at hfresh
                exact hfresh (heq ▸ hp1mem)
              · rw [mapLookup_mapSet_ne k k2 _ (fun h => h2k h.symm)] at hp2
                exact hJ3 k1 hk1 k2 hk2 hne p1 p2 hp1 hp2)
          (by
            intro x hx
            have hxk : x ≠ k := fun h => hknotrest (h ▸ hx)
            rw [hprmem x, mapLookup_mapSet_ne k x _ (fun h => hxk h.symm)]
            constructor
            · rintro (h | h)
              · exact absurd h hxk
              · exact (hA x (List.mem_cons_of_mem _ hx)).mp h
            · intro h
              exact Or.inr ((hA x (List.mem_cons_of_mem _ hx)).mpr h))
      refine ⟨?_, G2r, ?_, ?_, ?_, ?_⟩
      · intro x hx
        rcases List.mem_cons.mp hx with rfl | hx
        · have hxpr : x ∈ setAdd x pr := (hprmem x).mpr (Or.inl rfl)
          refine ⟨G4ar x hxpr, ?_⟩
          refine ⟨firstFree used, ?_⟩
          rw [G3pr x hxpr]
          exact mapLookup_mapSet_self x _ pm
        · exact G1r x hx
      · intro x hx
        have hxrest : x ∉ rest := fun h => hx (List.mem_cons_of_mem _ h)
        have hxk : x ≠ k := fun h => hx (h ▸ List.mem_cons_self _ _)
        rw [G3r x hxrest]
        exact mapLookup_mapSet_ne k x _ (fun h => hxk h.symm) pm
      · intro x hx
        have hxk : x ≠ k := fun h => hk (h ▸ hx)
        rw [G3pr x ((hprmem x).mpr (Or.inr hx))]
        exact mapLookup_mapSet_ne k x _ (fun h => hxk h.symm) pm
      · intro x hx
        exact G4ar x ((hprmem x).mpr (Or.inr hx))
      · intro x hx
        rcases G4br x hx with h | h
        · rcases (hprmem x).mp h with rfl | h
          · exact Or.inr (List.mem_cons_self _ _)
          · exact Or.inl h
        · exact Or.inr (List.mem_cons_of_mem _ h)

/-- Invariant of the per-column position-assignment scan after the rows
in `done` have been processed: (i) processed keys of this column are
exactly the positioned ones, (ii) other columns' bindings are untouched,
(iii) processed keys appeared in a done row, (iv) every key of a done
row is processed, and (v) distinct keys sharing a done row's slot carry
distinct positions. -/
def RowInv (slotMap : List ((Int × Int) × List (String × Int))) (c : Int)
    (pm0 : List ((String × Int) × Int)) (done : List Int)
    (st : List ((String × Int) × Int) × List (String × Int)) : Prop :=
  (∀ k : String × Int, k.2 = c → (k ∈ st.2 ↔ ∃ p, mapLookup k st.1 = some p)) ∧
  (∀ k : String × Int, k.2 ≠ c → mapLookup k st.1 = mapLookup k pm0) ∧
  (∀ k ∈ st.2, ∃ r' ∈ done, inSlot slotMap c r' k) ∧
  (∀ r' ∈ done, ∀ S, mapLookup (c, r') slotMap = some S → ∀ k ∈ S, k ∈ st.2) ∧
  (∀ r' ∈ done, ∀ S, mapLookup (c, r') slotMap = some S →
    ∀ k1 ∈ S, ∀ k2 ∈ S, k1 ≠ k2 → ∀ p1 p2, mapLookup k1 st.1 = some p1 →
      mapLookup k2 st.1 = some p2 → p1 ≠ p2)

set_option maxHeartbeats 2000000 in
theorem rowStep_inv (dayEntries : List TimedEntry)
    (slotMap : List ((Int × Int) × List (String × Int))) (c : Int)
    (pm0 : List ((String × Int) × Int))
    (hkeys : ∀ q ∈ slotMap, ∀ k ∈ q.2, k.2 = q.1.1)
    (hndS : ∀ q ∈ slotMap, q.2.Nodup)
    (hconv : ∀ (k : String × Int) (r1 r2 r' : Int), inSlot slotMap c r1 k →
      inSlot slotMap c r2 k → r1 ≤ r' → r' ≤ r2 → inSlot slotMap c r' k)
    (done : List Int)
    (st : List ((String × Int) × Int) × List (String × Int)) (R : Int)
    (hdone : ∀ d ∈ done, d < R)
    (hinv : RowInv slotMap c pm0 done st) :
    RowInv slotMap c pm0 (done ++ [R]) (rowStep dayEntries slotMap c st R) := by
  obtain ⟨hA, hB, hC, hC2, hD⟩ := hinv
  rw [RowInv, rowStep]
  rcases hS : mapLookup (c, R) slotMap with _ | S
  · dsimp only
    refine ⟨hA, hB, ?_, ?_, ?_⟩
    · intro k hkpr
      obtain ⟨r', hr', hin⟩ := hC k hkpr
      exact ⟨r', List.mem_append_left _ hr', hin⟩
    · intro r' hr' S' hS' k hkS
      rcases List.mem_append.mp hr' with h | h
      · exact hC2 r' h S' hS' k hkS
      · rw [List.mem_singleton] at h
        subst h
        rw [hS] at hS'
        exact absurd hS' (by simp)
    · intro r' hr' S' hS' k1 hk1 k2 hk2 hne p1 p2 hp1 hp2
      rcases List.mem_append.mp hr' with h | h
      · exact hD r' h S' hS' k1 hk1 k2 hk2 hne p1 p2 hp1 hp2
      · rw [List.mem_singleton] at h
        subst h
        rw [hS] at hS'
        exact absurd hS' (by simp)
  · dsimp only
    have hmem : ∀ k : String × Int,
        k ∈ List.insertionSort (keyLE dayEntries) S ↔ k ∈ S :=
      fun k => (List.perm_insertionSort (keyLE dayEntries) S).mem_iff
    have hScol : ∀ k ∈ S, k.2 = c := by
      intro k hk
      obtain ⟨q, hq, hqk, hqv⟩ := mapLookup_some_mem _ _ _ hS
      have hkq := hkeys q hq k (by rw [hqv]; exact hk)
      rw [hqk] at hkq
      exact hkq
    have hSnodup : S.Nodup := by
      obtain ⟨q, hq, -, hqv⟩ := mapLookup_some_mem _ _ _ hS
      exact hqv ▸ hndS q hq
    have hsortednd : (List.insertionSort (keyLE dayEntries) S).Nodup :=
      ((List.perm_insertionSort (keyLE dayEntries) S).nodup_iff).mpr hSnodup
    obtain ⟨G1, G2, G3, G3p, G4a, G4b⟩ :=
      assignFold_spec (List.insertionSort (keyLE dayEntries) S)
        (List.insertionSort (keyLE dayEntries) S) st.1 st.2
        ((List.insertionSort (keyLE dayEntries) S).filterMap
          (fun k => mapLookup k st.1))
        (fun k hk => hk) hsortednd
        (by
          intro k hk p hp
          exact List.mem_filterMap.mpr ⟨k, hk, hp⟩)
        (by
          intro k1 hk1 k2 hk2 hne p1 p2 hp1 hp2
          have hk1S : k1 ∈ S := (hmem k1).mp hk1
          have hk2S : k2 ∈ S := (hmem k2).mp hk2
          have hk1pr : k1 ∈ st.2 := (hA k1 (hScol k1 hk1S)).mpr ⟨p1, hp1⟩
          have hk2pr : k2 ∈ st.2 := (hA k2 (hScol k2 hk2S)).mpr ⟨p2, hp2⟩
          obtain ⟨r1, hr1, hin1⟩ := hC k1 hk1pr
          obtain ⟨r2, hr2, hin2⟩ := hC k2 hk2pr
          rcases le_total r1 r2 with hle | hle
          · have hin1' : inSlot slotMap c r2 k1 :=
              hconv k1 r1 R r2 hin1 ⟨S, hS, hk1S⟩ hle (hdone r2 hr2).le
            obtain ⟨S', hS', hk1S'⟩ := hin1'
            obtain ⟨S2, hS2, hk2S2⟩ := hin2
            have hSeq : S2 = S' := Option.some_inj.mp (hS2 ▸ hS')
            exact hD r2 hr2 S' hS' k1 hk1S' k2 (hSeq ▸ hk2S2) hne p1 p2 hp1 hp2
          · have hin2' : inSlot slotMap c r1 k2 :=
              hconv k2 r2 R r1 hin2 ⟨S, hS, hk2S⟩ hle (hdone r1 hr1).le
            obtain ⟨S', hS', hk2S'⟩ := hin2'
            obtain ⟨S1, hS1, hk1S1⟩ := hin1
            have hSeq : S1 = S' := Option.some_inj.mp (hS1 ▸ hS')
            intro heq
            exact hD r1 hr1 S' hS' k2 hk2S' k1 (hSeq ▸ hk1S1) hne.symm p2 p1
              hp2 hp1 heq.symm)
        (fun k hk => hA k (hScol k ((hmem k).mp hk)))
    refine ⟨?_, ?_, ?_, ?_, ?_⟩
    · intro k hcol
      by_cases hks : k ∈ List.insertionSort (keyLE dayEntries) S
      · exact ⟨fun _ => (G1 k hks).2, fun _ => (G1 k hks).1⟩
      · constructor
        · intro h
          have hst2 : k ∈ st.2 := by
            rcases G4b k h with h' | h'
            · exact h'
            · exact absurd h' hks
          obtain ⟨p, hp⟩ := (hA k hcol).mp hst2
          exact ⟨p, by rw [G3 k hks]; exact hp⟩
        · rintro ⟨p, hp⟩
          rw [G3 k hks] at hp
          exact G4a k ((hA k hcol).mpr ⟨p, hp⟩)
    · intro k hcol
      have hks : k ∉ List.insertionSort (keyLE dayEntries) S :=
        fun h => hcol (hScol k ((hmem k).mp h))
      rw [G3 k hks]
      exact hB k hcol
    · intro k hk
      rcases G4b k hk with h | h
      · obtain ⟨r', hr', hin⟩ := hC k h
        exact ⟨r', List.mem_append_left _ hr', hin⟩
      · exact ⟨R, List.mem_append_right _ (by simp), ⟨S, hS, (hmem k).mp h⟩⟩
    · intro r' hr' S' hS' k hkS'
      rcases List.mem_append.mp hr' with h | h
      · exact G4a k (hC2 r' h S' hS' k hkS')
      · rw [List.mem_singleton] at h
        subst h
        rw [hS] at hS'
        have hSeq : S = S' := Option.some_inj.mp hS'
        exact (G1 k ((hmem k).mpr (hSeq ▸ hkS'))).1
    · intro r' hr' S' hS' k1 hk1 k2 hk2 hne p1 p2 hp1 hp2
      rcases List.mem_append.mp hr' with h | h
      · have hk1pr : k1 ∈ st.2 := hC2 r' h S' hS' k1 hk1
        have hk2pr : k2 ∈ st.2 := hC2 r' h S' hS' k2 hk2
        rw [G3p k1 hk1pr] at hp1
        rw [G3p k2 hk2pr] at hp2
        exact hD r' h S' hS' k1 hk1 k2 hk2 hne p1 p2 hp1 hp2
      · rw [List.mem_singleton] at h
        subst h
        rw [hS] at hS'
        have hSeq : S = S' := Option.some_inj.mp hS'
        exact G2 k1 ((hmem k1).mpr (hSeq ▸ hk1)) k2 ((hmem k2).mpr (hSeq ▸ hk2))
          hne p1 p2 hp1 hp2

theorem rowsFold_inv (dayEntries : List TimedEntry)
    (slotMap : List ((Int × Int) × List (String × Int))) (c : Int)
    (pm0 : List ((String × Int) × Int))
    (hkeys : ∀ q ∈ slotMap, ∀ k ∈ q.2, k.2 = q.1.1)
    (hndS : ∀ q ∈ slotMap, q.2.Nodup)
    (hconv : ∀ (k : String × Int) (r1 r2 r' : Int), inSlot slotMap c r1 k →
      inSlot slotMap c r2 k → r1 ≤ r' → r' ≤ r2 → inSlot slotMap c r' k) :
    ∀ (rows : List Int) (done : List Int)
      (st : List ((String × Int) × Int) × List (String × Int)),
      (∀ d ∈ done, ∀ r ∈ rows, d < r) →
      rows.Pairwise (fun a b => a < b) →
      RowInv slotMap c pm0 done st →
      RowInv slotMap c pm0 (done ++ rows)
        (rows.foldl (rowStep dayEntries slotMap c) st) := by
  intro rows
  induction rows with
  | nil =>
    intro done st _ _ hinv
    rw [List.foldl_nil, List.append_nil]
    exact hinv
  | cons R rest ih =>
    intro done st horder hsorted hinv
    rw [List.foldl_cons]
    have hstep := rowStep_inv dayEntries slotMap c pm0 hkeys hndS hconv done st R
      (fun d hd => horder d hd R (List.mem_cons_self _ _)) hinv
    have hres := ih (done ++ [R]) (rowStep dayEntries slotMap c st R)
      (by
        intro d hd r hr
        rcases List.mem_append.mp hd with h | h
        · exact horder d h r (List.mem_cons_of_mem _ hr)
        · rw [List.mem_singleton] at h
          subst h
          exact (List.pairwise_cons.mp hsorted).1 r hr)
      (List.pairwise_cons.mp hsorted).2 hstep
    rw [List.append_assoc] at hres
    exact hres

theorem intRange_pairwise_lt (n : Nat) :
    (intRange n).Pairwise (fun a b => a < b) := by
  rw [intRange, List.pairwise_map]
  refine List.Pairwise.imp ?_ (List.pairwise_lt_range n)
  intro a b h
  rw [Int.ofNat_eq_natCast, Int.ofNat_eq_natCast]
  exact_mod_cast h

theorem processColumn_spec (dayEntries : List TimedEntry)
    (slotMap : List ((Int × Int) × List (String × Int))) (c : Int)
    (pm : List ((String × Int) × Int))
    (hkeys : ∀ q ∈ slotMap, ∀ k ∈ q.2, k.2 = q.1.1)
    (hndS : ∀ q ∈ slotMap, q.2.Nodup)
    (hconv : ∀ (k : String × Int) (r1 r2 r' : Int), inSlot slotMap c r1 k →
      inSlot slotMap c r2 k → r1 ≤ r' → r' ≤ r2 → inSlot slotMap c r' k)
    (hfresh : ∀ k : String × Int, k.2 = c → mapLookup k pm = none) :
    (∀ k : String × Int, k.2 ≠ c →
      mapLookup k (processColumn dayEntries slotMap pm c) = mapLookup k pm) ∧
    (∀ r : Int, 0 ≤ r → r ≤ 31 → ∀ S, mapLookup (c, r) slotMap = some S →
      (∀ k ∈ S, ∃ p, mapLookup k (processColumn dayEntries slotMap pm c) = some p) ∧
      (∀ k1 ∈ S, ∀ k2 ∈ S, k1 ≠ k2 → ∀ p1 p2,
        mapLookup k1 (processColumn dayEntries slotMap pm c) = some p1 →
        mapLookup k2 (processColumn dayEntries slotMap pm c) = some p2 →
        p1 ≠ p2)) := by
  have hinit : RowInv slotMap c pm [] (pm, []) := by
    refine ⟨?_, fun k _ => rfl, by simp, by simp, by simp⟩
    intro k hcol
    constructor
    · intro h
      exact absurd h (List.not_mem_nil k)
    · rintro ⟨p, hp⟩
      rw [hfresh k hcol] at hp
      exact absurd hp (by simp)
  have hinv := rowsFold_inv dayEntries slotMap c pm hkeys hndS hconv
    (intRange ROWS.toNat) [] (pm, []) (by simp) (intRange_pairwise_lt _) hinit
  rw [List.nil_append] at hinv
  obtain ⟨hA, hB, hC, hC2, hD⟩ := hinv
  rw [processColumn]
  constructor
  · exact hB
  · intro r hr0 hr31 S hS
    have hrmem : r ∈ intRange ROWS.toNat := by
      rw [mem_intRange]
      have h32 : ((ROWS.toNat : Nat) : Int) = 32 := by decide
      omega
    have hkc : ∀ k ∈ S, k.2 = c := by
      obtain ⟨q, hq, hqk, hqv⟩ := mapLookup_some_mem _ _ _ hS
      intro k hk
      have hkq := hkeys q hq k (by rw [hqv]; exact hk)
      rw [hqk] at hkq
      exact hkq
    constructor
    · intro k hk
      exact (hA k (hkc k hk)).mp (hC2 r hrmem S hS k hk)
    · intro k1 hk1 k2 hk2 hne p1 p2 hp1 hp2
      exact hD r hrmem S hS k1 hk1 k2 hk2 hne p1 p2 hp1 hp2

theorem segmentPosition_spec (dayEntries : List TimedEntry)
    (slotMap : List ((Int × Int) × List (String × Int)))
    (hkeys : ∀ q ∈ slotMap, ∀ k ∈ q.2, k.2 = q.1.1)
    (hndS : ∀ q ∈ slotMap, q.2.Nodup)
    (hconv : ∀ (c : Int) (k : String × Int) (r1 r2 r' : Int),
      inSlot slotMap c r1 k → inSlot slotMap c r2 k → r1 ≤ r' → r' ≤ r2 →
      inSlot slotMap c r' k)
    (c r : Int) (hc0 : 0 ≤ c) (hc2 : c ≤ 2) (hr0 : 0 ≤ r) (hr31 : r ≤ 31)
    (S : List (String × Int)) (hS : mapLookup (c, r) slotMap = some S) :
    (∀ k ∈ S, ∃ p, mapLookup k (segmentPosition dayEntries slotMap) = some p) ∧
    (∀ k1 ∈ S, ∀ k2 ∈ S, k1 ≠ k2 → ∀ p1 p2,
      mapLookup k1 (segmentPosition dayEntries slotMap) = some p1 →
      mapLookup k2 (segmentPosition dayEntries slotMap) = some p2 → p1 ≠ p2) := by
  have hsp : segmentPosition dayEntries slotMap =
      processColumn dayEntries slotMap
        (processColumn dayEntries slotMap
          (processColumn dayEntries slotMap [] 0) 1) 2 := by
    rw [segmentPosition, show intRange COLUMNS.toNat = [0, 1, 2] by decide]
    rfl
  obtain ⟨hB0, hcol0⟩ := processColumn_spec dayEntries slotMap 0 [] hkeys hndS
    (hconv 0) (fun k _ => rfl)
  obtain ⟨hB1, hcol1⟩ := processColumn_spec dayEntries slotMap 1
    (processColumn dayEntries slotMap [] 0) hkeys hndS (hconv 1)
    (by
      intro k hk
      rw [hB0 k (by rw [hk]; decide)]
      rfl)
  obtain ⟨hB2, hcol2⟩ := processColumn_spec dayEntries slotMap 2
    (processColumn dayEntries slotMap
      (processColumn dayEntries slotMap [] 0) 1) hkeys hndS (hconv 2)
    (by
      intro k hk
      rw [hB1 k (by rw [hk]; decide), hB0 k (by rw [hk]; decide)]
      rfl)
  have hkc : ∀ k ∈ S, k.2 = c := by
    obtain ⟨q, hq, hqk, hqv⟩ := mapLookup_some_mem _ _ _ hS
    intro k hk
    have hkq := hkeys q hq k (by rw [hqv]; exact hk)
    rw [hqk] at hkq
    exact hkq
  interval_cases c
  · constructor
    · intro k hk
      obtain ⟨p, hp⟩ := (hcol0 r hr0 hr31 S hS).1 k hk
      refine ⟨p, ?_⟩
      rw [hsp, hB2 k (by rw [hkc k hk]; decide), hB1 k (by rw [hkc k hk]; decide)]
      exact hp
    · intro k1 hk1 k2 hk2 hne p1 p2 hp1 hp2
      rw [hsp, hB2 k1 (by rw [hkc k1 hk1]; decide),
        hB1 k1 (by rw [hkc k1 hk1]; decide)] at hp1
      rw [hsp, hB2 k2 (by rw [hkc k2 hk2]; decide),
        hB1 k2 (by rw [hkc k2 hk2]; decide)] at hp2
      exact (hcol0 r hr0 hr31 S hS).2 k1 hk1 k2 hk2 hne p1 p2 hp1 hp2
  · constructor
    · intro k hk
      obtain ⟨p, hp⟩ := (hcol1 r hr0 hr31 S hS).1 k hk
      refine ⟨p, ?_⟩
      rw [hsp, hB2 k (by rw [hkc k hk]; decide)]
      exact hp
    · intro k1 hk1 k2 hk2 hne p1 p2 hp1 hp2
      rw [hsp, hB2 k1 (by rw [hkc k1 hk1]; decide)] at hp1
      rw [hsp, hB2 k2 (by rw [hkc k2 hk2]; decide)] at hp2
      exact (hcol1 r hr0 hr31 S hS).2 k1 hk1 k2 hk2 hne p1 p2 hp1 hp2
  · constructor
    · intro k hk
      obtain ⟨p, hp⟩ := (hcol2 r hr0 hr31 S hS).1 k hk
      refine ⟨p, ?_⟩
      rw [hsp]
      exact hp
    · intro k1 hk1 k2 hk2 hne p1 p2 hp1 hp2
      rw [hsp] at hp1 hp2
      exact (hcol2 r hr0 hr31 S hS).2 k1 hk1 k2 hk2 hne p1 p2 hp1 hp2

theorem id_injective_of_pairwise (dayEntries : List TimedEntry)
    (hids : dayEntries.Pairwise (fun a b => a.id ≠ b.id)) :
    ∀ e1 ∈ dayEntries, ∀ e2 ∈ dayEntries, e1.id = e2.id → e1 = e2 := by
  intro e1 h1 e2 h2 heq
  by_contra hne
  have hsym : Symmetric (fun a b : TimedEntry => a.id ≠ b.id) :=
    fun a b h hh => h hh.symm
  exact (hids.forall hsym h1 h2 hne) heq

theorem entrySlots_key_unique (dayEntries : List TimedEntry)
    (hids : dayEntries.Pairwise (fun a b => a.id ≠ b.id))
    (s1 s2 : EntrySlot) (h1 : s1 ∈ entrySlots dayEntries)
    (h2 : s2 ∈ entrySlots dayEntries) (hcol : s1.col = s2.col)
    (hid : s1.entry.id = s2.entry.id) : s1 = s2 := by
  obtain ⟨e1, he1, hsf1⟩ := (mem_entrySlots _ _).mp h1
  obtain ⟨e2, he2, hsf2⟩ := (mem_entrySlots _ _).mp h2
  have hent1 : s1.entry = e1 := (mem_entrySlotsFor e1 s1 hsf1).1
  have hent2 : s2.entry = e2 := (mem_entrySlotsFor e2 s2 hsf2).1
  have hee : e1 = e2 := id_injective_of_pairwise dayEntries hids e1 he1 e2 he2
    (by rw [← hent1, ← hent2]; exact hid)
  subst hee
  exact entrySlotsFor_col_unique e1 s1 s2 hsf1 hsf2 hcol

theorem entrySlots_convex (dayEntries : List TimedEntry)
    (hids : dayEntries.Pairwise (fun a b => a.id ≠ b.id)) :
    ∀ (c : Int) (k : String × Int) (r1 r2 r' : Int),
      inSlot (slotToSegmentKeys (entrySlots dayEntries)) c r1 k →
      inSlot (slotToSegmentKeys (entrySlots dayEntries)) c r2 k →
      r1 ≤ r' → r' ≤ r2 →
      inSlot (slotToSegmentKeys (entrySlots dayEntries)) c r' k := by
  intro c k r1 r2 r' h1 h2 hle1 hle2
  rw [inSlot_slotToSegmentKeys] at h1 h2 ⊢
  obtain ⟨s1, hs1, hc1, hk1, hr1a, hr1b⟩ := h1
  obtain ⟨s2, hs2, hc2, hk2, hr2a, hr2b⟩ := h2
  have hkk : ((s1.entry.id, s1.col) : String × Int) = (s2.entry.id, s2.col) :=
    hk1.symm.trans hk2
  have hss : s1 = s2 := entrySlots_key_unique dayEntries hids s1 s2 hs1 hs2
    (hc1.trans hc2.symm) (congrArg Prod.fst hkk)
  subst hss
  exact ⟨s1, hs1, hc1, hk1, by omega, by omega⟩

/-- C7 counterexample: two day entries sharing the id `x` (00:00-01:00
and 00:30-01:30) produce two distinct layout records in column 0 that
both receive position 0 yet overlap at row 2: sharing an id collapses
the two segments onto one key, so the second record inherits the first
record's track. -/
theorem entryLayout_track_disjoint_counterexample :
    (⟨⟨"x", "h", "d", ⟨0, 0⟩, 60⟩, 0, 0, 4, 0, 1⟩ : LayoutEntry) ∈
        entryLayout [⟨"x", "h", "d", ⟨0, 0⟩, 60⟩, ⟨"x", "h", "d", ⟨0, 30⟩, 60⟩] ∧
    (⟨⟨"x", "h", "d", ⟨0, 30⟩, 60⟩, 0, 2, 4, 0, 1⟩ : LayoutEntry) ∈
        entryLayout [⟨"x", "h", "d", ⟨0, 0⟩, 60⟩, ⟨"x", "h", "d", ⟨0, 30⟩, 60⟩] ∧
    (⟨⟨"x", "h", "d", ⟨0, 0⟩, 60⟩, 0, 0, 4, 0, 1⟩ : LayoutEntry) ≠
        ⟨⟨"x", "h", "d", ⟨0, 30⟩, 60⟩, 0, 2, 4, 0, 1⟩ ∧
    (0 : Int) = 0 ∧ (0 : Int) = 0 ∧
    ((0 : Int) ≤ 2 ∧ (2 : Int) < 0 + 4) ∧ ((2 : Int) ≤ 2 ∧ (2 : Int) < 2 + 4) := by
  decide

/-- C7 (amended): provided the day's entries carry pairwise distinct
ids, any two distinct records of the `entryLayout` output that lie in
the same column and carry the same position index occupy disjoint row
ranges.  With duplicate ids the two segments share the Map key
`id:col`, the second is never repositioned, and the guarantee fails
(`entryLayout_track_disjoint_counterexample`). -/
theorem entryLayout_track_disjoint (dayEntries : List TimedEntry)
    (hids : dayEntries.Pairwise (fun a b => a.id ≠ b.id)) :
    ∀ l1 ∈ entryLayout dayEntries, ∀ l2 ∈ entryLayout dayEntries, l1 ≠ l2 →
      l1.col = l2.col → l1.position = l2.position →
      ∀ r : Int, l1.startRow ≤ r → r < l1.startRow + l1.rowSpan →
        ¬(l2.startRow ≤ r ∧ r < l2.startRow + l2.rowSpan) := by
  intro l1 hl1 l2 hl2 hne hcol hpos r hr1a hr1b
  rintro ⟨hr2a, hr2b⟩
  rw [entryLayout] at hl1 hl2
  obtain ⟨s1, hs1, hf1⟩ := List.mem_map.mp hl1
  obtain ⟨s2, hs2, hf2⟩ := List.mem_map.mp hl2
  have hl1col : l1.col = s1.col := by rw [← hf1]
  have hl2col : l2.col = s2.col := by rw [← hf2]
  have hl1sr : l1.startRow = s1.startRow := by rw [← hf1]
  have hl2sr : l2.startRow = s2.startRow := by rw [← hf2]
  have hl1sp : l1.rowSpan = s1.rowSpan := by rw [← hf1]
  have hl2sp : l2.rowSpan = s2.rowSpan := by rw [← hf2]
  have hl1pos : l1.position = (mapLookup (s1.entry.id, s1.col)
      (segmentPosition dayEntries
        (slotToSegmentKeys (entrySlots dayEntries)))).getD 0 := by
    rw [← hf1]
  have hl2pos : l2.position = (mapLookup (s2.entry.id, s2.col)
      (segmentPosition dayEntries
        (slotToSegmentKeys (entrySlots dayEntries)))).getD 0 := by
    rw [← hf2]
  obtain ⟨e1, he1, hsf1⟩ := (mem_entrySlots _ _).mp hs1
  obtain ⟨-, hc1a, hc1b, hrow1a, hspan1, hrow1b⟩ := mem_entrySlotsFor e1 s1 hsf1
  obtain ⟨e2, he2, hsf2⟩ := (mem_entrySlots _ _).mp hs2
  obtain ⟨-, hc2a, hc2b, hrow2a, hspan2, hrow2b⟩ := mem_entrySlotsFor e2 s2 hsf2
  have hsne : s1 ≠ s2 := by
    intro h
    apply hne
    rw [← hf1, ← hf2, h]
  have hcc : s1.col = s2.col := by
    rw [← hl1col, ← hl2col]
    exact hcol
  have hidne : s1.entry.id ≠ s2.entry.id := by
    intro hid
    exact hsne (entrySlots_key_unique dayEntries hids s1 s2 hs1 hs2 hcc hid)
  have hin1 : inSlot (slotToSegmentKeys (entrySlots dayEntries)) s1.col r
      (s1.entry.id, s1.col) := by
    rw [inSlot_slotToSegmentKeys]
    exact ⟨s1, hs1, rfl, rfl, by omega, by omega⟩
  have hin2 : inSlot (slotToSegmentKeys (entrySlots dayEntries)) s1.col r
      (s2.entry.id, s2.col) := by
    rw [inSlot_slotToSegmentKeys]
    exact ⟨s2, hs2, hcc.symm, rfl, by omega, by omega⟩
  obtain ⟨S, hSlook, hk1S⟩ := hin1
  obtain ⟨S2, hS2look, hk2S2⟩ := hin2
  have hSeq : S2 = S := Option.some_inj.mp (hS2look ▸ hSlook)
  have hspec := segmentPosition_spec dayEntries
    (slotToSegmentKeys (entrySlots dayEntries))
    (slotToSegmentKeys_values_col _) (slotToSegmentKeys_values_nodup _)
    (entrySlots_convex dayEntries hids) s1.col r hc1a hc1b (by omega) (by omega)
    S hSlook
  obtain ⟨p1, hp1⟩ := hspec.1 (s1.entry.id, s1.col) hk1S
  obtain ⟨p2, hp2⟩ := hspec.1 (s2.entry.id, s2.col) (hSeq ▸ hk2S2)
  have hkne : ((s1.entry.id, s1.col) : String × Int) ≠ (s2.entry.id, s2.col) :=
    fun h => hidne (congrArg Prod.fst h)
  refine hspec.2 _ hk1S _ (hSeq ▸ hk2S2) hkne p1 p2 hp1 hp2 ?_
  have e1p : l1.position = p1 := by rw [hl1pos, hp1]; rfl
  have e2p : l2.position = p2 := by rw [hl2pos, hp2]; rfl
  rw [← e1p, ← e2p]
  exact hpos

/-- C7 witness: two distinct-id entries at 00:00 and 02:00 both sit in
column 0 at position 0; the amended theorem applies and yields disjoint
row ranges, checked at row 0. -/
theorem entryLayout_track_disjoint_witness :
    ([⟨"x", "h", "d", ⟨0, 0⟩, 60⟩, ⟨"w", "h", "d", ⟨2, 0⟩, 60⟩] :
      List TimedEntry).Pairwise (fun a b => a.id ≠ b.id) ∧
    ¬((⟨⟨"w", "h", "d", ⟨2, 0⟩, 60⟩, 0, 8, 4, 0, 1⟩ : LayoutEntry).startRow ≤ 0 ∧
      (0 : Int) < (⟨⟨"w", "h", "d", ⟨2, 0⟩, 60⟩, 0, 8, 4, 0, 1⟩ :
        LayoutEntry).startRow +
        (⟨⟨"w", "h", "d", ⟨2, 0⟩, 60⟩, 0, 8, 4, 0, 1⟩ : LayoutEntry).rowSpan) :=
  ⟨by decide,
    entryLayout_track_disjoint
      [⟨"x", "h", "d", ⟨0, 0⟩, 60⟩, ⟨"w", "h", "d", ⟨2, 0⟩, 60⟩] (by decide)
      ⟨⟨"x", "h", "d", ⟨0, 0⟩, 60⟩, 0, 0, 4, 0, 1⟩ (by decide)
      ⟨⟨"w", "h", "d", ⟨2, 0⟩, 60⟩, 0, 8, 4, 0, 1⟩ (by decide)
      (by decide) (by decide) (by decide) 0 (by decide) (by decide)⟩

end MinimalHabits
